import Mathlib

/-!
# Verification development for the byte-level BPE tokenizer and the text generator

Shallow embedding of `src/src/tokenizer.cpp` and `src/src/text_generator.cpp`.

* `std::string` is a list of bytes (`Str`), each byte a natural number below 256.
* `std::unordered_map` is an association list with at most one entry per key;
  `Map.assign` is `m[k] = v` and `Map.find` is `m.find(k)`.
* `while` loops are recursions on a fuel argument and return `none` when the fuel
  runs out; termination lemmas show that the fuel given by the callers suffices.
-/

namespace Inference

/-! ## Data model -/

/-- A `std::string`: the list of its bytes. -/
abbrev Str := List Nat

/-- A `std::unordered_map`: association list holding one entry per key. -/
abbrev Map (κ ν : Type) := List (κ × ν)

/-- The lookup `m.find(k)`: `none` stands for `m.end()`. -/
def Map.find {κ ν : Type} [DecidableEq κ] : Map κ ν → κ → Option ν
  | [], _ => none
  | (k', v) :: rest, k => if k' = k then some v else Map.find rest k

/-- The assignment `m[k] = v`: overwrites the entry of `k` when there is one,
inserts a new entry otherwise. -/
def Map.assign {κ ν : Type} [DecidableEq κ] : Map κ ν → κ → ν → Map κ ν
  | [], k, v => [(k, v)]
  | (k', v') :: rest, k, v =>
    if k' = k then (k, v) :: rest else (k', v') :: Map.assign rest k v

/-- The read `m[k]` of `operator[]`: an absent key yields the default value. -/
def Map.at {κ ν : Type} [DecidableEq κ] [Inhabited ν] (m : Map κ ν) (k : κ) : ν :=
  (Map.find m k).getD default

/-! ## Byte-level mapper (`Tokenizer::init_byte_encoder`) -/

/-- The conversion `static_cast<char>(x)` of an `int` to an 8-bit character, and
`static_cast<unsigned char>(x)`: the value modulo 256. -/
def to_char (x : Nat) : Nat := x % 256

/-- Lines 23-25: the bytes pushed by the three initial `for` loops. -/
def printable_bytes : List Nat :=
  List.range' 33 94 ++ List.range' 161 12 ++ List.range' 174 82

/-- One iteration of the loop of lines 31-37 on the state
`(byte_list, char_list, n)`. -/
def fill_step (st : List Nat × List Nat × Nat) (b : Nat) : List Nat × List Nat × Nat :=
  if b ∈ st.1 then st
  else (st.1 ++ [b], st.2.1 ++ [256 + st.2.2], st.2.2 + 1)

/-- Lines 20-37: `byte_list` and `char_list` after the fill loop. -/
def byte_char_lists : List Nat × List Nat :=
  let st := (List.range 256).foldl fill_step (printable_bytes, printable_bytes, 0)
  (st.1, st.2.1)

/-- One iteration of the loop of lines 40-45 on `(byte_encoder_, byte_decoder_)`. -/
def table_step (tabs : Map Nat Str × Map Str Nat) (bc : Nat × Nat) :
    Map Nat Str × Map Str Nat :=
  let byte := to_char bc.1
  let unicode_char : Str := [to_char bc.2]
  (Map.assign tabs.1 byte unicode_char, Map.assign tabs.2 unicode_char byte)

/-- The function `Tokenizer::init_byte_encoder`: the pair
`(byte_encoder_, byte_decoder_)` it leaves in the tokenizer. -/
def init_byte_encoder : Map Nat Str × Map Str Nat :=
  (byte_char_lists.1.zip byte_char_lists.2).foldl table_step ([], [])

/-- The member `byte_encoder_`; it is written only by `init_byte_encoder`, which
the constructor runs, so it is the same table in every `Tokenizer`. -/
@[irreducible] def byte_encoder_ : Map Nat Str := init_byte_encoder.1

/-- The member `byte_decoder_` (see `byte_encoder_`). -/
@[irreducible] def byte_decoder_ : Map Str Nat := init_byte_encoder.2

/-! ## Tokenizer state -/

/-- The loaded members of `Tokenizer`: `vocab_`, `reverse_vocab_` and `merges_`.
Token ids are C++ `int`s. -/
structure Tokenizer where
  vocab_ : Map Str Int
  reverse_vocab_ : Map Int Str
  merges_ : List (Str × Str)

/-! ## Pretokenizer (`Tokenizer::split_to_words`)

The pattern of line 98 is
`'s|'t|'re|'ve|'m|'ll|'d| ?[a-zA-Z]+| ?[0-9]+| ?[^\s\w]+|\s+`, matched by
`std::regex` (ECMAScript grammar, classic locale): alternatives are tried in
order and the first one that matches wins, quantifiers are greedy. -/

/-- The class `\s` in the classic locale: space, `\t`, `\n`, `\v`, `\f`, `\r`. -/
def is_space (c : Nat) : Bool := c == 32 || (9 ≤ c && c ≤ 13)

/-- The bracket `[a-zA-Z]`. -/
def is_letter (c : Nat) : Bool := (65 ≤ c && c ≤ 90) || (97 ≤ c && c ≤ 122)

/-- The bracket `[0-9]`. -/
def is_digit (c : Nat) : Bool := 48 ≤ c && c ≤ 57

/-- The class `\w`: alphanumeric characters and the underscore. -/
def is_word (c : Nat) : Bool := is_letter c || is_digit c || c == 95

/-- The bracket `[^\s\w]`. -/
def is_other (c : Nat) : Bool := !(is_space c || is_word c)

/-- A literal alternative such as `'re`: the length matched at the start of `s`. -/
def match_literal (lit s : Str) : Option Nat :=
  if lit.isPrefixOf s then some lit.length else none

/-- The greedy `[cls]+` at the start of `s`. -/
def match_plus (cls : Nat → Bool) (s : Str) : Option Nat :=
  let n := (s.takeWhile cls).length
  if n = 0 then none else some n

/-- The alternative ` ?[cls]+`: the optional space is taken first and given back
when the run cannot start after it. -/
def match_opt_space_plus (cls : Nat → Bool) (s : Str) : Option Nat :=
  match s with
  | 32 :: rest =>
    match match_plus cls rest with
    | some n => some (n + 1)
    | none => match_plus cls s
  | _ => match_plus cls s

/-- Ordered alternation: the first alternative that matches. -/
def match_first : List (Str → Option Nat) → Str → Option Nat
  | [], _ => none
  | alt :: alts, s =>
    match alt s with
    | some n => some n
    | none => match_first alts s

/-- The alternatives of the pattern of line 98, in order. -/
def pattern_alternatives : List (Str → Option Nat) :=
  [match_literal [39, 115], match_literal [39, 116], match_literal [39, 114, 101],
   match_literal [39, 118, 101], match_literal [39, 109], match_literal [39, 108, 108],
   match_literal [39, 100],
   match_opt_space_plus is_letter, match_opt_space_plus is_digit,
   match_opt_space_plus is_other, match_plus is_space]

/-- The length of the match of the pattern anchored at the start of `s`. -/
def match_pattern (s : Str) : Option Nat := match_first pattern_alternatives s

/-- The iteration of `std::sregex_iterator` over the rest `s` of the text
(lines 101-106): a position where the pattern does not match is passed over,
a match is pushed to `words` and the search resumes at its end. -/
def split_loop : Nat → Str → List Str → Option (List Str)
  | 0, _, _ => none
  | _ + 1, [], words => some words
  | fuel + 1, c :: rest, words =>
    match match_pattern (c :: rest) with
    | some n => split_loop fuel ((c :: rest).drop n) (words ++ [(c :: rest).take n])
    | none => split_loop fuel rest words

/-- The function `Tokenizer::split_to_words`. The fuel never runs out
(`split_loop_terminates`). -/
def split_to_words (text : Str) : List Str :=
  (split_loop (text.length + 1) text []).getD []

/-! ## BPE encoder -/

/-- The function `Tokenizer::get_pairs`: `word[i] + " " + word[i + 1]` for every
adjacent pair. -/
def get_pairs : List Str → List Str
  | a :: b :: rest => (a ++ [32] ++ b) :: get_pairs (b :: rest)
  | _ => []

/-- The extraction `iss >> s`: leading whitespace is skipped, then characters are
taken up to the next whitespace; returns the extracted string and the rest of the
stream. -/
def extract_word (stream : Str) : Str × Str :=
  let s := stream.dropWhile is_space
  (s.takeWhile (fun c => !is_space c), s.dropWhile (fun c => !is_space c))

/-- Lines 140-142: `iss >> first >> second` on one pair string. -/
def parse_pair (pair : Str) : Str × Str :=
  let r1 := extract_word pair
  (r1.1, (extract_word r1.2).1)

/-- Lines 145-153, the search part: the first `j` with
`merges_[j] == (first, second)`, starting the count at `j`. -/
def find_merge (first second : Str) : List (Str × Str) → Nat → Option Nat
  | [], _ => none
  | m :: ms, j =>
    if m.1 = first ∧ m.2 = second then some j else find_merge first second ms (j + 1)

/-- Lines 139-154: the scan of `pairs` from index `i` on, with the state
`(best_merge_idx, best_merge_rank)`. -/
def scan_pairs (merges : List (Str × Str)) : List Str → Nat → Int × Nat → Int × Nat
  | [], _, best => best
  | pair :: pairs, i, best =>
    let fs := parse_pair pair
    match find_merge fs.1 fs.2 merges 0 with
    | some j =>
      if j < best.2 then scan_pairs merges pairs (i + 1) ((i : Int), j)
      else scan_pairs merges pairs (i + 1) best
    | none => scan_pairs merges pairs (i + 1) best

/-- Lines 159-170: the rebuilt `new_word`, reading `word` from index `i` on. -/
def apply_merge (best_merge_idx : Int) : Nat → List Str → List Str
  | _, [] => []
  | _, [a] => [a]
  | i, a :: b :: rest =>
    if (i : Int) = best_merge_idx then (a ++ b) :: apply_merge best_merge_idx (i + 2) rest
    else a :: apply_merge best_merge_idx (i + 1) (b :: rest)

/-- One pass through the body of the `while (true)` of lines 131-173 up to the
assignment `word = new_word`: `none` when the loop is left by one of the two
`break`s before the merge, the new word otherwise. -/
def bpe_step (merges : List (Str × Str)) (word : List Str) : Option (List Str) :=
  let pairs := get_pairs word
  if pairs = [] then none
  else
    let best := scan_pairs merges pairs 0 (-1, merges.length)
    if best.1 = -1 then none
    else some (apply_merge best.1 0 word)

/-- The loop `while (true)` of lines 131-173. -/
def bpe_loop (merges : List (Str × Str)) : Nat → List Str → Option (List Str)
  | 0, _ => none
  | fuel + 1, word =>
    match bpe_step merges word with
    | none => some word
    | some new_word =>
      if new_word.length = 1 then some new_word else bpe_loop merges fuel new_word

/-- Lines 123-126: the initial symbol sequence of a pretoken. -/
def initial_word (token : Str) : List Str :=
  token.map (fun c => Map.at byte_encoder_ (to_char c))

/-- The function `Tokenizer::byte_pair_encode`. The fuel never runs out
(`bpe_loop_terminates`). -/
def byte_pair_encode (tok : Tokenizer) (token : Str) : List Str :=
  let word := initial_word token
  if word.length = 1 then word
  else (bpe_loop tok.merges_ (word.length + 1) word).getD word

/-- Lines 188-195: the inner loop of `encode` over the symbols of one pretoken. -/
def push_ids (tok : Tokenizer) (token_ids : List Int) (bpe_tokens : List Str) : List Int :=
  bpe_tokens.foldl
    (fun ids token =>
      match Map.find tok.vocab_ token with
      | some id => ids ++ [id]
      | none => ids)
    token_ids

/-- The function `Tokenizer::encode`. -/
def encode (tok : Tokenizer) (text : Str) : List Int :=
  (split_to_words text).foldl
    (fun token_ids word => push_ids tok token_ids (byte_pair_encode tok word)) []

/-! ## Decoder -/

/-- The conversion `static_cast<int>(n)` of a `size_t` to a 32-bit `int`
(two's complement). -/
def to_int (n : Nat) : Int :=
  if n % 2 ^ 32 < 2 ^ 31 then ((n % 2 ^ 32 : Nat) : Int)
  else ((n % 2 ^ 32 : Nat) : Int) - 2 ^ 32

/-- Lines 204-209: the concatenation of the token strings of the known ids. -/
def join_tokens (tok : Tokenizer) (tokens : List Int) : Str :=
  tokens.foldl
    (fun text token_id =>
      match Map.find tok.reverse_vocab_ token_id with
      | some s => text ++ s
      | none => text)
    []

/-- Lines 220-229: the `for` over `len` from its start value down to 1, on the rest
`s` of the text, with `dec` for `byte_decoder_`; returns the decoded byte and the
matched length. -/
def try_lengths (dec : Map Str Nat) (s : Str) : Nat → Option (Nat × Nat)
  | 0 => none
  | len + 1 =>
    match Map.find dec (s.take (len + 1)) with
    | some b => some (b, len + 1)
    | none => try_lengths dec s len

/-- Lines 215-236: the loop `while (i < text.length())`, on the rest `s` of the
text from position `i`, with `dec` for `byte_decoder_`. -/
def decode_loop (dec : Map Str Nat) : Nat → Str → Str → Option Str
  | 0, _, _ => none
  | _ + 1, [], result => some result
  | fuel + 1, c :: rest, result =>
    match try_lengths dec (c :: rest) (min (to_int (c :: rest).length) 4).toNat with
    | some (b, len) => decode_loop dec fuel ((c :: rest).drop len) (result ++ [to_char b])
    | none => decode_loop dec fuel rest (result ++ [c])

/-- Lines 213-238: the byte reconstruction of a symbol string. The fuel never runs
out (`decode_loop_terminates`). -/
def decode_bytes (text : Str) : Str :=
  (decode_loop byte_decoder_ (text.length + 1) text []).getD []

/-- The function `Tokenizer::decode`. -/
def decode (tok : Tokenizer) (tokens : List Int) : Str :=
  decode_bytes (join_tokens tok tokens)

/-! ## Sampling strategies (`text_generator.cpp`)

A `float` is an element of a linearly ordered field `α`: the real number it stands
for (no NaN, no infinity); comparisons of floats are exact. The operators `+`, `-`
and `/` on `float` and `std::exp` round their results: they are the fields of a
parameter `fl : FloatOps α`, of which nothing is assumed. A call `dist(rng_)` of a
`std::discrete_distribution<int>` built from the weights `w` is a parameter
`dist : List α → Nat`, the index drawn for `w`; the library returns an index below
the number of weights. An access outside a vector is undefined behaviour in C++ and
makes the model return `none`. -/

section Sampling

variable {α : Type} [LinearOrderedField α]

/-- The scan of `std::max_element` over the rest `xs` of the range, whose first
element has index `i`; `best_idx` is the index of the current result and `best` its
value. The result moves only to a strictly larger element. -/
def max_element_from : List α → Nat → Nat → α → Nat
  | [], _, best_idx, _ => best_idx
  | x :: xs, i, best_idx, best =>
    if best < x then max_element_from xs (i + 1) i x
    else max_element_from xs (i + 1) best_idx best

/-- The call `std::max_element(v.begin(), v.end())`, as the index of the result;
on an empty vector the result is `v.end()`, which is index 0. -/
def max_element : List α → Nat
  | [] => 0
  | x :: xs => max_element_from xs 1 0 x

/-- The function `TextGenerator::sample_greedy`. -/
def sample_greedy (logits : List α) : Nat := max_element logits

/-- The arithmetic of `float` that the sampling functions use: `add`, `sub` and
`div` are the operators `+`, `-` and `/` on two floats, each giving the rounded
result, and `exp` is `std::exp` on a float. -/
structure FloatOps (α : Type) where
  add : α → α → α
  sub : α → α → α
  div : α → α → α
  exp : α → α

/-- The arithmetic that does not round, with `exp` for `std::exp`: what the float
operators give on arguments whose exact result is a float. -/
def exact_ops (exp : α → α) : FloatOps α :=
  { add := fun x y => x + y, sub := fun x y => x - y, div := fun x y => x / y, exp := exp }

/-- The function `TextGenerator::softmax`; `none` on an empty vector, where line 39
dereferences `logits.end()`. The sum of line 45 is accumulated in `float`, from
`0.0f`, in index order. -/
def softmax (fl : FloatOps α) (logits : List α) (temperature : α) : Option (List α) :=
  match logits[max_element logits]? with
  | none => none
  | some max_logit =>
    let probs := logits.map (fun x => fl.exp (fl.div (fl.sub x max_logit) temperature))
    let sum := probs.foldl fl.add 0
    some (probs.map (fun x => fl.div x sum))

/-- The function `TextGenerator::sample_with_temperature`. -/
def sample_with_temperature (fl : FloatOps α) (dist : List α → Nat) (logits : List α)
    (temperature : α) : Option Nat :=
  (softmax fl logits temperature).map dist

/-! ### `std::partial_sort` as implemented by libstdc++

The standard leaves the order of equivalent elements unspecified; the functions
below follow `bits/stl_heap.h` and `bits/stl_algo.h` (`__push_heap`,
`__adjust_heap`, `__pop_heap`, `__make_heap`, `__heap_select`, `__sort_heap`) on a
vector of indices `v`, the heap being `v[0 .. len)`. Positions are `ptrdiff_t`
values whose division truncates; `(holeIndex - 1) / 2` and `(len - 1) / 2` are
evaluated where the truncated natural subtraction gives the same quotient. -/

/-- The loop of `std::__push_heap(first, holeIndex, topIndex, value, comp)` followed
by the final store of `value`. -/
def push_heap (comp : Nat → Nat → Bool) (value topIndex : Nat) :
    Nat → List Nat → Nat → Option (List Nat)
  | 0, _, _ => none
  | fuel + 1, v, holeIndex =>
    let parent := (holeIndex - 1) / 2
    if holeIndex > topIndex ∧ comp (v.getD parent 0) value then
      push_heap comp value topIndex fuel (v.set holeIndex (v.getD parent 0)) parent
    else some (v.set holeIndex value)

/-- The `while` loop of `std::__adjust_heap`: returns the vector, `holeIndex` and
`secondChild` at its exit. -/
def sift_hole (comp : Nat → Nat → Bool) (len : Nat) :
    Nat → List Nat → Nat → Nat → Option (List Nat × Nat × Nat)
  | 0, _, _, _ => none
  | fuel + 1, v, holeIndex, secondChild =>
    if secondChild < (len - 1) / 2 then
      let c := 2 * (secondChild + 1)
      let c := if comp (v.getD c 0) (v.getD (c - 1) 0) then c - 1 else c
      sift_hole comp len fuel (v.set holeIndex (v.getD c 0)) c c
    else some (v, holeIndex, secondChild)

/-- The function `std::__adjust_heap(first, holeIndex, len, value, comp)`. -/
def adjust_heap (comp : Nat → Nat → Bool) (v : List Nat) (holeIndex len value : Nat) :
    Option (List Nat) :=
  match sift_hole comp len (len + 1) v holeIndex holeIndex with
  | none => none
  | some (v, hole, secondChild) =>
    if len % 2 = 0 ∧ (secondChild : Int) = Int.tdiv ((len : Int) - 2) 2 then
      let c := 2 * (secondChild + 1)
      push_heap comp value holeIndex (len + 1) (v.set hole (v.getD (c - 1) 0)) (c - 1)
    else push_heap comp value holeIndex (len + 1) v hole

/-- The function `std::__pop_heap(first, last, result, comp)` with
`len = last - first`. -/
def pop_heap (comp : Nat → Nat → Bool) (v : List Nat) (len result : Nat) :
    Option (List Nat) :=
  adjust_heap comp (v.set result (v.getD 0 0)) 0 len (v.getD result 0)

/-- The loop of `std::__make_heap`, from `parent` down to 0. -/
def make_heap_loop (comp : Nat → Nat → Bool) (len : Nat) :
    Nat → List Nat → Option (List Nat)
  | 0, v => adjust_heap comp v 0 len (v.getD 0 0)
  | parent + 1, v =>
    match adjust_heap comp v (parent + 1) len (v.getD (parent + 1) 0) with
    | none => none
    | some v => make_heap_loop comp len parent v

/-- The function `std::__make_heap(first, first + len, comp)`. -/
def make_heap (comp : Nat → Nat → Bool) (v : List Nat) (len : Nat) : Option (List Nat) :=
  if len < 2 then some v else make_heap_loop comp len ((len - 2) / 2) v

/-- The loop of `std::__heap_select` over the positions `is` at and after `middle`. -/
def heap_select_loop (comp : Nat → Nat → Bool) (len : Nat) :
    List Nat → List Nat → Option (List Nat)
  | [], v => some v
  | i :: is, v =>
    if comp (v.getD i 0) (v.getD 0 0) then
      match pop_heap comp v len i with
      | none => none
      | some v => heap_select_loop comp len is v
    else heap_select_loop comp len is v

/-- The loop of `std::__sort_heap`: `last` runs from `len` down to 2. -/
def sort_heap : (Nat → Nat → Bool) → Nat → List Nat → Option (List Nat)
  | _, 0, v => some v
  | comp, last + 1, v =>
    if last + 1 > 1 then
      match pop_heap comp v last last with
      | none => none
      | some v => sort_heap comp last v
    else some v

/-- The call `std::partial_sort(v.begin(), v.begin() + k, v.end(), comp)` of
libstdc++; `none` when `k` is past the end of the vector. -/
def heap_partial_sort (comp : Nat → Nat → Bool) (k : Nat) (v : List Nat) :
    Option (List Nat) :=
  if k > v.length then none
  else
    match make_heap comp v k with
    | none => none
    | some v =>
      match heap_select_loop comp k (List.range' k (v.length - k)) v with
      | none => none
      | some v => sort_heap comp k v

/-- The comparator of lines 75 and 99: `values[a] > values[b]`. -/
def greater_at (values : List α) (a b : Nat) : Bool :=
  decide (values.getD b 0 < values.getD a 0)

/-- The function `TextGenerator::sample_top_k`, for the `std::partial_sort`
`psort`; `k` is positive at its only call site. -/
def sample_top_k (psort : (Nat → Nat → Bool) → Nat → List Nat → Option (List Nat))
    (fl : FloatOps α) (dist : List α → Nat) (logits : List α) (k : Nat) (temperature : α) :
    Option Nat :=
  match psort (greater_at logits) k (List.range logits.length) with
  | none => none
  | some indices =>
    let top_k_logits := (indices.take k).map (fun i => logits.getD i 0)
    match softmax fl top_k_logits temperature with
    | none => none
    | some probs => indices[dist probs]?

/-- Lines 102-109: the scan that finds `nucleus_size`, over the rest of `indices`,
with the running `cumsum` and the size reached so far; `cumsum += probs[indices[i]]`
is an addition of floats. -/
def nucleus_scan (fl : FloatOps α) (probs : List α) (p : α) : List Nat → α → Nat → Nat
  | [], _, nucleus_size => nucleus_size
  | idx :: rest, cumsum, nucleus_size =>
    if fl.add cumsum (probs.getD idx 0) ≥ p then nucleus_size + 1
    else nucleus_scan fl probs p rest (fl.add cumsum (probs.getD idx 0)) (nucleus_size + 1)

/-- Lines 96-99: the indices sorted by descending probability, for the `std::sort`
`sort`. -/
def sorted_indices (sort : (Nat → Nat → Bool) → List Nat → List Nat) (probs : List α) :
    List Nat :=
  sort (greater_at probs) (List.range probs.length)

/-- Lines 96-109: the nucleus, the first `nucleus_size` sorted indices. -/
def top_p_nucleus (sort : (Nat → Nat → Bool) → List Nat → List Nat) (fl : FloatOps α)
    (probs : List α) (p : α) : List Nat :=
  (sorted_indices sort probs).take
    (nucleus_scan fl probs p (sorted_indices sort probs) 0 0)

/-- Lines 112-123: the renormalised nucleus probabilities; the sum and the divisions
are those of floats. -/
def nucleus_weights (fl : FloatOps α) (probs : List α) (nucleus : List Nat) : List α :=
  let nucleus_probs := nucleus.map (fun i => probs.getD i 0)
  let nucleus_sum := nucleus_probs.foldl fl.add 0
  nucleus_probs.map (fun x => fl.div x nucleus_sum)

/-- Lines 95-128: the part of `sample_top_p` after the softmax. -/
def top_p_select (sort : (Nat → Nat → Bool) → List Nat → List Nat) (fl : FloatOps α)
    (dist : List α → Nat) (probs : List α) (p : α) : Option Nat :=
  (sorted_indices sort probs)[dist
    (nucleus_weights fl probs (top_p_nucleus sort fl probs p))]?

/-- The contract of `std::sort` for the call of lines 98-99 on `values`: the result
is a permutation of the indices in which no element compares before an earlier one.
The order of indices of equal value is left open, as in the standard. -/
def SortsDescending (sort : (Nat → Nat → Bool) → List Nat → List Nat)
    (values : List α) : Prop :=
  (sorted_indices sort values).Perm (List.range values.length) ∧
    (sorted_indices sort values).Pairwise (fun a b => greater_at values b a = false)

/-- The function `TextGenerator::sample_top_p`, for the `std::sort` `sort`. -/
def sample_top_p (sort : (Nat → Nat → Bool) → List Nat → List Nat) (fl : FloatOps α)
    (dist : List α → Nat) (logits : List α) (p temperature : α) : Option Nat :=
  match softmax fl logits temperature with
  | none => none
  | some probs => top_p_select sort fl dist probs p

end Sampling

/-! ## Generation controller (`TextGenerator::generate`) -/

section Generation

variable {α : Type} [LinearOrderedField α]

/-- The struct `GenerationConfig` of `text_generator.h`. -/
structure GenerationConfig (α : Type) where
  max_length : Int
  temperature : α
  top_k : Int
  top_p : α
  eos_token_id : Int

/-- The collaborators of `generate`: `forward i ids` is the buffer returned by the
`i`-th call `engine_.forward(input_ids)` (empty on failure), `vocab_size` the value
of `engine_.get_vocab_size()`, `dist i` the draw `dist(rng_)` of step `i`, and
`fl` the arithmetic of `float`, and `sort`, `psort` the library functions
`std::sort` and `std::partial_sort`. -/
structure Env (α : Type) where
  forward : Nat → List Int → List α
  vocab_size : Nat
  fl : FloatOps α
  dist : Nat → List α → Nat
  sort : (Nat → Nat → Bool) → List Nat → List Nat
  psort : (Nat → Nat → Bool) → Nat → List Nat → Option (List Nat)

/-- The reads `read i` for the `i` of a list, in order; `none` as soon as one of
them is outside the vector. -/
def read_all (read : Nat → Option α) : List Nat → Option (List α)
  | [] => some []
  | i :: is =>
    match read i with
    | none => none
    | some x =>
      match read_all read is with
      | none => none
      | some xs => some (x :: xs)

/-- The function `TextGenerator::get_last_token_logits`; `size_t` arithmetic is
modulo `2 ^ 64`, so `seq_len - 1` is `2 ^ 64 - 1` for `seq_len = 0`. -/
def get_last_token_logits (all_logits : List α) (seq_len vocab_size : Nat) :
    Option (List α) :=
  let offset := ((if seq_len = 0 then 2 ^ 64 - 1 else seq_len - 1) * vocab_size) % 2 ^ 64
  read_all (fun i => all_logits[(offset + i) % 2 ^ 64]?) (List.range vocab_size)

/-- Lines 157-166: the choice of the sampling strategy and the sampled index. -/
def sample_next (env : Env α) (cfg : GenerationConfig α) (step : Nat)
    (last_logits : List α) : Option Nat :=
  if cfg.temperature = 0 then some (sample_greedy last_logits)
  else if cfg.top_k > 0 ∧ cfg.top_k < (env.vocab_size : Int) then
    sample_top_k env.psort env.fl (env.dist step) last_logits cfg.top_k.toNat
      cfg.temperature
  else if cfg.top_p < 1 then
    sample_top_p env.sort env.fl (env.dist step) last_logits cfg.top_p cfg.temperature
  else sample_with_temperature env.fl (env.dist step) last_logits cfg.temperature

/-- What lines 146-166 produce in one iteration of the generation loop. -/
inductive StepResult where
  | empty_logits : StepResult
  | undefined : StepResult
  | sampled : Int → StepResult
  deriving DecidableEq

/-- Lines 146-166 of iteration `step`: the forward pass, the test for an empty
buffer, the slice of the last position and the sampling. -/
def gen_step (env : Env α) (cfg : GenerationConfig α) (step : Nat)
    (input_ids : List Int) : StepResult :=
  let logits := env.forward step input_ids
  if logits.isEmpty then StepResult.empty_logits
  else
    match get_last_token_logits logits input_ids.length env.vocab_size with
    | none => StepResult.undefined
    | some last_logits =>
      match sample_next env cfg step last_logits with
      | none => StepResult.undefined
      | some next_token => StepResult.sampled (next_token : Int)

/-- The state of the generation loop: the token sequence `input_ids`, the text
fragments printed so far, and whether every access so far was inside its vector. -/
structure GenState where
  input_ids : List Int
  fragments : List Str
  defined : Bool
  deriving DecidableEq

/-- The loop of lines 144-181 with `remaining` iterations left, the next one being
iteration `step`. -/
def gen_loop (env : Env α) (tok : Tokenizer) (cfg : GenerationConfig α) :
    Nat → Nat → GenState → GenState
  | 0, _, st => st
  | remaining + 1, step, st =>
    match gen_step env cfg step st.input_ids with
    | StepResult.empty_logits => st
    | StepResult.undefined => { st with defined := false }
    | StepResult.sampled next_token =>
      if next_token = cfg.eos_token_id then st
      else
        gen_loop env tok cfg remaining (step + 1)
          { input_ids := st.input_ids ++ [next_token],
            fragments := st.fragments ++ [decode tok [next_token]],
            defined := st.defined }

/-- The state of `generate` when its loop is left. -/
def generate_run (env : Env α) (tok : Tokenizer) (cfg : GenerationConfig α)
    (prompt : Str) : GenState :=
  gen_loop env tok cfg cfg.max_length.toNat 0
    { input_ids := encode tok prompt, fragments := [], defined := true }

/-- Lines 186-187, the value returned from the state `st`: the decoding of the
token sequence, `none` when the run left the defined behaviour of C++. -/
def gen_result (tok : Tokenizer) (st : GenState) : Option Str :=
  if st.defined then some (decode tok st.input_ids) else none

/-- The function `TextGenerator::generate`. -/
def generate (env : Env α) (tok : Tokenizer) (cfg : GenerationConfig α)
    (prompt : Str) : Option Str :=
  gen_result tok (generate_run env tok cfg prompt)

end Generation

/-! ## Loading (`Tokenizer::load`)

The vocabulary file is given by the items of its JSON object, each id already
converted by `value.get<int>()`; the merges file by its bytes. A file that cannot be
opened is `none`. -/

/-- Lines 61-62, one iteration of the loop over `vocab_json.items()`, on the pair
`(vocab_, reverse_vocab_)`. -/
def vocab_step (maps : Map Str Int × Map Int Str) (item : Str × Int) :
    Map Str Int × Map Int Str :=
  (Map.assign maps.1 item.1 item.2, Map.assign maps.2 item.2 item.1)

/-- Lines 60-63: the loop over the items of the vocabulary. -/
def load_vocab (tok : Tokenizer) (items : List (Str × Int)) : Tokenizer :=
  { tok with
    vocab_ := (items.foldl vocab_step (tok.vocab_, tok.reverse_vocab_)).1,
    reverse_vocab_ := (items.foldl vocab_step (tok.vocab_, tok.reverse_vocab_)).2 }

/-- The lines that successive calls of `std::getline` return on a stream whose
remaining bytes are the first argument; the second argument is the part of the
current line read so far. A call at the end of the stream that reads nothing
fails. -/
def read_lines_from : Str → Str → List Str
  | [], line => if line = [] then [] else [line]
  | c :: rest, line =>
    if c = 10 then line :: read_lines_from rest [] else read_lines_from rest (line ++ [c])

/-- All the lines of a file, in the order `std::getline` returns them. -/
def read_lines (content : Str) : List Str := read_lines_from content []

/-- Lines 78-86: the body of the loop over the lines of the merges file. -/
def merges_step (merges : List (Str × Str)) (line : Str) : List (Str × Str) :=
  if line = [] then merges
  else
    let fs := parse_pair line
    if fs.1 ≠ [] ∧ fs.2 ≠ [] then merges ++ [fs] else merges

/-- Lines 74-87: the first line is read and dropped, the others go through the
loop. -/
def load_merges (tok : Tokenizer) (content : Str) : Tokenizer :=
  { tok with merges_ := ((read_lines content).drop 1).foldl merges_step tok.merges_ }

/-- The function `Tokenizer::load`: the returned flag and the tokenizer it leaves. -/
def load (tok : Tokenizer) (vocab_file : Option (List (Str × Int)))
    (merges_file : Option Str) : Bool × Tokenizer :=
  match vocab_file with
  | none => (false, tok)
  | some items =>
    match merges_file with
    | none => (false, load_vocab tok items)
    | some content => (true, load_merges (load_vocab tok items) content)

/-! ## Properties used to state the claims -/

/-- A string that is not empty and holds no whitespace: what `iss >> s` extracts
when it succeeds. -/
def WsFree (s : Str) : Prop := s ≠ [] ∧ ∀ c ∈ s, is_space c = false

/-- The rule lines of a merges file: the lines after the first from which
`iss >> first >> second` extracts two non-empty symbols. -/
def rule_lines (content : Str) : List Str :=
  ((read_lines content).drop 1).filter
    (fun line => decide ((parse_pair line).1 ≠ [] ∧ (parse_pair line).2 ≠ []))

/-- A MergeTable as `load` builds it: both symbols of every rule are non-empty and
free of whitespace. -/
def MergesWellFormed (merges : List (Str × Str)) : Prop :=
  ∀ r ∈ merges, WsFree r.1 ∧ WsFree r.2

/-- A symbol of a SymbolSequence: free of whitespace and non-empty, or made of
whitespace only. -/
def SymbolOk (s : Str) : Prop := WsFree s ∨ ∀ c ∈ s, is_space c = true

/-- The word `w2` is reached from `w1` by `m` passes of the merge loop that each
perform a merge. -/
inductive MergesTo (merges : List (Str × Str)) : Nat → List Str → List Str → Prop where
  | done (w : List Str) : MergesTo merges 0 w w
  | step (m : Nat) (w1 w2 w3 : List Str) :
      bpe_step merges w1 = some w2 → MergesTo merges m w2 w3 → MergesTo merges (m + 1) w1 w3

/-- The contract of `std::partial_sort` for the call of lines 74-75 on `values`: the
call returns a permutation of the indices whose first `k` elements are sorted and
are not preceded, in the order of the comparator, by any later element. -/
def PartialSortsDescending {α : Type} [LinearOrderedField α]
    (psort : (Nat → Nat → Bool) → Nat → List Nat → Option (List Nat))
    (values : List α) (k : Nat) : Prop :=
  ∃ v, psort (greater_at values) k (List.range values.length) = some v ∧
    v.Perm (List.range values.length) ∧
    (v.take k).Pairwise (fun a b => greater_at values b a = false) ∧
    ∀ a ∈ v.take k, ∀ b ∈ v.drop k, greater_at values b a = false

/-- What one iteration of the loop of lines 215-236 appends when only the lookup of
length 1 can succeed, on the byte `c` at the current position: the byte stored for
the symbol `[c]` in the table `dec`, or `c` itself when the symbol is not a key. -/
def decode_byte (dec : Map Str Nat) (c : Nat) : Nat :=
  match Map.find dec [c] with
  | some b => to_char b
  | none => c

/-- Spec-side: the whitespace-separated symbols of the rest of a line, `cur` being
the characters of the symbol read so far. -/
def ws_symbols_from : Str → Str → List Str
  | [], cur => if cur = [] then [] else [cur]
  | c :: rest, cur =>
    if is_space c = true then
      if cur = [] then ws_symbols_from rest [] else cur :: ws_symbols_from rest []
    else ws_symbols_from rest (cur ++ [c])

/-- Spec-side: the whitespace-separated symbol strings of a line, in order: its
maximal runs of characters that are not whitespace. -/
def ws_symbols (line : Str) : List Str := ws_symbols_from line []

/-- Spec-side: the rule that a line of the merges source denotes, made of its first
two whitespace-separated symbols; `none` for a line with fewer than two symbols. -/
def first_two_symbols (line : Str) : Option (Str × Str) :=
  match ws_symbols line with
  | a :: b :: _ => some (a, b)
  | _ => none

/-- The float arithmetic at the arguments that occur when `top_p_nucleus` runs on
five probabilities `0.2f` with the threshold `0.6f`: `0.0f + 0.2f` and `0.2f + 0.2f`
are exact, and `0.4f + 0.2f`, exactly 0.6000000089, is rounded to the nearest float,
`0.6f` = 0.6000000238. -/
def ops_sum_rounded_up : FloatOps ℚ :=
  { add := fun x y =>
      if x = 13421773 / 33554432 ∧ y = 13421773 / 67108864 then 5033165 / 8388608
      else x + y,
    sub := fun x y => x - y,
    div := fun x y => x / y,
    exp := fun x => x }

theorem try_lengths_pos (dec : Map Str Nat) (s : Str) : ∀ (n : Nat) (b len : Nat),
    try_lengths dec s n = some (b, len) → 1 ≤ len ∧ len ≤ n := by
  intro n
  induction n with
  | zero => intro b len h; simp [try_lengths] at h
  | succ k ih =>
    intro b len h
    unfold try_lengths at h
    split at h
    · simp only [Option.some.injEq, Prod.mk.injEq] at h
      omega
    · have := ih b len h
      omega

theorem decode_loop_terminates (dec : Map Str Nat) : ∀ (fuel : Nat) (s result : Str),
    s.length < fuel → ∃ r, decode_loop dec fuel s result = some r := by
  intro fuel
  induction fuel with
  | zero => intro s result h; omega
  | succ k ih =>
    intro s result h
    cases s with
    | nil => exact ⟨result, by simp [decode_loop]⟩
    | cons c rest =>
      unfold decode_loop
      split
      · rename_i b len hlen
        have hp := try_lengths_pos _ _ _ _ _ hlen
        apply ih
        simp only [List.length_drop, List.length_cons] at h ⊢
        omega
      · apply ih
        simp only [List.length_cons] at h
        omega

theorem match_plus_pos (cls : Nat → Bool) (s : Str) (n : Nat)
    (h : match_plus cls s = some n) : 0 < n := by
  unfold match_plus at h
  simp only at h
  split at h
  · simp at h
  · simp only [Option.some.injEq] at h
    omega

theorem match_opt_space_plus_pos (cls : Nat → Bool) (s : Str) (n : Nat)
    (h : match_opt_space_plus cls s = some n) : 0 < n := by
  unfold match_opt_space_plus at h
  split at h
  · split at h
    · simp only [Option.some.injEq] at h; omega
    · exact match_plus_pos _ _ _ h
  · exact match_plus_pos _ _ _ h

theorem match_literal_pos (lit s : Str) (n : Nat) (hl : 0 < lit.length)
    (h : match_literal lit s = some n) : 0 < n := by
  unfold match_literal at h
  split at h
  · simp only [Option.some.injEq] at h; omega
  · simp at h

theorem match_first_pos (alts : List (Str → Option Nat))
    (halts : ∀ alt ∈ alts, ∀ s n, alt s = some n → 0 < n) (s : Str) (n : Nat)
    (h : match_first alts s = some n) : 0 < n := by
  induction alts with
  | nil => simp [match_first] at h
  | cons alt alts ih =>
    unfold match_first at h
    split at h
    · rename_i m hm
      simp only [Option.some.injEq] at h
      subst h
      exact halts alt (List.mem_cons_self _ _) s m hm
    · exact ih (fun a ha => halts a (List.mem_cons_of_mem _ ha)) h

theorem match_pattern_pos (s : Str) (n : Nat) (h : match_pattern s = some n) : 0 < n := by
  refine match_first_pos pattern_alternatives ?_ s n h
  intro alt halt s n hs
  simp only [pattern_alternatives, List.mem_cons, List.mem_singleton, List.not_mem_nil,
    or_false] at halt
  rcases halt with h | h | h | h | h | h | h | h | h | h | h <;> subst h
  all_goals first
    | exact match_literal_pos _ _ _ (by decide) hs
    | exact match_opt_space_plus_pos _ _ _ hs
    | exact match_plus_pos _ _ _ hs

theorem split_loop_terminates : ∀ (fuel : Nat) (s : Str) (words : List Str),
    s.length < fuel → ∃ r, split_loop fuel s words = some r := by
  intro fuel
  induction fuel with
  | zero => intro s words h; omega
  | succ k ih =>
    intro s words h
    cases s with
    | nil => exact ⟨words, by simp [split_loop]⟩
    | cons c rest =>
      unfold split_loop
      split
      · rename_i n hn
        have hp := match_pattern_pos _ _ hn
        apply ih
        simp only [List.length_drop, List.length_cons] at h ⊢
        omega
      · apply ih
        simp only [List.length_cons] at h
        omega

theorem get_pairs_length : ∀ word : List Str, (get_pairs word).length = word.length - 1
  | [] => by simp [get_pairs]
  | [_] => by simp [get_pairs]
  | _ :: b :: rest => by
    have ih := get_pairs_length (b :: rest)
    simp only [get_pairs, List.length_cons] at ih ⊢
    omega

theorem scan_pairs_idx (merges : List (Str × Str)) : ∀ (pairs : List Str) (i : Nat)
    (best : Int × Nat),
    (scan_pairs merges pairs i best).1 = best.1 ∨
      ((i : Int) ≤ (scan_pairs merges pairs i best).1 ∧
        (scan_pairs merges pairs i best).1 < (i : Int) + pairs.length) := by
  intro pairs
  induction pairs with
  | nil => intro i best; left; simp [scan_pairs]
  | cons pair pairs ih =>
    intro i best
    unfold scan_pairs
    simp only [List.length_cons]
    split
    · split
      · rcases ih (i + 1) ((i : Int), _) with h | h
        · right; rw [h]; simp only; omega
        · right; push_cast at h ⊢; omega
      · rcases ih (i + 1) best with h | h
        · left; exact h
        · right; push_cast at h ⊢; omega
    · rcases ih (i + 1) best with h | h
      · left; exact h
      · right; push_cast at h ⊢; omega

theorem apply_merge_past (best : Int) : ∀ (word : List Str) (i : Nat),
    best < (i : Int) → apply_merge best i word = word := by
  intro word
  induction word with
  | nil => intro i _; simp [apply_merge]
  | cons a rest ih =>
    intro i h
    cases rest with
    | nil => simp [apply_merge]
    | cons b rest =>
      unfold apply_merge
      rw [if_neg (by omega), ih (i + 1) (by push_cast; omega)]

theorem apply_merge_length (best : Int) : ∀ (word : List Str) (i : Nat),
    (i : Int) ≤ best → best + 1 < (i : Int) + word.length →
    (apply_merge best i word).length + 1 = word.length := by
  intro word
  induction word with
  | nil => intro i h1 h2; simp only [List.length_nil] at h2; omega
  | cons a rest ih =>
    intro i h1 h2
    cases rest with
    | nil => simp only [List.length_cons, List.length_nil] at h2; omega
    | cons b rest =>
      unfold apply_merge
      by_cases hi : (i : Int) = best
      · rw [if_pos hi, apply_merge_past best rest (i + 2) (by push_cast; omega)]
        simp
      · rw [if_neg hi]
        have := ih (i + 1) (by push_cast; omega)
          (by simp only [List.length_cons] at h2 ⊢; push_cast at h2 ⊢; omega)
        simp only [List.length_cons] at this ⊢
        omega

theorem bpe_step_length (merges : List (Str × Str)) (word new_word : List Str)
    (h : bpe_step merges word = some new_word) : new_word.length + 1 = word.length := by
  unfold bpe_step at h
  simp only at h
  split at h
  · simp at h
  · split at h
    · simp at h
    · rename_i hp hb
      simp only [Option.some.injEq] at h
      subst h
      have hlen := get_pairs_length word
      have hne : 0 < (get_pairs word).length := List.length_pos.mpr hp
      rcases scan_pairs_idx merges (get_pairs word) 0 (-1, merges.length) with hs | hs
      · exact absurd hs hb
      · apply apply_merge_length
        · exact hs.1
        · have := hs.2
          push_cast at this ⊢
          omega

theorem bpe_loop_terminates (merges : List (Str × Str)) : ∀ (fuel : Nat) (word : List Str),
    word.length < fuel → ∃ r, bpe_loop merges fuel word = some r := by
  intro fuel
  induction fuel with
  | zero => intro word h; omega
  | succ k ih =>
    intro word h
    unfold bpe_loop
    split
    · exact ⟨word, rfl⟩
    · rename_i new_word hstep
      have := bpe_step_length merges word new_word hstep
      split
      · exact ⟨new_word, rfl⟩
      · exact ih new_word (by omega)

/-! ## The encoder and the decoder as list functions -/

theorem push_ids_eq (tok : Tokenizer) (bpe_tokens : List Str) : ∀ token_ids : List Int,
    push_ids tok token_ids bpe_tokens =
      token_ids ++ bpe_tokens.filterMap (Map.find tok.vocab_) := by
  unfold push_ids
  induction bpe_tokens with
  | nil => intro token_ids; simp
  | cons t ts ih =>
    intro token_ids
    rw [List.foldl_cons, ih]
    cases h : Map.find tok.vocab_ t with
    | none => simp [List.filterMap_cons, h]
    | some id => simp [List.filterMap_cons, h]

theorem encode_fold_eq (tok : Tokenizer) (words : List Str) : ∀ acc : List Int,
    words.foldl (fun token_ids word => push_ids tok token_ids (byte_pair_encode tok word)) acc =
      acc ++ (words.flatMap (byte_pair_encode tok)).filterMap (Map.find tok.vocab_) := by
  induction words with
  | nil => intro acc; simp
  | cons w ws ih =>
    intro acc
    rw [List.foldl_cons, ih, push_ids_eq]
    simp [List.filterMap_append]

theorem join_tokens_fold_eq (tok : Tokenizer) (tokens : List Int) : ∀ acc : Str,
    tokens.foldl
      (fun text token_id =>
        match Map.find tok.reverse_vocab_ token_id with
        | some s => text ++ s
        | none => text) acc =
      acc ++ (tokens.filterMap (Map.find tok.reverse_vocab_)).flatten := by
  induction tokens with
  | nil => intro acc; simp
  | cons t ts ih =>
    intro acc
    rw [List.foldl_cons, ih]
    cases h : Map.find tok.reverse_vocab_ t with
    | none => simp [List.filterMap_cons, h]
    | some s => simp [List.filterMap_cons, h]

theorem join_tokens_eq (tok : Tokenizer) (tokens : List Int) :
    join_tokens tok tokens = (tokens.filterMap (Map.find tok.reverse_vocab_)).flatten := by
  unfold join_tokens
  rw [join_tokens_fold_eq]
  simp

theorem filterMap_filter_isSome {β γ : Type} (f : β → Option γ) (l : List β) :
    (l.filter (fun x => (f x).isSome)).filterMap f = l.filterMap f := by
  induction l with
  | nil => simp
  | cons x xs ih =>
    cases h : f x with
    | none => simp [List.filter_cons, List.filterMap_cons, h, ih]
    | some y => simp [List.filter_cons, List.filterMap_cons, h, ih]

/-! ## What the pretokenizer keeps and what it passes over -/

theorem match_plus_take (cls : Nat → Bool) (s : Str) (n : Nat)
    (h : match_plus cls s = some n) : s.take n = s.takeWhile cls := by
  unfold match_plus at h
  simp only at h
  split at h
  · simp at h
  · simp only [Option.some.injEq] at h
    rw [← h]
    have : s.takeWhile cls <+: s := List.takeWhile_prefix cls
    exact (List.prefix_iff_eq_take.mp this).symm

theorem match_plus_clean (cls : Nat → Bool) (hcls : cls 95 = false) (s : Str) (n : Nat)
    (h : match_plus cls s = some n) : 95 ∉ s.take n := by
  rw [match_plus_take cls s n h]
  intro hmem
  have := List.mem_takeWhile_imp hmem
  rw [hcls] at this
  exact absurd this (by simp)

theorem match_opt_space_plus_clean (cls : Nat → Bool) (hcls : cls 95 = false) (s : Str)
    (n : Nat) (h : match_opt_space_plus cls s = some n) : 95 ∉ s.take n := by
  unfold match_opt_space_plus at h
  split at h
  · rename_i rest
    split at h
    · rename_i m hm
      simp only [Option.some.injEq] at h
      subst h
      have := match_plus_clean cls hcls rest m hm
      simp only [List.take_succ_cons, List.mem_cons, not_or]
      exact ⟨by decide, this⟩
    · exact match_plus_clean cls hcls _ n h
  · exact match_plus_clean cls hcls s n h

theorem match_literal_clean (lit s : Str) (n : Nat) (hl : 95 ∉ lit)
    (h : match_literal lit s = some n) : 95 ∉ s.take n := by
  unfold match_literal at h
  split at h
  · rename_i hp
    simp only [Option.some.injEq] at h
    subst h
    have hpre : lit <+: s := List.isPrefixOf_iff_prefix.mp hp
    rw [← List.prefix_iff_eq_take.mp hpre]
    exact hl
  · simp at h

theorem match_first_clean (alts : List (Str → Option Nat))
    (halts : ∀ alt ∈ alts, ∀ s n, alt s = some n → 95 ∉ s.take n) (s : Str) (n : Nat)
    (h : match_first alts s = some n) : 95 ∉ s.take n := by
  induction alts with
  | nil => simp [match_first] at h
  | cons alt alts ih =>
    unfold match_first at h
    split at h
    · rename_i m hm
      simp only [Option.some.injEq] at h
      subst h
      exact halts alt (List.mem_cons_self _ _) s m hm
    · exact ih (fun a ha => halts a (List.mem_cons_of_mem _ ha)) h

theorem match_pattern_clean (s : Str) (n : Nat) (h : match_pattern s = some n) :
    95 ∉ s.take n := by
  refine match_first_clean pattern_alternatives ?_ s n h
  intro alt halt s n hs
  simp only [pattern_alternatives, List.mem_cons, List.mem_singleton, List.not_mem_nil,
    or_false] at halt
  rcases halt with h | h | h | h | h | h | h | h | h | h | h <;> subst h
  all_goals first
    | exact match_literal_clean _ _ _ (by decide) hs
    | exact match_opt_space_plus_clean _ (by decide) _ _ hs
    | exact match_plus_clean _ (by decide) _ _ hs

theorem match_first_none (alts : List (Str → Option Nat)) (s : Str)
    (h : match_first alts s = none) : ∀ alt ∈ alts, alt s = none := by
  induction alts with
  | nil => intro alt halt; simp at halt
  | cons a alts ih =>
    unfold match_first at h
    split at h
    · simp at h
    · rename_i hnone
      intro alt halt
      rcases List.mem_cons.mp halt with rfl | hmem
      · exact hnone
      · exact ih h alt hmem

theorem match_plus_head (cls : Nat → Bool) (c : Nat) (rest : Str) (hc : cls c = true) :
    match_plus cls (c :: rest) ≠ none := by
  simp [match_plus, List.takeWhile_cons, hc]

theorem match_opt_space_plus_head (cls : Nat → Bool) (c : Nat) (rest : Str)
    (hc : cls c = true) : match_opt_space_plus cls (c :: rest) ≠ none := by
  unfold match_opt_space_plus
  split
  · split
    · simp
    · exact match_plus_head cls _ _ (by rename_i h _ _; cases h; exact hc)
  · exact match_plus_head cls c rest hc

theorem match_pattern_none (c : Nat) (rest : Str) (h : match_pattern (c :: rest) = none) :
    c = 95 := by
  have hall := match_first_none pattern_alternatives (c :: rest) h
  by_contra hne
  have hcase : is_letter c = true ∨ is_digit c = true ∨ is_other c = true ∨
      is_space c = true := by
    by_cases h1 : is_letter c = true
    · exact Or.inl h1
    · by_cases h2 : is_digit c = true
      · exact Or.inr (Or.inl h2)
      · by_cases h3 : is_space c = true
        · exact Or.inr (Or.inr (Or.inr h3))
        · refine Or.inr (Or.inr (Or.inl ?_))
          simp only [is_other, is_word, Bool.not_eq_true] at h1 h2 h3 ⊢
          simp [h1, h2, h3, hne]
  rcases hcase with h1 | h1 | h1 | h1
  · exact match_opt_space_plus_head is_letter c rest h1
      (hall _ (by simp [pattern_alternatives]))
  · exact match_opt_space_plus_head is_digit c rest h1
      (hall _ (by simp [pattern_alternatives]))
  · exact match_opt_space_plus_head is_other c rest h1
      (hall _ (by simp [pattern_alternatives]))
  · exact match_plus_head is_space c rest h1 (hall _ (by simp [pattern_alternatives]))

theorem split_loop_flatten : ∀ (fuel : Nat) (s : Str) (words r : List Str),
    split_loop fuel s words = some r →
      r.flatten = words.flatten ++ s.filter (fun c => c ≠ 95) ∧
        ((∀ w ∈ words, w ≠ []) → ∀ w ∈ r, w ≠ []) := by
  intro fuel
  induction fuel with
  | zero => intro s words r h; simp [split_loop] at h
  | succ k ih =>
    intro s words r h
    cases s with
    | nil =>
      simp only [split_loop, Option.some.injEq] at h
      subst h
      simp
    | cons c rest =>
      unfold split_loop at h
      split at h
      · rename_i n hn
        have hpos := match_pattern_pos _ _ hn
        have hclean := match_pattern_clean _ _ hn
        obtain ⟨h1, h2⟩ := ih _ _ _ h
        refine ⟨?_, ?_⟩
        · rw [h1]
          have hsplit : (c :: rest).filter (fun c => c ≠ 95) =
              (c :: rest).take n ++ ((c :: rest).drop n).filter (fun c => c ≠ 95) := by
            conv_lhs => rw [← List.take_append_drop n (c :: rest), List.filter_append]
            congr 1
            rw [List.filter_eq_self]
            intro x hx
            have : x ≠ 95 := fun hx95 => hclean (hx95 ▸ hx)
            simpa using this
          rw [hsplit]
          simp
        · intro hw
          apply h2
          intro w hmem
          rcases List.mem_append.mp hmem with hm | hm
          · exact hw w hm
          · simp only [List.mem_singleton] at hm
            subst hm
            intro hnil
            have := congrArg List.length hnil
            simp only [List.length_take, List.length_cons, List.length_nil] at this
            omega
      · rename_i hnone
        have hc := match_pattern_none c rest hnone
        obtain ⟨h1, h2⟩ := ih _ _ _ h
        refine ⟨?_, h2⟩
        rw [h1, hc]
        simp

/-- The pretokens of a text are non-empty and their concatenation is the text with
its underscores removed; it is the text itself when the text has no underscore. -/
theorem split_to_words_flatten (text : Str) :
    (split_to_words text).flatten = text.filter (fun c => c ≠ 95) ∧
      (∀ w ∈ split_to_words text, w ≠ []) ∧
      (95 ∉ text → (split_to_words text).flatten = text) := by
  obtain ⟨r, hr⟩ := split_loop_terminates (text.length + 1) text [] (by omega)
  have hw : split_to_words text = r := by simp [split_to_words, hr]
  obtain ⟨h1, h2⟩ := split_loop_flatten _ _ _ _ hr
  rw [hw]
  refine ⟨by simpa using h1, h2 (by simp), ?_⟩
  intro hno
  rw [h1]
  simp only [List.flatten_nil, List.nil_append]
  rw [List.filter_eq_self]
  intro x hx
  have : x ≠ 95 := fun h95 => hno (h95 ▸ hx)
  simpa using this

/-! ## Claims on the tokenizer -/

/-- C1 (the code departs from the claim): `init_byte_encoder` stores the one-byte
symbol `!` (byte 33) both for byte 33 and for byte 127, because
`static_cast<char>(256 + 33)` keeps only the low eight bits, and the later store
`byte_decoder_["!"] = 127` overwrites the earlier `byte_decoder_["!"] = 33`; so
encoding byte 33 and decoding the symbol gives 127, not 33. -/
theorem byte_map_round_trip_at_33 :
    Map.find byte_encoder_ 33 = some [33] ∧ Map.find byte_encoder_ 127 = some [33] ∧
      Map.find byte_decoder_ (Map.at byte_encoder_ 33) = some 127 ∧
      Map.find byte_decoder_ (Map.at byte_encoder_ 33) ≠ some 33 := by
  decide!

/-- C2 (the code departs from the claim): with the Vocabulary `{"!": 0}`, its
inverse `{0: "!"}` and no merge rule, the text `!` has the single pretoken `!`,
whose only final symbol `!` is in the Vocabulary; it encodes to `[0]`, and `[0]`
decodes to the byte 127 instead of `!`. -/
theorem encode_decode_round_trip_at_bang :
    split_to_words [33] = [[33]] ∧
      byte_pair_encode ⟨[([33], 0)], [(0, [33])], []⟩ [33] = [[33]] ∧
      Map.find (Tokenizer.vocab_ ⟨[([33], 0)], [(0, [33])], []⟩) [33] = some 0 ∧
      Map.find (Tokenizer.reverse_vocab_ ⟨[([33], 0)], [(0, [33])], []⟩) 0 = some [33] ∧
      encode ⟨[([33], 0)], [(0, [33])], []⟩ [33] = [0] ∧
      decode ⟨[([33], 0)], [(0, [33])], []⟩ (encode ⟨[([33], 0)], [(0, [33])], []⟩ [33])
        = [127] ∧
      decode ⟨[([33], 0)], [(0, [33])], []⟩ (encode ⟨[([33], 0)], [(0, [33])], []⟩ [33])
        ≠ [33] := by
  decide!

/-- C3 (the code departs from the claim): no alternative of the pattern of line 98
matches an underscore, so `split_to_words` passes over it: the text `_` has no
pretoken at all and the pretokens of `a_b` are `a` and `b`, whose concatenation
`ab` is not the text. -/
theorem split_to_words_drops_underscore :
    match_pattern [95] = none ∧ split_to_words [95] = [] ∧
      split_to_words [97, 95, 98] = [[97], [98]] ∧
      (split_to_words [97, 95, 98]).flatten = [97, 98] ∧
      (split_to_words [97, 95, 98]).flatten ≠ [97, 95, 98] := by
  decide

/-- C4: `encode` returns the Vocabulary ids of the final BPE symbols of the
pretokens of the text, pretoken after pretoken and symbol after symbol, leaving out
exactly the symbols that have no Vocabulary entry (`List.filterMap`); hence every
returned id is the id of a Vocabulary entry of one of these symbols, and there are
at most as many ids as final symbols. The pretokenizer loop and the merge loop of
every pretoken end within their fuel. -/
theorem encode_ids_of_final_symbols (tok : Tokenizer) (text : Str) :
    encode tok text =
        ((split_to_words text).flatMap (byte_pair_encode tok)).filterMap
          (Map.find tok.vocab_) ∧
      (∀ id ∈ encode tok text,
        ∃ s ∈ (split_to_words text).flatMap (byte_pair_encode tok),
          Map.find tok.vocab_ s = some id) ∧
      (encode tok text).length ≤
        ((split_to_words text).flatMap (byte_pair_encode tok)).length ∧
      split_loop (text.length + 1) text [] = some (split_to_words text) ∧
      (∀ word : Str, (initial_word word).length ≠ 1 →
        bpe_loop tok.merges_ ((initial_word word).length + 1) (initial_word word) =
          some (byte_pair_encode tok word)) := by
  have henc : encode tok text =
      ((split_to_words text).flatMap (byte_pair_encode tok)).filterMap
        (Map.find tok.vocab_) := by
    unfold encode
    rw [encode_fold_eq]
    simp
  refine ⟨henc, ?_, ?_, ?_, ?_⟩
  · intro id hid
    rw [henc, List.mem_filterMap] at hid
    exact hid
  · rw [henc]
    exact List.length_filterMap_le _ _
  · obtain ⟨r, hr⟩ := split_loop_terminates (text.length + 1) text [] (by omega)
    simp [split_to_words, hr]
  · intro word hw
    obtain ⟨r, hr⟩ := bpe_loop_terminates tok.merges_ ((initial_word word).length + 1)
      (initial_word word) (by omega)
    simp [byte_pair_encode, hw, hr]

/-- C5: `decode` skips the ids that have no reverse-Vocabulary entry: decoding a
sequence gives the same text as decoding it with the unknown ids removed, and this
text is the byte reconstruction (`decode_bytes`) of the token strings of the known
ids concatenated in order. The reconstruction loop ends within its fuel. -/
theorem decode_skips_unknown_ids (tok : Tokenizer) (ids : List Int) :
    decode tok ids =
        decode tok (ids.filter (fun i => (Map.find tok.reverse_vocab_ i).isSome)) ∧
      decode tok ids =
        decode_bytes ((ids.filterMap (Map.find tok.reverse_vocab_)).flatten) ∧
      decode_loop byte_decoder_ (((ids.filterMap (Map.find tok.reverse_vocab_)).flatten).length + 1)
          ((ids.filterMap (Map.find tok.reverse_vocab_)).flatten) [] =
        some (decode tok ids) := by
  refine ⟨?_, ?_, ?_⟩
  · unfold decode
    rw [join_tokens_eq, join_tokens_eq, filterMap_filter_isSome]
  · unfold decode
    rw [join_tokens_eq]
  · obtain ⟨r, hr⟩ := decode_loop_terminates byte_decoder_
      (((ids.filterMap (Map.find tok.reverse_vocab_)).flatten).length + 1)
      ((ids.filterMap (Map.find tok.reverse_vocab_)).flatten) [] (by omega)
    unfold decode decode_bytes
    rw [join_tokens_eq, hr]
    rfl

/-! ## The generation loop -/

section GenerationProofs

variable {α : Type} [LinearOrderedField α]

theorem gen_loop_spec (env : Env α) (tok : Tokenizer) (cfg : GenerationConfig α) :
    ∀ (n i : Nat) (st : GenState), ∃ gen : List Int,
      (gen_loop env tok cfg n i st).input_ids = st.input_ids ++ gen ∧
      (gen_loop env tok cfg n i st).fragments =
        st.fragments ++ gen.map (fun t => decode tok [t]) ∧
      gen.length ≤ n ∧ cfg.eos_token_id ∉ gen ∧
      (∀ (j : Nat) (h : j < gen.length),
        gen_step env cfg (i + j) (st.input_ids ++ gen.take j) = StepResult.sampled gen[j]) ∧
      (gen.length < n →
        (gen_step env cfg (i + gen.length) (st.input_ids ++ gen) = StepResult.empty_logits ∧
            (gen_loop env tok cfg n i st).defined = st.defined) ∨
          (gen_step env cfg (i + gen.length) (st.input_ids ++ gen) =
              StepResult.sampled cfg.eos_token_id ∧
            (gen_loop env tok cfg n i st).defined = st.defined) ∨
          (gen_step env cfg (i + gen.length) (st.input_ids ++ gen) = StepResult.undefined ∧
            (gen_loop env tok cfg n i st).defined = false)) ∧
      (gen.length = n → (gen_loop env tok cfg n i st).defined = st.defined) := by
  intro n
  induction n with
  | zero =>
    intro i st
    exact ⟨[], by simp [gen_loop]⟩
  | succ k ih =>
    intro i st
    cases hstep : gen_step env cfg i st.input_ids with
    | empty_logits =>
      refine ⟨[], ?_⟩
      simp [gen_loop, hstep]
    | undefined =>
      refine ⟨[], ?_⟩
      simp [gen_loop, hstep]
    | sampled t =>
      by_cases ht : t = cfg.eos_token_id
      · refine ⟨[], ?_⟩
        simp [gen_loop, hstep, ht]
      · obtain ⟨gen, h1, h2, h3, h4, h5, h6, h7⟩ := ih (i + 1)
          { input_ids := st.input_ids ++ [t],
            fragments := st.fragments ++ [decode tok [t]],
            defined := st.defined }
        have hloop : gen_loop env tok cfg (k + 1) i st =
            gen_loop env tok cfg k (i + 1)
              { input_ids := st.input_ids ++ [t],
                fragments := st.fragments ++ [decode tok [t]],
                defined := st.defined } := by
          rw [gen_loop]
          simp only [hstep, if_neg ht]
        refine ⟨t :: gen, ?_, ?_, ?_, ?_, ?_, ?_, ?_⟩
        · rw [hloop, h1]; simp
        · rw [hloop, h2]; simp
        · simp only [List.length_cons]; omega
        · simp only [List.mem_cons, not_or]
          exact ⟨fun h => ht h.symm, h4⟩
        · intro j hj
          cases j with
          | zero => simpa using hstep
          | succ j =>
            have := h5 j (by simpa using hj)
            simp only [List.append_assoc, List.singleton_append] at this
            simpa [Nat.add_assoc, Nat.add_comm 1 j] using this
        · intro hlt
          have hlt' : gen.length < k := by simpa using hlt
          have := h6 hlt'
          simp only [List.append_assoc, List.singleton_append] at this
          rw [hloop]
          simpa [Nat.add_assoc, Nat.add_comm 1 gen.length] using this
        · intro heq
          rw [hloop]
          exact h7 (by simpa using heq)

theorem gen_loop_congr (env : Env α) (tok : Tokenizer) (cfg cfg' : GenerationConfig α)
    (hstep : ∀ step ids, gen_step env cfg step ids = gen_step env cfg' step ids)
    (heos : cfg.eos_token_id = cfg'.eos_token_id) :
    ∀ (n i : Nat) (st : GenState),
      gen_loop env tok cfg n i st = gen_loop env tok cfg' n i st := by
  intro n
  induction n with
  | zero => intro i st; simp [gen_loop]
  | succ k ih =>
    intro i st
    rw [gen_loop, gen_loop, hstep, heos]
    split
    · rfl
    · rfl
    · split
      · rfl
      · exact ih _ _

end GenerationProofs

section SamplingProofs

variable {α : Type} [LinearOrderedField α]

/-! ## `std::max_element` and the greedy strategy -/

theorem max_element_from_spec (xs : List α) : ∀ (pre : List α) (best_idx : Nat) (best : α),
    best_idx < pre.length → pre.getD best_idx 0 = best →
    (∀ j, j < pre.length → pre.getD j 0 ≤ best) →
    (∀ j, j < best_idx → pre.getD j 0 < best) →
    max_element_from xs pre.length best_idx best < (pre ++ xs).length ∧
      (∀ j, j < (pre ++ xs).length →
        (pre ++ xs).getD j 0 ≤
          (pre ++ xs).getD (max_element_from xs pre.length best_idx best) 0) ∧
      (∀ j, j < max_element_from xs pre.length best_idx best →
        (pre ++ xs).getD j 0 <
          (pre ++ xs).getD (max_element_from xs pre.length best_idx best) 0) := by
  induction xs with
  | nil =>
    intro pre best_idx best h1 h2 h3 h4
    simp only [max_element_from, List.append_nil]
    exact ⟨h1, fun j hj => h2 ▸ h3 j hj, fun j hj => h2 ▸ h4 j hj⟩
  | cons x xs ih =>
    intro pre best_idx best h1 h2 h3 h4
    have hlen : (pre ++ [x]).length = pre.length + 1 := by simp
    have hget : ∀ j, j < pre.length → (pre ++ [x]).getD j 0 = pre.getD j 0 := by
      intro j hj
      simp [List.getD_eq_getElem?_getD, List.getElem?_append_left hj]
    have hlast : (pre ++ [x]).getD pre.length 0 = x := by
      simp [List.getD_eq_getElem?_getD]
    have hassoc : pre ++ x :: xs = (pre ++ [x]) ++ xs := by simp
    unfold max_element_from
    by_cases hlt : best < x
    · rw [if_pos hlt, hassoc, ← hlen]
      apply ih (pre ++ [x]) pre.length x
      · omega
      · exact hlast
      · intro j hj
        rw [hlen] at hj
        rcases Nat.lt_succ_iff_lt_or_eq.mp hj with hj' | hj'
        · rw [hget j hj']; exact le_of_lt (lt_of_le_of_lt (h3 j hj') hlt)
        · rw [hj', hlast]
      · intro j hj
        rw [hget j hj]
        exact lt_of_le_of_lt (h3 j hj) hlt
    · rw [if_neg hlt, hassoc, ← hlen]
      apply ih (pre ++ [x]) best_idx best
      · omega
      · rw [hget best_idx h1]; exact h2
      · intro j hj
        rw [hlen] at hj
        rcases Nat.lt_succ_iff_lt_or_eq.mp hj with hj' | hj'
        · rw [hget j hj']; exact h3 j hj'
        · rw [hj', hlast]; exact not_lt.mp hlt
      · intro j hj
        rw [hget j (by omega)]
        exact h4 j hj

theorem max_element_spec (logits : List α) (h : logits ≠ []) :
    max_element logits < logits.length ∧
      (∀ j, j < logits.length → logits.getD j 0 ≤ logits.getD (max_element logits) 0) ∧
      (∀ j, j < max_element logits → logits.getD j 0 < logits.getD (max_element logits) 0) := by
  cases logits with
  | nil => exact absurd rfl h
  | cons x xs =>
    have := max_element_from_spec xs [x] 0 x (by simp) (by simp)
      (by intro j hj; simp at hj; subst hj; simp) (by intro j hj; omega)
    simpa [max_element] using this

theorem sample_next_greedy (env : Env α) (cfg : GenerationConfig α)
    (h : cfg.temperature = 0) (step : Nat) (last_logits : List α) :
    sample_next env cfg step last_logits = some (sample_greedy last_logits) := by
  simp [sample_next, h]

theorem gen_step_greedy (env : Env α) (cfg cfg' : GenerationConfig α)
    (h : cfg.temperature = 0) (h' : cfg'.temperature = 0) (step : Nat) (ids : List Int) :
    gen_step env cfg step ids = gen_step env cfg' step ids := by
  unfold gen_step
  simp only [sample_next_greedy env cfg h, sample_next_greedy env cfg' h']

end SamplingProofs

section TopKProofs

variable {α : Type} [LinearOrderedField α]

/-! ## `std::partial_sort` with `k = 1` -/

theorem pop_heap_one (comp : Nat → Nat → Bool) (v : List Nat) (i : Nat) :
    pop_heap comp v 1 i = some ((v.set i (v.getD 0 0)).set 0 (v.getD i 0)) := by
  simp [pop_heap, adjust_heap, sift_hole, push_heap]

theorem heap_select_one (logits : List α) (xs : List α) :
    ∀ (pre : List α) (v : List Nat) (m : Nat),
      logits = pre ++ xs → 0 < pre.length → v.length = logits.length →
      v.getD 0 0 = m →
      (∀ j, pre.length ≤ j → j < logits.length → v.getD j 0 = j) →
      ∃ v', heap_select_loop (greater_at logits) 1 (List.range' pre.length xs.length) v =
          some v' ∧
        v'.length = v.length ∧
        v'.getD 0 0 = max_element_from xs pre.length m (logits.getD m 0) := by
  induction xs with
  | nil =>
    intro pre v m _ _ _ hm _
    exact ⟨v, by simp only [List.length_nil, List.range'_zero, heap_select_loop, max_element_from]; exact ⟨trivial, trivial, hm⟩⟩
  | cons x xs ih =>
    intro pre v m hl hpre hv hm hid
    have hlen : logits.length = pre.length + (xs.length + 1) := by simp [hl]
    have hx : logits.getD pre.length 0 = x := by
      rw [hl, List.getD_eq_getElem?_getD, List.getElem?_append_right (le_refl _)]
      simp
    have hvi : v.getD pre.length 0 = pre.length := hid _ (le_refl _) (by omega)
    have hassoc : logits = (pre ++ [x]) ++ xs := by simp [hl]
    have hlen' : (pre ++ [x]).length = pre.length + 1 := by simp
    simp only [List.length_cons, List.range'_succ, heap_select_loop, max_element_from]
    rw [hvi, hm]
    by_cases hlt : logits.getD m 0 < x
    · have hc : greater_at logits pre.length m = true := by
        unfold greater_at
        rw [hx]
        exact decide_eq_true hlt
      rw [if_pos hc, if_pos hlt, pop_heap_one]
      simp only [hvi, hm]
      have := ih (pre ++ [x]) ((v.set pre.length m).set 0 pre.length) pre.length hassoc
        (by omega) (by simp [hv])
        (by
          simp only [List.getD_eq_getElem?_getD]
          rw [List.getElem?_set_self (by simp; omega)]
          rfl)
        (by
          intro j hj1 hj2
          rw [hlen'] at hj1
          simp only [List.getD_eq_getElem?_getD]
          rw [List.getElem?_set_ne (by omega), List.getElem?_set_ne (by omega)]
          have := hid j (by omega) hj2
          simpa [List.getD_eq_getElem?_getD] using this)
      rw [hlen', hx] at this
      obtain ⟨v', h1, h2, h3⟩ := this
      exact ⟨v', h1, by simpa using h2, h3⟩
    · have hc : ¬ greater_at logits pre.length m = true := by
        unfold greater_at
        rw [hx]
        simpa using hlt
      rw [if_neg hc, if_neg hlt]
      have := ih (pre ++ [x]) v m hassoc (by omega) hv hm
        (by
          intro j hj1 hj2
          rw [hlen'] at hj1
          exact hid j (by omega) hj2)
      rw [hlen'] at this
      exact this

theorem heap_partial_sort_one (logits : List α) (h : logits ≠ []) :
    ∃ v, heap_partial_sort (greater_at logits) 1 (List.range logits.length) = some v ∧
      v.length = logits.length ∧ v.getD 0 0 = max_element logits := by
  cases logits with
  | nil => exact absurd rfl h
  | cons x xs =>
    obtain ⟨v', h1, h2, h3⟩ := heap_select_one (x :: xs) xs [x]
      (List.range (x :: xs).length) 0 rfl (by simp) (by simp)
      (by simp [List.getD_eq_getElem?_getD])
      (by
        intro j _ hj
        simp only [List.getD_eq_getElem?_getD]
        rw [List.getElem?_range hj]
        rfl)
    refine ⟨v', ?_, by simpa using h2, ?_⟩
    · have hk : ¬ (1 > (List.range (x :: xs).length).length) := by simp
      unfold heap_partial_sort
      rw [if_neg hk]
      simp only [make_heap, Nat.one_lt_ofNat, ↓reduceIte]
      simp only [List.length_range, List.length_cons, Nat.add_sub_cancel]
      simp only [List.length_singleton, List.length_cons, List.length_nil, Nat.zero_add] at h1
      rw [h1]
      simp [sort_heap]
    · rw [h3]
      simp [max_element]

theorem softmax_singleton (fl : FloatOps α) (y temperature : α) :
    ∃ w, softmax fl [y] temperature = some [w] := by
  simp [softmax, max_element, max_element_from]

end TopKProofs

section TopPProofs

variable {α : Type} [LinearOrderedField α]

/-! ## The nucleus of `sample_top_p` -/

theorem nucleus_scan_spec (fl : FloatOps α) (probs : List α) (p : α) (rest : List Nat) :
    ∀ (cumsum : α) (size : Nat), rest ≠ [] →
      size + 1 ≤ nucleus_scan fl probs p rest cumsum size ∧
      nucleus_scan fl probs p rest cumsum size ≤ size + rest.length ∧
      (∀ m, 1 ≤ m → m < nucleus_scan fl probs p rest cumsum size - size →
        ((rest.take m).map (fun i => probs.getD i 0)).foldl fl.add cumsum < p) ∧
      (nucleus_scan fl probs p rest cumsum size - size < rest.length →
        p ≤ ((rest.take (nucleus_scan fl probs p rest cumsum size - size)).map
            (fun i => probs.getD i 0)).foldl fl.add cumsum) := by
  induction rest with
  | nil => intro _ _ h; exact absurd rfl h
  | cons idx rest ih =>
    intro cumsum size _
    unfold nucleus_scan
    by_cases hp : fl.add cumsum (probs.getD idx 0) ≥ p
    · rw [if_pos hp]
      refine ⟨le_refl _, by simp, ?_, ?_⟩
      · intro m h1 h2
        omega
      · intro _
        simpa using hp
    · rw [if_neg hp]
      cases rest with
      | nil =>
        simp only [nucleus_scan, List.length_singleton]
        refine ⟨le_refl _, le_refl _, ?_, ?_⟩
        · intro m h1 h2; omega
        · intro h; omega
      | cons idx' rest' =>
        obtain ⟨h1, h2, h3, h4⟩ := ih (fl.add cumsum (probs.getD idx 0)) (size + 1) (by simp)
        refine ⟨by omega, by simp only [List.length_cons] at h2 ⊢; omega, ?_, ?_⟩
        · intro m hm1 hm2
          rcases Nat.eq_or_lt_of_le hm1 with hm | hm
          · subst hm
            simpa using lt_of_not_ge hp
          · have := h3 (m - 1) (by omega) (by omega)
            obtain ⟨m', rfl⟩ : ∃ m', m = m' + 1 := ⟨m - 1, by omega⟩
            simp only [Nat.add_sub_cancel] at this
            simpa [List.take_succ_cons] using this
        · intro hlt
          have := h4 (by simp only [List.length_cons] at hlt ⊢; omega)
          obtain ⟨r, hr⟩ : ∃ r, nucleus_scan fl probs p (idx' :: rest')
              (fl.add cumsum (probs.getD idx 0)) (size + 1) - size = r + 1 :=
            ⟨nucleus_scan fl probs p (idx' :: rest') (fl.add cumsum (probs.getD idx 0))
              (size + 1) - size - 1, by omega⟩
          have hr' : nucleus_scan fl probs p (idx' :: rest')
              (fl.add cumsum (probs.getD idx 0)) (size + 1) - (size + 1) = r := by omega
          rw [hr]
          rw [hr'] at this
          simpa [List.take_succ_cons] using this

theorem top_p_nucleus_spec (sort : (Nat → Nat → Bool) → List Nat → List Nat)
    (fl : FloatOps α) (dist : List α → Nat) (probs : List α) (p : α) (hne : probs ≠ [])
    (hperm : (sorted_indices sort probs).Perm (List.range probs.length))
    (hdist : ∀ w : List α, w ≠ [] → dist w < w.length) :
    top_p_nucleus sort fl probs p ≠ [] ∧
      top_p_nucleus sort fl probs p <+: sorted_indices sort probs ∧
      (∀ m, 1 ≤ m → m < (top_p_nucleus sort fl probs p).length →
        (((sorted_indices sort probs).take m).map (fun i => probs.getD i 0)).foldl
          fl.add 0 < p) ∧
      ((top_p_nucleus sort fl probs p).length < (sorted_indices sort probs).length →
        p ≤ ((top_p_nucleus sort fl probs p).map (fun i => probs.getD i 0)).foldl
          fl.add 0) ∧
      (∃ i ∈ top_p_nucleus sort fl probs p, top_p_select sort fl dist probs p = some i) := by
  have hlen : (sorted_indices sort probs).length = probs.length := by
    rw [hperm.length_eq, List.length_range]
  have hpos : 0 < probs.length := List.length_pos.mpr hne
  have hidx : sorted_indices sort probs ≠ [] := by
    intro h
    rw [h] at hlen
    simp at hlen
    omega
  obtain ⟨h1, h2, h3, h4⟩ :=
    nucleus_scan_spec fl probs p (sorted_indices sort probs) 0 0 hidx
  simp only [Nat.zero_add, Nat.sub_zero] at h1 h2 h3 h4
  have hnl : (top_p_nucleus sort fl probs p).length =
      nucleus_scan fl probs p (sorted_indices sort probs) 0 0 := by
    unfold top_p_nucleus
    rw [List.length_take]
    omega
  refine ⟨?_, ?_, ?_, ?_, ?_⟩
  · intro h
    rw [h] at hnl
    simp at hnl
    omega
  · exact List.take_prefix _ _
  · intro m hm1 hm2
    exact h3 m hm1 (by omega)
  · intro hlt
    have := h4 (by omega)
    unfold top_p_nucleus
    exact this
  · have hw : nucleus_weights fl probs (top_p_nucleus sort fl probs p) ≠ [] := by
      intro h
      have := congrArg List.length h
      simp [nucleus_weights] at this
      rw [this] at hnl
      simp at hnl
      omega
    have hd := hdist _ hw
    have hwl : (nucleus_weights fl probs (top_p_nucleus sort fl probs p)).length =
        (top_p_nucleus sort fl probs p).length := by
      simp [nucleus_weights]
    rw [hwl] at hd
    have hin : dist (nucleus_weights fl probs (top_p_nucleus sort fl probs p)) <
        (sorted_indices sort probs).length := by omega
    refine ⟨(sorted_indices sort probs)[dist (nucleus_weights fl probs
      (top_p_nucleus sort fl probs p))], ?_, ?_⟩
    · unfold top_p_nucleus at hd ⊢
      rw [List.mem_take_iff_getElem]
      exact ⟨_, by rw [List.length_take] at hd; omega, rfl⟩
    · unfold top_p_select
      exact List.getElem?_eq_getElem hin

theorem sorted_indices_three (sort : (Nat → Nat → Bool) → List Nat → List Nat)
    (a b c : α) (hab : b < a) (hbc : c < b) (hsort : SortsDescending sort [a, b, c]) :
    sorted_indices sort [a, b, c] = [0, 1, 2] := by
  obtain ⟨hperm, hpair⟩ := hsort
  have hac : c < a := lt_trans hbc hab
  have hlen := hperm.length_eq
  simp only [List.length_range, List.length_cons, List.length_nil] at hlen
  obtain ⟨x, y, z, hxyz⟩ := List.length_eq_three.mp hlen
  rw [hxyz] at hperm hpair ⊢
  have hmem : ∀ i, i ∈ [x, y, z] ↔ i < 3 := by
    intro i
    rw [hperm.mem_iff]
    simp
  have hx : x < 3 := (hmem x).mp (by simp)
  have hy : y < 3 := (hmem y).mp (by simp)
  have hz : z < 3 := (hmem z).mp (by simp)
  have h0 := (hmem 0).mpr (by omega)
  have h1 := (hmem 1).mpr (by omega)
  have h2 := (hmem 2).mpr (by omega)
  simp only [List.pairwise_cons, List.mem_cons, List.mem_singleton, List.not_mem_nil,
    forall_eq_or_imp, forall_eq, IsEmpty.forall_iff, implies_true, List.Pairwise.nil,
    and_true, or_false] at hpair
  obtain ⟨⟨hxy, hxz⟩, hyz⟩ := hpair
  simp only [List.mem_cons, List.mem_singleton, List.not_mem_nil, or_false] at h0 h1 h2
  have hba : ¬ a < b := not_lt.mpr (le_of_lt hab)
  have hcb : ¬ b < c := not_lt.mpr (le_of_lt hbc)
  have hca : ¬ a < c := not_lt.mpr (le_of_lt hac)
  interval_cases x <;> interval_cases y <;> interval_cases z <;>
    first
    | rfl
    | (exfalso; omega)
    | (exfalso; revert hxy hxz hyz; simp [greater_at, hab, hbc, hac])

end TopPProofs

section GeneratorClaims

variable {α : Type} [LinearOrderedField α]

/-! ## Claims on the generator -/

/-- C6: for every forward pass, sampler and prompt, the token sequence held by
`generate` when its loop ends is the prompt ids followed by a list `gen` of at most
`max_length` generated ids (none for a negative `max_length`), none of them equal to
`eos_token_id`; the `j`-th generated id is the id sampled at step `j`; the loop
ended before `max_length` steps only because the next step had an empty buffer,
sampled `eos_token_id` (which is not appended), or left the defined behaviour of
C++; and in a defined run `generate` returns the decoding of the prompt ids followed
by `gen`. -/
theorem generate_appends_bounded_no_eos (env : Env α) (tok : Tokenizer)
    (cfg : GenerationConfig α) (prompt : Str) :
    ∃ gen : List Int,
      (generate_run env tok cfg prompt).input_ids = encode tok prompt ++ gen ∧
      gen.length ≤ cfg.max_length.toNat ∧
      cfg.eos_token_id ∉ gen ∧
      (∀ (j : Nat) (h : j < gen.length),
        gen_step env cfg j (encode tok prompt ++ gen.take j) = StepResult.sampled gen[j]) ∧
      (gen.length < cfg.max_length.toNat →
        gen_step env cfg gen.length (encode tok prompt ++ gen) = StepResult.empty_logits ∨
          gen_step env cfg gen.length (encode tok prompt ++ gen) =
            StepResult.sampled cfg.eos_token_id ∨
          gen_step env cfg gen.length (encode tok prompt ++ gen) = StepResult.undefined) ∧
      ((generate_run env tok cfg prompt).defined = false ↔
        gen.length < cfg.max_length.toNat ∧
          gen_step env cfg gen.length (encode tok prompt ++ gen) = StepResult.undefined) ∧
      generate env tok cfg prompt =
        if (generate_run env tok cfg prompt).defined then
          some (decode tok (encode tok prompt ++ gen))
        else none := by
  obtain ⟨gen, h1, _, h3, h4, h5, h6, h7⟩ := gen_loop_spec env tok cfg cfg.max_length.toNat 0
    { input_ids := encode tok prompt, fragments := [], defined := true }
  simp only [Nat.zero_add] at h5 h6
  refine ⟨gen, h1, h3, h4, h5, ?_, ?_, ?_⟩
  · intro hlt
    rcases h6 hlt with h | h | h
    · exact Or.inl h.1
    · exact Or.inr (Or.inl h.1)
    · exact Or.inr (Or.inr h.1)
  · unfold generate_run
    constructor
    · intro hdef
      rcases Nat.lt_or_ge gen.length cfg.max_length.toNat with hlt | hge
      · refine ⟨hlt, ?_⟩
        rcases h6 hlt with h | h | h
        · rw [h.2] at hdef; exact absurd hdef (by simp)
        · rw [h.2] at hdef; exact absurd hdef (by simp)
        · exact h.1
      · rw [h7 (by omega)] at hdef
        exact absurd hdef (by simp)
    · intro ⟨hlt, hund⟩
      rcases h6 hlt with h | h | h
      · rw [h.1] at hund; exact absurd hund (by simp)
      · rw [h.1] at hund; exact absurd hund (by simp)
      · exact h.2
  · unfold generate gen_result
    rw [show (generate_run env tok cfg prompt).input_ids = encode tok prompt ++ gen from h1]

/-- C7 (as stated, refuted): a non-empty buffer of the wrong length is not detected.
With `vocab_size = 2`, the token sequence `[5]` and greedy sampling, a forward pass
returning the three values `[1, 5, 2]` (not `1 * 2`) makes the loop go on and append
the id 1, and a forward pass returning the single value `[1]` makes
`get_last_token_logits` read the position 1, which is outside the buffer. -/
theorem generate_wrong_length_buffer_not_detected :
    ([1, 5, 2] : List ℚ).length ≠ [(5 : Int)].length * 2 ∧
      gen_loop (⟨fun _ _ => [1, 5, 2], 2, exact_ops id, fun _ _ => 0, fun _ l => l, heap_partial_sort⟩ : Env ℚ)
        ⟨[], [], []⟩ ⟨1, 0, 0, 1, 50256⟩ 1 0 ⟨[5], [], true⟩ = ⟨[5, 1], [[]], true⟩ ∧
      gen_loop (⟨fun _ _ => [1, 5, 2], 2, exact_ops id, fun _ _ => 0, fun _ l => l, heap_partial_sort⟩ : Env ℚ)
        ⟨[], [], []⟩ ⟨1, 0, 0, 1, 50256⟩ 1 0 ⟨[5], [], true⟩ ≠ ⟨[5], [], true⟩ ∧
      ([1] : List ℚ).length ≠ [(5 : Int)].length * 2 ∧
      gen_step (⟨fun _ _ => [1], 2, exact_ops id, fun _ _ => 0, fun _ l => l, heap_partial_sort⟩ : Env ℚ)
        ⟨1, 0, 0, 1, 50256⟩ 0 [5] = StepResult.undefined ∧
      get_last_token_logits ([1] : List ℚ) 1 2 = none := by
  decide!

/-- C7 (amended): at any generation step, if the forward pass returns an empty
logits buffer, the loop ends at once with the state unchanged, nothing is read from
the buffer, and the value returned from there is the one returned from the token
sequence accumulated so far: its decoding when the run was defined up to that
step. -/
theorem generate_stops_on_empty_logits (env : Env α) (tok : Tokenizer)
    (cfg : GenerationConfig α) (remaining step : Nat) (st : GenState)
    (h : env.forward step st.input_ids = []) :
    gen_step env cfg step st.input_ids = StepResult.empty_logits ∧
      gen_loop env tok cfg (remaining + 1) step st = st ∧
      gen_result tok (gen_loop env tok cfg (remaining + 1) step st) = gen_result tok st ∧
      (st.defined = true →
        gen_result tok (gen_loop env tok cfg (remaining + 1) step st) =
          some (decode tok st.input_ids)) := by
  have hstep : gen_step env cfg step st.input_ids = StepResult.empty_logits := by
    simp [gen_step, h]
  have hloop : gen_loop env tok cfg (remaining + 1) step st = st := by
    rw [gen_loop, hstep]
  refine ⟨hstep, hloop, by rw [hloop], ?_⟩
  intro hd
  rw [hloop]
  simp [gen_result, hd]

theorem generate_stops_on_empty_logits_witness :
    gen_loop (⟨fun _ _ => [], 2, exact_ops id, fun _ _ => 0, fun _ l => l, heap_partial_sort⟩ : Env ℚ)
        ⟨[], [], []⟩ ⟨50, 1, 50, 1, 50256⟩ (49 + 1) 0 ⟨[5], [], true⟩ = ⟨[5], [], true⟩ :=
  (generate_stops_on_empty_logits
    (⟨fun _ _ => [], 2, exact_ops id, fun _ _ => 0, fun _ l => l, heap_partial_sort⟩ : Env ℚ)
    ⟨[], [], []⟩ ⟨50, 1, 50, 1, 50256⟩ 49 0 ⟨[5], [], true⟩ rfl).2.1

/-- C8: on a non-empty logits vector `sample_greedy` returns a valid index whose
logit is maximal and strictly larger than every logit before it, that is the first
index of the maximum; on `[1.0, 5.0, 2.0]` it returns 1; and with
`temperature == 0` every step of `generate` samples greedily, so the result of
`generate` is the same for all values of `top_k` and `top_p`. -/
theorem sample_greedy_first_maximum (logits : List α) (hne : logits ≠ []) :
    (sample_greedy logits < logits.length ∧
      (∀ j, j < logits.length →
        logits.getD j 0 ≤ logits.getD (sample_greedy logits) 0) ∧
      (∀ j, j < sample_greedy logits →
        logits.getD j 0 < logits.getD (sample_greedy logits) 0)) ∧
      sample_greedy ([1, 5, 2] : List ℚ) = 1 ∧
      (∀ (env : Env α) (cfg : GenerationConfig α) (step : Nat) (last_logits : List α),
        cfg.temperature = 0 →
          sample_next env cfg step last_logits = some (sample_greedy last_logits)) ∧
      (∀ (env : Env α) (tok : Tokenizer) (max_length eos_token_id top_k top_k' : Int)
        (top_p top_p' : α) (prompt : Str),
        generate env tok ⟨max_length, 0, top_k, top_p, eos_token_id⟩ prompt =
          generate env tok ⟨max_length, 0, top_k', top_p', eos_token_id⟩ prompt) := by
  refine ⟨max_element_spec logits hne, by decide, ?_, ?_⟩
  · intro env cfg step last_logits h
    exact sample_next_greedy env cfg h step last_logits
  · intro env tok max_length eos_token_id top_k top_k' top_p top_p' prompt
    unfold generate generate_run
    rw [gen_loop_congr env tok ⟨max_length, 0, top_k, top_p, eos_token_id⟩
      ⟨max_length, 0, top_k', top_p', eos_token_id⟩
      (fun step ids => gen_step_greedy env _ _ rfl rfl step ids) rfl]

theorem sample_greedy_first_maximum_witness :
    sample_greedy ([2, 7, 7, 1] : List ℚ) < 4 ∧
      ∀ j, j < sample_greedy ([2, 7, 7, 1] : List ℚ) →
        ([2, 7, 7, 1] : List ℚ).getD j 0 <
          ([2, 7, 7, 1] : List ℚ).getD (sample_greedy ([2, 7, 7, 1] : List ℚ)) 0 :=
  ⟨(sample_greedy_first_maximum ([2, 7, 7, 1] : List ℚ) (by simp)).1.1,
    (sample_greedy_first_maximum ([2, 7, 7, 1] : List ℚ) (by simp)).1.2.2⟩

/-- C9: with the `std::partial_sort` of libstdc++, for every non-empty logits
vector (tied maxima included), every temperature and every index that the discrete
distribution can draw, `sample_top_k` with `k = 1` returns the index that
`sample_greedy` returns. -/
theorem sample_top_k_one_eq_greedy (fl : FloatOps α) (dist : List α → Nat)
    (logits : List α)
    (temperature : α) (hne : logits ≠ [])
    (hdist : ∀ w : List α, w ≠ [] → dist w < w.length) :
    sample_top_k heap_partial_sort fl dist logits 1 temperature =
      some (sample_greedy logits) := by
  obtain ⟨v, hv, hlen, h0⟩ := heap_partial_sort_one logits hne
  have hpos : 0 < logits.length := List.length_pos.mpr hne
  cases v with
  | nil => simp at hlen; omega
  | cons a rest =>
    have ha : a = max_element logits := by simpa using h0
    obtain ⟨w, hw⟩ := softmax_singleton fl (logits.getD a 0) temperature
    have hd : dist [w] = 0 := by
      have := hdist [w] (by simp)
      simpa using this
    unfold sample_top_k
    rw [hv]
    simp only [List.take_succ_cons, List.take_zero, List.map_cons, List.map_nil, hw, hd]
    simp [sample_greedy, ha]

theorem sample_top_k_one_eq_greedy_witness :
    sample_top_k heap_partial_sort (exact_ops (fun x => x)) (fun _ => 0)
        ([2, 7, 7, 1] : List ℚ) 1 (1 / 2) =
      some (sample_greedy ([2, 7, 7, 1] : List ℚ)) :=
  sample_top_k_one_eq_greedy (exact_ops (fun x => x)) (fun _ => 0) ([2, 7, 7, 1] : List ℚ)
    (1 / 2) (by simp) (fun w hw => List.length_pos.mpr hw)

end GeneratorClaims

section TopPClaim

variable {α : Type} [LinearOrderedField α]

/-- C10 (as stated, refuted): on five probabilities `0.2f` and the threshold
`p = 0.6f` the running sum of lines 102-108 is `0.2f`, `0.4f` and then `0.6f`, the
float nearest to the exact sum 0.6000000089, so the test `cumsum >= p` holds and the
nucleus is the first three of the five indices; the cumulative probability of these
three, 0.6000000089, is below `p` = 0.6000000238. -/
theorem top_p_nucleus_exact_sum_below_threshold :
    top_p_nucleus (fun _ l => l) ops_sum_rounded_up
        (List.replicate 5 (13421773 / 67108864 : ℚ)) (5033165 / 8388608) = [0, 1, 2] ∧
      SortsDescending (fun _ l => l) (List.replicate 5 (13421773 / 67108864 : ℚ)) ∧
      (([0, 1, 2] : List Nat).map
        (fun i => (List.replicate 5 (13421773 / 67108864 : ℚ)).getD i 0)).sum <
          5033165 / 8388608 ∧
      (([0, 1, 2] : List Nat).map
        (fun i => (List.replicate 5 (13421773 / 67108864 : ℚ)).getD i 0)).foldl
          ops_sum_rounded_up.add 0 = 5033165 / 8388608 ∧
      ([0, 1, 2] : List Nat).length <
        (sorted_indices (fun _ l => l) (List.replicate 5 (13421773 / 67108864 : ℚ))).length := by
  refine ⟨by decide!, ⟨by decide!, by decide!⟩, by decide!, by decide!, by decide!⟩

/-- C10 (amended): for every non-empty probability vector, every threshold `p`, every
float arithmetic, every `std::sort` meeting its contract and every index the
discrete distribution can draw, the nucleus of `sample_top_p` is a non-empty prefix
of the indices sorted by descending probability; the running sum of lines 102-108,
accumulated in `float` in that order from `0.0f`, stays below `p` on every shorter
non-empty prefix and, unless the nucleus is the whole list, has reached `p` on the
nucleus (so the crossing element is included); and the index returned is a member
of the nucleus. For three probabilities `a > b > c` (as 0.6, 0.3, 0.1) and a
threshold `q` (as 0.7) that the running sum reaches at the second element and not at
the first, the nucleus is the indices 0 and 1 and the index 2 is never returned. -/
theorem top_p_nucleus_is_shortest
    (sort : (Nat → Nat → Bool) → List Nat → List Nat) (fl : FloatOps α)
    (dist : List α → Nat) (probs : List α) (p : α) (hne : probs ≠ [])
    (hsort : SortsDescending sort probs)
    (hdist : ∀ w : List α, w ≠ [] → dist w < w.length) :
    (top_p_nucleus sort fl probs p ≠ [] ∧
      top_p_nucleus sort fl probs p <+: sorted_indices sort probs ∧
      (∀ m, 1 ≤ m → m < (top_p_nucleus sort fl probs p).length →
        (((sorted_indices sort probs).take m).map (fun i => probs.getD i 0)).foldl
          fl.add 0 < p) ∧
      ((top_p_nucleus sort fl probs p).length < (sorted_indices sort probs).length →
        p ≤ ((top_p_nucleus sort fl probs p).map (fun i => probs.getD i 0)).foldl
          fl.add 0) ∧
      (∃ i ∈ top_p_nucleus sort fl probs p, top_p_select sort fl dist probs p = some i)) ∧
      (∀ a b c q : α, c < b → b < a → fl.add 0 a < q → q ≤ fl.add (fl.add 0 a) b →
        SortsDescending sort [a, b, c] →
        top_p_nucleus sort fl [a, b, c] q = [0, 1] ∧
          top_p_select sort fl dist [a, b, c] q ≠ some 2 ∧
          (top_p_select sort fl dist [a, b, c] q = some 0 ∨
            top_p_select sort fl dist [a, b, c] q = some 1)) := by
  refine ⟨top_p_nucleus_spec sort fl dist probs p hne hsort.1 hdist, ?_⟩
  intro a b c q hbc hab h1 h2 hsort3
  have hidx := sorted_indices_three sort a b c hab hbc hsort3
  have hnuc : top_p_nucleus sort fl [a, b, c] q = [0, 1] := by
    unfold top_p_nucleus
    rw [hidx]
    have hn1 : ¬ fl.add 0 a ≥ q := not_le.mpr h1
    have hn2 : fl.add (fl.add 0 a) b ≥ q := h2
    simp only [nucleus_scan, List.getD_cons_zero, List.getD_cons_succ, if_neg hn1, if_pos hn2]
    rfl
  have hd := hdist (nucleus_weights fl [a, b, c] (top_p_nucleus sort fl [a, b, c] q))
    (by rw [hnuc]; simp [nucleus_weights])
  have hd2 : dist (nucleus_weights fl [a, b, c] (top_p_nucleus sort fl [a, b, c] q)) < 2 := by
    rw [hnuc] at hd ⊢
    simpa [nucleus_weights] using hd
  have hsel : top_p_select sort fl dist [a, b, c] q =
      [0, 1, 2][dist (nucleus_weights fl [a, b, c] (top_p_nucleus sort fl [a, b, c] q))]? := by
    unfold top_p_select
    rw [hidx]
  rw [hsel]
  refine ⟨hnuc, ?_, ?_⟩
  · interval_cases dist (nucleus_weights fl [a, b, c] (top_p_nucleus sort fl [a, b, c] q)) <;>
      simp
  · interval_cases dist (nucleus_weights fl [a, b, c] (top_p_nucleus sort fl [a, b, c] q)) <;>
      simp

theorem top_p_nucleus_is_shortest_witness :
    top_p_nucleus (fun _ l => l) (exact_ops (fun x => x))
        ([5033165 / 8388608, 5033165 / 16777216, 13421773 / 134217728] : List ℚ)
        (11744051 / 16777216) = [0, 1] ∧
      top_p_select (fun _ l => l) (exact_ops (fun x => x)) (fun _ => 0)
        ([5033165 / 8388608, 5033165 / 16777216, 13421773 / 134217728] : List ℚ)
        (11744051 / 16777216) ≠ some 2 :=
  ⟨((top_p_nucleus_is_shortest (fun _ l => l) (exact_ops (fun x => x)) (fun _ => 0)
      ([5033165 / 8388608, 5033165 / 16777216, 13421773 / 134217728] : List ℚ)
      (11744051 / 16777216) (by simp)
      ⟨List.Perm.refl _, by decide!⟩ (fun w hw => List.length_pos.mpr hw)).2
      (5033165 / 8388608) (5033165 / 16777216) (13421773 / 134217728) (11744051 / 16777216)
      (by norm_num) (by norm_num) (by norm_num [exact_ops]) (by norm_num [exact_ops])
      ⟨List.Perm.refl _, by decide!⟩).1,
    ((top_p_nucleus_is_shortest (fun _ l => l) (exact_ops (fun x => x)) (fun _ => 0)
      ([5033165 / 8388608, 5033165 / 16777216, 13421773 / 134217728] : List ℚ)
      (11744051 / 16777216) (by simp)
      ⟨List.Perm.refl _, by decide!⟩ (fun w hw => List.length_pos.mpr hw)).2
      (5033165 / 8388608) (5033165 / 16777216) (13421773 / 134217728) (11744051 / 16777216)
      (by norm_num) (by norm_num) (by norm_num [exact_ops]) (by norm_num [exact_ops])
      ⟨List.Perm.refl _, by decide!⟩).2.1⟩

end TopPClaim

/-! ## The byte tables in closed form -/

theorem byte_tables_closed_form :
    byte_encoder_ =
      (List.range' 33 94 ++ List.range' 161 12 ++ List.range' 174 82).map (fun b => (b, [b])) ++
        (List.range 33).map (fun b => (b, [b])) ++
        (List.range' 127 34).map (fun b => (b, [b - 94])) ++ [(173, [67])] ∧
    byte_decoder_ =
      (List.range' 33 94 ++ List.range' 161 12 ++ List.range' 174 82).map
          (fun b => ([b], if b ≤ 66 then b + 94 else if b = 67 then 173 else b)) ++
        (List.range 33).map (fun b => ([b], b)) := by
  decide!

/-! ## The pair string and the rank of a pair -/

theorem dropWhile_all {p : Nat → Bool} : ∀ (l rest : Str), (∀ c ∈ l, p c = true) →
    (l ++ rest).dropWhile p = rest.dropWhile p := by
  intro l
  induction l with
  | nil => intro rest _; rfl
  | cons a l ih =>
    intro rest h
    have ha : p a = true := h a (List.mem_cons_self _ _)
    simp only [List.cons_append, List.dropWhile_cons, ha, ↓reduceIte]
    exact ih rest (fun c hc => h c (List.mem_cons_of_mem _ hc))

theorem takeWhile_all {p : Nat → Bool} : ∀ (l rest : Str), (∀ c ∈ l, p c = true) →
    (l ++ rest).takeWhile p = l ++ rest.takeWhile p := by
  intro l
  induction l with
  | nil => intro rest _; rfl
  | cons a l ih =>
    intro rest h
    have ha : p a = true := h a (List.mem_cons_self _ _)
    simp only [List.cons_append, List.takeWhile_cons, ha, ↓reduceIte]
    rw [ih rest (fun c hc => h c (List.mem_cons_of_mem _ hc))]

theorem extract_word_wsfree (l rest : Str) (hl : WsFree l)
    (hrest : ∀ c, rest.head? = some c → is_space c = true) :
    extract_word (l ++ rest) = (l, rest) := by
  obtain ⟨hne, hws⟩ := hl
  have hnot : ∀ c ∈ l, (fun c => !is_space c) c = true := by
    intro c hc
    simp [hws c hc]
  have hdrop : (l ++ rest).dropWhile is_space = l ++ rest := by
    cases l with
    | nil => exact absurd rfl hne
    | cons a l =>
      have ha : is_space a = false := hws a (List.mem_cons_self _ _)
      simp [List.dropWhile_cons, ha]
  have hr1 : rest.takeWhile (fun c => !is_space c) = [] := by
    cases rest with
    | nil => rfl
    | cons b rest =>
      have hb := hrest b rfl
      simp [List.takeWhile_cons, hb]
  have hr2 : rest.dropWhile (fun c => !is_space c) = rest := by
    cases rest with
    | nil => rfl
    | cons b rest =>
      have hb := hrest b rfl
      simp [List.dropWhile_cons, hb]
  unfold extract_word
  simp only [hdrop]
  rw [takeWhile_all l rest hnot, dropWhile_all l rest hnot, hr1, hr2, List.append_nil]

theorem extract_word_allws (l : Str) (hl : ∀ c ∈ l, is_space c = true) :
    extract_word l = ([], []) := by
  have : l.dropWhile is_space = [] := by
    have := dropWhile_all l [] hl
    simpa using this
  unfold extract_word
  simp [this]

theorem parse_pair_exact (l r : Str) (hl : WsFree l) (hr : WsFree r) :
    parse_pair (l ++ [32] ++ r) = (l, r) := by
  have h1 : extract_word (l ++ (32 :: r)) = (l, 32 :: r) :=
    extract_word_wsfree l (32 :: r) hl (by intro c hc; simp at hc; subst hc; decide)
  have h2 : extract_word (32 :: r) = (r, []) := by
    have hd : extract_word (32 :: r) = extract_word r := by
      unfold extract_word
      have : is_space 32 = true := by decide
      simp [List.dropWhile_cons, this]
    rw [hd]
    have := extract_word_wsfree r [] hr (by intro c hc; simp at hc)
    simpa using this
  unfold parse_pair
  simp only [List.append_assoc, List.singleton_append, h1, h2]

theorem parse_pair_second_empty (l r : Str) (hl : SymbolOk l) (hr : SymbolOk r)
    (h : ¬ (WsFree l ∧ WsFree r)) : (parse_pair (l ++ [32] ++ r)).2 = [] := by
  have h32 : is_space 32 = true := by decide
  rcases hl with hl | hl
  · rcases hr with hr | hr
    · exact absurd ⟨hl, hr⟩ h
    · have h1 : extract_word (l ++ (32 :: r)) = (l, 32 :: r) :=
        extract_word_wsfree l (32 :: r) hl (by intro c hc; simp at hc; subst hc; decide)
      have h2 : extract_word (32 :: r) = ([], []) :=
        extract_word_allws (32 :: r) (by
          intro c hc
          rcases List.mem_cons.mp hc with rfl | hc
          · exact h32
          · exact hr c hc)
      unfold parse_pair
      simp only [List.append_assoc, List.singleton_append, h1, h2]
  · have hpre : ∀ c ∈ l ++ [32], is_space c = true := by
      intro c hc
      rcases List.mem_append.mp hc with hc | hc
      · exact hl c hc
      · simp at hc; subst hc; exact h32
    have hd : (l ++ [32] ++ r).dropWhile is_space = r.dropWhile is_space :=
      dropWhile_all (l ++ [32]) r hpre
    rcases hr with hr | hr
    · have hdr : r.dropWhile is_space = r := by
        obtain ⟨hne, hws⟩ := hr
        cases r with
        | nil => exact absurd rfl hne
        | cons a r =>
          have ha : is_space a = false := hws a (List.mem_cons_self _ _)
          simp [List.dropWhile_cons, ha]
      have hnot : ∀ c ∈ r, (fun c => !is_space c) c = true := by
        intro c hc
        simp [hr.2 c hc]
      have hrest : r.dropWhile (fun c => !is_space c) = [] := by
        have := dropWhile_all r [] hnot
        simpa using this
      unfold parse_pair extract_word
      simp only [hd, hdr, hrest]
      rfl
    · have hdr : r.dropWhile is_space = [] := by
        have := dropWhile_all r [] hr
        simpa using this
      unfold parse_pair extract_word
      simp only [hd, hdr]
      rfl

theorem find_merge_some (first second : Str) : ∀ (ms : List (Str × Str)) (j0 j : Nat),
    find_merge first second ms j0 = some j →
      ∃ t, j = j0 + t ∧ ms[t]? = some (first, second) ∧
        ∀ t', t' < t → ms[t']? ≠ some (first, second) := by
  intro ms
  induction ms with
  | nil => intro j0 j h; simp [find_merge] at h
  | cons m ms ih =>
    intro j0 j h
    unfold find_merge at h
    split at h
    · rename_i hm
      simp only [Option.some.injEq] at h
      refine ⟨0, by omega, ?_, by intro t' ht'; omega⟩
      simp only [List.getElem?_cons_zero, Option.some.injEq]
      exact Prod.ext hm.1 hm.2
    · rename_i hm
      obtain ⟨t, h1, h2, h3⟩ := ih (j0 + 1) j h
      refine ⟨t + 1, by omega, by simpa using h2, ?_⟩
      intro t' ht'
      cases t' with
      | zero =>
        simp only [List.getElem?_cons_zero, ne_eq, Option.some.injEq]
        intro heq
        exact hm ⟨by rw [heq], by rw [heq]⟩
      | succ t' =>
        simp only [List.getElem?_cons_succ]
        exact h3 t' (by omega)

theorem find_merge_none (first second : Str) : ∀ (ms : List (Str × Str)) (j0 : Nat),
    find_merge first second ms j0 = none ↔ (first, second) ∉ ms := by
  intro ms
  induction ms with
  | nil => intro j0; simp [find_merge]
  | cons m ms ih =>
    intro j0
    unfold find_merge
    split
    · rename_i hm
      have : (first, second) = m := Prod.ext hm.1.symm hm.2.symm
      simp [this]
    · rename_i hm
      rw [ih (j0 + 1)]
      have : (first, second) ≠ m := by
        intro heq
        exact hm ⟨by rw [← heq], by rw [← heq]⟩
      simp [this]

theorem find_merge_shift (first second : Str) : ∀ (ms : List (Str × Str)) (j0 : Nat),
    find_merge first second ms j0 = (find_merge first second ms 0).map (fun j => j + j0) := by
  intro ms
  induction ms with
  | nil => intro j0; simp [find_merge]
  | cons m ms ih =>
    intro j0
    unfold find_merge
    split
    · simp
    · rw [ih (j0 + 1), ih (0 + 1)]
      cases find_merge first second ms 0 with
      | none => rfl
      | some j => simp; omega

theorem find_merge_lt (first second : Str) (ms : List (Str × Str)) (j : Nat)
    (h : find_merge first second ms 0 = some j) : j < ms.length := by
  obtain ⟨t, h1, h2, _⟩ := find_merge_some first second ms 0 j h
  have := (List.getElem?_eq_some_iff.mp h2).1
  omega

theorem pair_rank_eq (merges : List (Str × Str)) (hwf : MergesWellFormed merges)
    (l r : Str) (hl : SymbolOk l) (hr : SymbolOk r) :
    find_merge (parse_pair (l ++ [32] ++ r)).1 (parse_pair (l ++ [32] ++ r)).2 merges 0 =
      find_merge l r merges 0 := by
  by_cases h : WsFree l ∧ WsFree r
  · rw [parse_pair_exact l r h.1 h.2]
  · have h2 := parse_pair_second_empty l r hl hr h
    rw [h2]
    have hn1 : find_merge (parse_pair (l ++ [32] ++ r)).1 [] merges 0 = none := by
      rw [find_merge_none]
      intro hmem
      exact (hwf _ hmem).2.1 rfl
    have hn2 : find_merge l r merges 0 = none := by
      rw [find_merge_none]
      intro hmem
      exact h (hwf _ hmem)
    rw [hn1, hn2]

/-! ## One pass of the merge loop -/

theorem get_pairs_getElem : ∀ (word : List Str) (t : Nat) (l r : Str),
    word[t]? = some l → word[t + 1]? = some r →
    (get_pairs word)[t]? = some (l ++ [32] ++ r) := by
  intro word
  induction word with
  | nil => intro t l r h; simp at h
  | cons a rest ih =>
    intro t l r h1 h2
    cases rest with
    | nil => simp at h2
    | cons b rest =>
      cases t with
      | zero =>
        simp only [List.getElem?_cons_zero, Option.some.injEq, zero_add,
          List.getElem?_cons_succ] at h1 h2
        subst h1 h2
        simp [get_pairs]
      | succ t =>
        rw [List.getElem?_cons_succ] at h1 h2
        simp only [get_pairs, List.getElem?_cons_succ]
        exact ih t l r h1 h2

theorem get_pairs_getElem_inv : ∀ (word : List Str) (t : Nat) (p : Str),
    (get_pairs word)[t]? = some p →
    ∃ l r, word[t]? = some l ∧ word[t + 1]? = some r ∧ p = l ++ [32] ++ r := by
  intro word
  induction word with
  | nil => intro t p h; simp [get_pairs] at h
  | cons a rest ih =>
    intro t p h
    cases rest with
    | nil => simp [get_pairs] at h
    | cons b rest =>
      cases t with
      | zero =>
        simp only [get_pairs, List.getElem?_cons_zero, Option.some.injEq] at h
        exact ⟨a, b, by simp, by simp, h.symm⟩
      | succ t =>
        simp only [get_pairs, List.getElem?_cons_succ] at h
        obtain ⟨l, r, h1, h2, h3⟩ := ih t p h
        exact ⟨l, r, by simpa using h1, by simpa using h2, h3⟩

theorem scan_pairs_spec (merges : List (Str × Str)) : ∀ (pairs : List Str) (i0 : Nat)
    (best : Int × Nat),
    (scan_pairs merges pairs i0 best = best ∧
      ∀ (t : Nat) (p : Str) (j : Nat), pairs[t]? = some p →
        find_merge (parse_pair p).1 (parse_pair p).2 merges 0 = some j → best.2 ≤ j) ∨
    (∃ (t : Nat) (p : Str) (j : Nat), pairs[t]? = some p ∧
      find_merge (parse_pair p).1 (parse_pair p).2 merges 0 = some j ∧
      scan_pairs merges pairs i0 best = (((i0 + t : Nat) : Int), j) ∧ j < best.2 ∧
      ∀ (t' : Nat) (p' : Str) (j' : Nat), pairs[t']? = some p' →
        find_merge (parse_pair p').1 (parse_pair p').2 merges 0 = some j' →
        j ≤ j' ∧ (j' = j → t ≤ t')) := by
  intro pairs
  induction pairs with
  | nil =>
    intro i0 best
    left
    exact ⟨rfl, by intro t p j h; simp at h⟩
  | cons p ps ih =>
    intro i0 best
    cases hp : find_merge (parse_pair p).1 (parse_pair p).2 merges 0 with
    | none =>
      have hscan : scan_pairs merges (p :: ps) i0 best = scan_pairs merges ps (i0 + 1) best := by
        rw [scan_pairs]; simp only [hp]
      rcases ih (i0 + 1) best with ⟨h1, h2⟩ | ⟨t, q, j, h1, h2, h3, h4, h5⟩
      · left
        refine ⟨by rw [hscan, h1], ?_⟩
        intro t q j hq hj
        cases t with
        | zero =>
          simp only [List.getElem?_cons_zero, Option.some.injEq] at hq
          subst hq
          rw [hp] at hj
          exact absurd hj (by simp)
        | succ t => exact h2 t q j (by simpa using hq) hj
      · right
        refine ⟨t + 1, q, j, by simpa using h1, h2, ?_, h4, ?_⟩
        · rw [hscan, h3]
          congr 2
          omega
        · intro t' q' j' hq' hj'
          cases t' with
          | zero =>
            simp only [List.getElem?_cons_zero, Option.some.injEq] at hq'
            subst hq'
            rw [hp] at hj'
            exact absurd hj' (by simp)
          | succ t' =>
            have := h5 t' q' j' (by simpa using hq') hj'
            exact ⟨this.1, fun h => by have := this.2 h; omega⟩
    | some jp =>
      by_cases hlt : jp < best.2
      · have hscan : scan_pairs merges (p :: ps) i0 best =
            scan_pairs merges ps (i0 + 1) ((i0 : Int), jp) := by
          rw [scan_pairs]; simp only [hp, if_pos hlt]
        rcases ih (i0 + 1) ((i0 : Int), jp) with ⟨h1, h2⟩ | ⟨t, q, j, h1, h2, h3, h4, h5⟩
        · right
          refine ⟨0, p, jp, by simp, hp, by rw [hscan, h1]; simp, hlt, ?_⟩
          intro t' q' j' hq' hj'
          cases t' with
          | zero =>
            simp only [List.getElem?_cons_zero, Option.some.injEq] at hq'
            subst hq'
            rw [hp] at hj'
            simp only [Option.some.injEq] at hj'
            exact ⟨by omega, fun _ => le_refl _⟩
          | succ t' =>
            have := h2 t' q' j' (by simpa using hq') hj'
            exact ⟨this, fun _ => Nat.zero_le _⟩
        · right
          simp only at h4
          refine ⟨t + 1, q, j, by simpa using h1, h2, ?_, by omega, ?_⟩
          · rw [hscan, h3]
            congr 2
            omega
          · intro t' q' j' hq' hj'
            cases t' with
            | zero =>
              simp only [List.getElem?_cons_zero, Option.some.injEq] at hq'
              subst hq'
              rw [hp] at hj'
              simp only [Option.some.injEq] at hj'
              exact ⟨by omega, fun h => by omega⟩
            | succ t' =>
              have := h5 t' q' j' (by simpa using hq') hj'
              exact ⟨this.1, fun h => by have := this.2 h; omega⟩
      · have hscan : scan_pairs merges (p :: ps) i0 best =
            scan_pairs merges ps (i0 + 1) best := by
          rw [scan_pairs]; simp only [hp, if_neg hlt]
        rcases ih (i0 + 1) best with ⟨h1, h2⟩ | ⟨t, q, j, h1, h2, h3, h4, h5⟩
        · left
          refine ⟨by rw [hscan, h1], ?_⟩
          intro t q j hq hj
          cases t with
          | zero =>
            simp only [List.getElem?_cons_zero, Option.some.injEq] at hq
            subst hq
            rw [hp] at hj
            simp only [Option.some.injEq] at hj
            omega
          | succ t => exact h2 t q j (by simpa using hq) hj
        · right
          refine ⟨t + 1, q, j, by simpa using h1, h2, ?_, h4, ?_⟩
          · rw [hscan, h3]
            congr 2
            omega
          · intro t' q' j' hq' hj'
            cases t' with
            | zero =>
              simp only [List.getElem?_cons_zero, Option.some.injEq] at hq'
              subst hq'
              rw [hp] at hj'
              simp only [Option.some.injEq] at hj'
              exact ⟨by omega, fun h => by omega⟩
            | succ t' =>
              have := h5 t' q' j' (by simpa using hq') hj'
              exact ⟨this.1, fun h => by have := this.2 h; omega⟩

theorem apply_merge_at : ∀ (word : List Str) (i0 t : Nat) (l r : Str),
    word[t]? = some l → word[t + 1]? = some r →
    apply_merge ((i0 + t : Nat) : Int) i0 word = word.take t ++ [l ++ r] ++ word.drop (t + 2) := by
  intro word
  induction word with
  | nil => intro i0 t l r h; simp at h
  | cons a rest ih =>
    intro i0 t l r h1 h2
    cases rest with
    | nil => simp at h2
    | cons b rest =>
      cases t with
      | zero =>
        simp only [List.getElem?_cons_zero, Option.some.injEq, zero_add,
          List.getElem?_cons_succ] at h1 h2
        subst h1 h2
        rw [apply_merge]
        simp only [Nat.add_zero, ↓reduceIte]
        rw [apply_merge_past _ rest (i0 + 2) (by push_cast; omega)]
        simp
      | succ t =>
        rw [List.getElem?_cons_succ] at h1 h2
        rw [apply_merge]
        have hne : ¬ ((i0 : Int) = ((i0 + (t + 1) : Nat) : Int)) := by push_cast; omega
        rw [if_neg hne]
        have := ih (i0 + 1) t l r h1 h2
        have he : i0 + 1 + t = i0 + (t + 1) := by omega
        rw [he] at this
        rw [this]
        simp

theorem find_merge_of_getElem (merges : List (Str × Str)) (l r : Str) (j : Nat)
    (h : merges[j]? = some (l, r)) :
    ∃ j0, find_merge l r merges 0 = some j0 ∧ j0 ≤ j := by
  cases hf : find_merge l r merges 0 with
  | none =>
    rw [find_merge_none] at hf
    exact absurd (List.getElem?_mem h) hf
  | some j0 =>
    obtain ⟨t, h1, _, h3⟩ := find_merge_some l r merges 0 j0 hf
    refine ⟨j0, rfl, ?_⟩
    by_contra hlt
    exact h3 j (by omega) h

theorem bpe_step_some_spec (merges : List (Str × Str)) (hwf : MergesWellFormed merges)
    (word new_word : List Str) (hok : ∀ s ∈ word, SymbolOk s)
    (h : bpe_step merges word = some new_word) :
    ∃ (i : Nat) (l r : Str) (j : Nat), word[i]? = some l ∧ word[i + 1]? = some r ∧
      find_merge l r merges 0 = some j ∧
      new_word = word.take i ++ [l ++ r] ++ word.drop (i + 2) ∧
      ∀ (i' : Nat) (l' r' : Str) (j' : Nat), word[i']? = some l' → word[i' + 1]? = some r' →
        find_merge l' r' merges 0 = some j' → j ≤ j' ∧ (j' = j → i ≤ i') := by
  unfold bpe_step at h
  simp only at h
  split at h
  · simp at h
  · split at h
    · simp at h
    · rename_i hp hb
      simp only [Option.some.injEq] at h
      rcases scan_pairs_spec merges (get_pairs word) 0 (-1, merges.length) with
        ⟨h1, _⟩ | ⟨t, p, j, h1, h2, h3, _, h5⟩
      · rw [h1] at hb
        exact absurd rfl hb
      · obtain ⟨l, r, hl, hr, hpe⟩ := get_pairs_getElem_inv word t p h1
        have hrank : ∀ (i' : Nat) (l' r' : Str), word[i']? = some l' →
            word[i' + 1]? = some r' →
            find_merge (parse_pair (l' ++ [32] ++ r')).1 (parse_pair (l' ++ [32] ++ r')).2
              merges 0 = find_merge l' r' merges 0 := by
          intro i' l' r' hl' hr'
          exact pair_rank_eq merges hwf l' r' (hok l' (List.getElem?_mem hl'))
            (hok r' (List.getElem?_mem hr'))
        refine ⟨t, l, r, j, hl, hr, ?_, ?_, ?_⟩
        · rw [← hrank t l r hl hr, ← hpe]
          exact h2
        · rw [← h, h3]
          have := apply_merge_at word 0 t l r hl hr
          simpa using this
        · intro i' l' r' j' hl' hr' hj'
          apply h5 i' (l' ++ [32] ++ r') j' (get_pairs_getElem word i' l' r' hl' hr')
          rw [hrank i' l' r' hl' hr']
          exact hj'

theorem bpe_step_none_spec (merges : List (Str × Str)) (hwf : MergesWellFormed merges)
    (word : List Str) (hok : ∀ s ∈ word, SymbolOk s) (h : bpe_step merges word = none) :
    word.length ≤ 1 ∨
      ∀ (i : Nat) (l r : Str), word[i]? = some l → word[i + 1]? = some r →
        find_merge l r merges 0 = none := by
  unfold bpe_step at h
  simp only at h
  split at h
  · rename_i hp
    left
    have := get_pairs_length word
    rw [hp] at this
    simp only [List.length_nil] at this
    omega
  · split at h
    · rename_i hp hb
      right
      intro i l r hl hr
      rcases scan_pairs_spec merges (get_pairs word) 0 (-1, merges.length) with
        ⟨_, h2⟩ | ⟨t, p, j, _, _, h3, _, _⟩
      · cases hf : find_merge l r merges 0 with
        | none => rfl
        | some j =>
          have hlt := find_merge_lt l r merges j hf
          have := h2 i (l ++ [32] ++ r) j (get_pairs_getElem word i l r hl hr)
            (by
              rw [pair_rank_eq merges hwf l r (hok l (List.getElem?_mem hl))
                (hok r (List.getElem?_mem hr))]
              exact hf)
          simp only at this
          omega
      · rw [h3] at hb
        simp only [Nat.zero_add] at hb
        omega
    · simp at h

theorem wsFree_append (l r : Str) (hl : WsFree l) (hr : WsFree r) : WsFree (l ++ r) := by
  refine ⟨by simp [hl.1], ?_⟩
  intro c hc
  rcases List.mem_append.mp hc with h | h
  · exact hl.2 c h
  · exact hr.2 c h

theorem bpe_step_ok (merges : List (Str × Str)) (hwf : MergesWellFormed merges)
    (word new_word : List Str) (hok : ∀ s ∈ word, SymbolOk s)
    (h : bpe_step merges word = some new_word) : ∀ s ∈ new_word, SymbolOk s := by
  obtain ⟨i, l, r, j, _, _, hj, hnew, _⟩ := bpe_step_some_spec merges hwf word new_word hok h
  have hmem : (l, r) ∈ merges := by
    by_contra hn
    rw [← find_merge_none l r merges 0, hj] at hn
    exact absurd hn (by simp)
  intro s hs
  rw [hnew] at hs
  simp only [List.append_assoc, List.singleton_append, List.mem_append, List.mem_cons] at hs
  rcases hs with hs | hs | hs
  · exact hok s (List.mem_of_mem_take hs)
  · rw [hs]
    exact Or.inl (wsFree_append l r (hwf _ hmem).1 (hwf _ hmem).2)
  · exact hok s (List.mem_of_mem_drop hs)

theorem find_mem {κ ν : Type} [DecidableEq κ] : ∀ (m : Map κ ν) (k : κ) (v : ν),
    Map.find m k = some v → (k, v) ∈ m := by
  intro m
  induction m with
  | nil => intro k v h; simp [Map.find] at h
  | cons e m ih =>
    intro k v h
    obtain ⟨k', v'⟩ := e
    unfold Map.find at h
    split at h
    · rename_i hk
      simp only [Option.some.injEq] at h
      rw [← hk, ← h]
      exact List.mem_cons_self _ _
    · exact List.mem_cons_of_mem _ (ih k v h)

theorem byte_symbol_length (c : Nat) : (Map.at byte_encoder_ c).length ≤ 1 := by
  unfold Map.at
  cases h : Map.find byte_encoder_ c with
  | none => exact Nat.zero_le _
  | some v =>
    have hmem := find_mem _ _ _ h
    rw [byte_tables_closed_form.1] at hmem
    simp only [List.mem_append, List.mem_map, List.mem_singleton, Prod.mk.injEq] at hmem
    simp only [Option.getD_some]
    rcases hmem with ((⟨b, _, _, hv⟩ | ⟨b, _, _, hv⟩) | ⟨b, _, _, hv⟩) | ⟨_, hv⟩
    all_goals
      subst hv
      simp

theorem initial_word_ok (token : Str) : ∀ s ∈ initial_word token, SymbolOk s := by
  intro s hs
  unfold initial_word at hs
  obtain ⟨c, _, rfl⟩ := List.mem_map.mp hs
  have hlen := byte_symbol_length (to_char c)
  match hsym : Map.at byte_encoder_ (to_char c), hlen with
  | [], _ => exact Or.inr (by intro x hx; simp at hx)
  | [x], _ =>
    by_cases hx : is_space x = true
    · exact Or.inr (by intro y hy; simp at hy; rw [hy]; exact hx)
    · refine Or.inl ⟨by simp, ?_⟩
      intro y hy
      simp at hy
      rw [hy]
      simpa using hx

theorem mergesTo_ok (merges : List (Str × Str)) (hwf : MergesWellFormed merges) :
    ∀ (m : Nat) (w1 w2 : List Str), MergesTo merges m w1 w2 →
      (∀ s ∈ w1, SymbolOk s) → ∀ s ∈ w2, SymbolOk s := by
  intro m w1 w2 h
  induction h with
  | done w => exact fun h => h
  | step m w1 w2 w3 hstep _ ih =>
    intro hok
    exact ih (bpe_step_ok merges hwf w1 w2 hok hstep)

theorem bpe_loop_chain (merges : List (Str × Str)) : ∀ (fuel : Nat) (word r : List Str),
    bpe_loop merges fuel word = some r →
      ∃ m, MergesTo merges m word r ∧ r.length + m = word.length ∧
        (bpe_step merges r = none ∨ r.length = 1) := by
  intro fuel
  induction fuel with
  | zero => intro word r h; simp [bpe_loop] at h
  | succ k ih =>
    intro word r h
    unfold bpe_loop at h
    split at h
    · rename_i hnone
      simp only [Option.some.injEq] at h
      subst h
      exact ⟨0, MergesTo.done _, by omega, Or.inl hnone⟩
    · rename_i new_word hstep
      have hlen := bpe_step_length merges word new_word hstep
      split at h
      · rename_i h1
        simp only [Option.some.injEq] at h
        subst h
        exact ⟨1, MergesTo.step 0 _ _ _ hstep (MergesTo.done _), by omega, Or.inr h1⟩
      · obtain ⟨m, hm1, hm2, hm3⟩ := ih new_word r h
        exact ⟨m + 1, MergesTo.step m _ _ _ hstep hm1, by omega, hm3⟩

theorem byte_pair_encode_chain (tok : Tokenizer) (token : Str) :
    ∃ m, MergesTo tok.merges_ m (initial_word token) (byte_pair_encode tok token) ∧
      (byte_pair_encode tok token).length + m = token.length ∧
      (bpe_step tok.merges_ (byte_pair_encode tok token) = none ∨
        (byte_pair_encode tok token).length = 1) := by
  have hlen : (initial_word token).length = token.length := by simp [initial_word]
  by_cases h1 : (initial_word token).length = 1
  · have : byte_pair_encode tok token = initial_word token := by simp [byte_pair_encode, h1]
    rw [this]
    exact ⟨0, MergesTo.done _, by omega, Or.inr h1⟩
  · obtain ⟨r, hr⟩ := bpe_loop_terminates tok.merges_ ((initial_word token).length + 1)
      (initial_word token) (by omega)
    have : byte_pair_encode tok token = r := by simp [byte_pair_encode, h1, hr]
    rw [this]
    obtain ⟨m, hm1, hm2, hm3⟩ := bpe_loop_chain _ _ _ _ hr
    exact ⟨m, hm1, by omega, hm3⟩

/-! ## Claims on the merge loop -/

/-- C12: with the MergeTable `[("a","b")]` and the Vocabulary `{"ab": 1}`,
`encode("ab")` is `[1]` and `decode([1])` is the two bytes `ab`; and for every
MergeTable as `load` builds it and every two-byte pretoken whose two byte symbols
form one of its rules, `byte_pair_encode` returns the single symbol that is the
concatenation of the two. -/
theorem byte_pair_encode_two_bytes (tok : Tokenizer) (b1 b2 : Nat)
    (hwf : MergesWellFormed tok.merges_)
    (hrule : (Map.at byte_encoder_ (to_char b1), Map.at byte_encoder_ (to_char b2)) ∈
      tok.merges_) :
    (encode ⟨[([97, 98], 1)], [(1, [97, 98])], [([97], [98])]⟩ [97, 98] = [1] ∧
      decode ⟨[([97, 98], 1)], [(1, [97, 98])], [([97], [98])]⟩ [1] = [97, 98]) ∧
      byte_pair_encode tok [b1, b2] =
        [Map.at byte_encoder_ (to_char b1) ++ Map.at byte_encoder_ (to_char b2)] := by
  refine ⟨?_, ?_⟩
  · simp only [encode, byte_pair_encode, initial_word, decode, decode_bytes,
      byte_tables_closed_form.1, byte_tables_closed_form.2]
    decide!
  have hw : initial_word [b1, b2] =
      [Map.at byte_encoder_ (to_char b1), Map.at byte_encoder_ (to_char b2)] := rfl
  have hok : ∀ s ∈ initial_word [b1, b2], SymbolOk s := initial_word_ok _
  obtain ⟨m, _, _, hstop⟩ := byte_pair_encode_chain tok [b1, b2]
  cases hstep : bpe_step tok.merges_ (initial_word [b1, b2]) with
  | none =>
    rcases bpe_step_none_spec tok.merges_ hwf _ hok hstep with h | h
    · rw [hw] at h
      simp at h
    · have := h 0 _ _ (by rw [hw]; rfl) (by rw [hw]; rfl)
      rw [find_merge_none] at this
      exact absurd hrule this
  | some new_word =>
    obtain ⟨i, l, r, j, hl, hr, _, hnew, _⟩ :=
      bpe_step_some_spec tok.merges_ hwf _ new_word hok hstep
    have hi : i = 0 := by
      have := (List.getElem?_eq_some_iff.mp hr).1
      rw [hw] at this
      simp only [List.length_cons, List.length_nil] at this
      omega
    subst hi
    rw [hw] at hl hr hnew
    simp only [List.getElem?_cons_zero, Option.some.injEq, zero_add,
      List.getElem?_cons_succ] at hl hr
    subst hl hr
    simp only [List.take_zero, List.nil_append, List.drop_succ_cons, List.drop_zero,
      List.append_nil] at hnew
    unfold byte_pair_encode
    rw [hw] at hstep ⊢
    simp only [List.length_cons, List.length_nil]
    rw [if_neg (by omega), bpe_loop]
    simp only [hstep, hnew, List.length_singleton, ↓reduceIte, Option.getD_some]

theorem byte_pair_encode_two_bytes_witness :
    byte_pair_encode ⟨[([97, 98], 1)], [(1, [97, 98])], [([97], [98])]⟩ [97, 98] =
      [Map.at byte_encoder_ (to_char 97) ++ Map.at byte_encoder_ (to_char 98)] :=
  (byte_pair_encode_two_bytes ⟨[([97, 98], 1)], [(1, [97, 98])], [([97], [98])]⟩ 97 98
    (by
      intro r hr
      simp only [List.mem_singleton] at hr
      subst hr
      exact ⟨⟨by simp, by decide⟩, ⟨by simp, by decide⟩⟩)
    (by rw [byte_tables_closed_form.1]; decide!)).2

/-- C13 (the code departs from the claim): the remaining byte number 33, byte 127,
is given the one-byte symbol 33 (`!`), the low eight bits of the codepoint 256 + 33,
which is also the symbol of byte 33; so the encoder, which has an entry for each of
the 256 bytes, is not injective, and the decoder table has 221 entries instead of
256. -/
theorem byte_encoder_not_injective :
    Map.find byte_encoder_ 127 = some [(256 + 33) % 256] ∧
      Map.find byte_encoder_ 33 = some [33] ∧
      Map.find byte_encoder_ 127 = Map.find byte_encoder_ 33 ∧
      byte_encoder_.length = 256 ∧
      byte_decoder_.length = 221 := by
  rw [byte_tables_closed_form.1, byte_tables_closed_form.2]
  decide!

/-- C17: in every iteration of the merge loop of `byte_pair_encode`, with a
MergeTable as `load` builds it, the merge replaces one adjacent pair `(l, r)` at
position `i` by `l ++ r` and leaves the symbols before and after it as they are;
`(l, r)` is rule number `j` of the MergeTable, every rule number of every adjacent
pair of the sequence is at least `j`, and an adjacent pair with rule number `j`
stands at position `i` or to the right of it. -/
theorem merge_step_lowest_rank_leftmost (tok : Tokenizer) (token : Str) (m : Nat)
    (word new_word : List Str) (hwf : MergesWellFormed tok.merges_)
    (hreach : MergesTo tok.merges_ m (initial_word token) word)
    (hstep : bpe_step tok.merges_ word = some new_word) :
    ∃ (i : Nat) (l r : Str) (j : Nat), word[i]? = some l ∧ word[i + 1]? = some r ∧
      tok.merges_[j]? = some (l, r) ∧
      new_word = word.take i ++ [l ++ r] ++ word.drop (i + 2) ∧
      ∀ (i' : Nat) (l' r' : Str) (j' : Nat), word[i']? = some l' → word[i' + 1]? = some r' →
        tok.merges_[j']? = some (l', r') → j ≤ j' ∧ (j' = j → i ≤ i') := by
  have hok := mergesTo_ok tok.merges_ hwf m _ _ hreach (initial_word_ok token)
  obtain ⟨i, l, r, j, hl, hr, hj, hnew, hmin⟩ :=
    bpe_step_some_spec tok.merges_ hwf word new_word hok hstep
  obtain ⟨t, ht, hget, _⟩ := find_merge_some l r tok.merges_ 0 j hj
  refine ⟨i, l, r, j, hl, hr, ?_, hnew, ?_⟩
  · rw [ht]; simpa using hget
  · intro i' l' r' j' hl' hr' hj'
    obtain ⟨j0, hj0, hle⟩ := find_merge_of_getElem tok.merges_ l' r' j' hj'
    have := hmin i' l' r' j0 hl' hr' hj0
    exact ⟨by omega, fun h => this.2 (by omega)⟩

theorem merge_step_lowest_rank_leftmost_witness :
    ∃ (i : Nat) (l r : Str) (j : Nat),
      (initial_word [97, 98, 97, 98])[i]? = some l ∧
      (initial_word [97, 98, 97, 98])[i + 1]? = some r ∧
      (Tokenizer.merges_ ⟨[], [], [([98], [97]), ([97], [98])]⟩)[j]? = some (l, r) ∧
      [[97], [98, 97], [98]] =
        (initial_word [97, 98, 97, 98]).take i ++ [l ++ r] ++
          (initial_word [97, 98, 97, 98]).drop (i + 2) ∧
      ∀ (i' : Nat) (l' r' : Str) (j' : Nat),
        (initial_word [97, 98, 97, 98])[i']? = some l' →
        (initial_word [97, 98, 97, 98])[i' + 1]? = some r' →
        (Tokenizer.merges_ ⟨[], [], [([98], [97]), ([97], [98])]⟩)[j']? = some (l', r') →
        j ≤ j' ∧ (j' = j → i ≤ i') :=
  merge_step_lowest_rank_leftmost ⟨[], [], [([98], [97]), ([97], [98])]⟩ [97, 98, 97, 98] 0
    (initial_word [97, 98, 97, 98]) [[97], [98, 97], [98]]
    (by
      intro r hr
      simp only [List.mem_cons, List.mem_singleton, List.not_mem_nil, or_false] at hr
      rcases hr with rfl | rfl <;> exact ⟨⟨by simp, by decide⟩, ⟨by simp, by decide⟩⟩)
    (MergesTo.done _) (by rw [initial_word, byte_tables_closed_form.1]; decide!)

/-- C18: for every pretoken and every MergeTable as `load` builds it, the result of
`byte_pair_encode` has at most one symbol or holds no adjacent pair of symbols that
is a rule of the MergeTable. -/
theorem byte_pair_encode_no_merge_left (tok : Tokenizer) (token : Str)
    (hwf : MergesWellFormed tok.merges_) :
    (byte_pair_encode tok token).length ≤ 1 ∨
      ∀ (i : Nat) (l r : Str), (byte_pair_encode tok token)[i]? = some l →
        (byte_pair_encode tok token)[i + 1]? = some r → (l, r) ∉ tok.merges_ := by
  obtain ⟨m, hm, _, hstop⟩ := byte_pair_encode_chain tok token
  have hok := mergesTo_ok tok.merges_ hwf m _ _ hm (initial_word_ok token)
  rcases hstop with hnone | h1
  · rcases bpe_step_none_spec tok.merges_ hwf _ hok hnone with h | h
    · exact Or.inl h
    · right
      intro i l r hl hr
      rw [← find_merge_none l r tok.merges_ 0]
      exact h i l r hl hr
  · exact Or.inl (le_of_eq h1)

theorem byte_pair_encode_no_merge_left_witness :
    (byte_pair_encode ⟨[], [], [([98], [97]), ([97], [98])]⟩ [97, 98, 97, 98]).length ≤ 1 ∨
      ∀ (i : Nat) (l r : Str),
        (byte_pair_encode ⟨[], [], [([98], [97]), ([97], [98])]⟩ [97, 98, 97, 98])[i]? = some l →
        (byte_pair_encode ⟨[], [], [([98], [97]), ([97], [98])]⟩ [97, 98, 97, 98])[i + 1]? =
          some r →
        (l, r) ∉ Tokenizer.merges_ ⟨[], [], [([98], [97]), ([97], [98])]⟩ :=
  byte_pair_encode_no_merge_left ⟨[], [], [([98], [97]), ([97], [98])]⟩ [97, 98, 97, 98]
    (by
      intro r hr
      simp only [List.mem_cons, List.mem_singleton, List.not_mem_nil, or_false] at hr
      rcases hr with rfl | rfl <;> exact ⟨⟨by simp, by decide⟩, ⟨by simp, by decide⟩⟩)

/-- C19: for every MergeTable and every pretoken of `n >= 1` bytes, the merge loop
of `byte_pair_encode` ends (within its fuel); every pass that merges shortens the
SymbolSequence by exactly one symbol; the result is reached by some number `m` of
merges with `m <= n - 1`, and it has `n - m` symbols, between 1 and `n`. -/
theorem byte_pair_encode_terminates_shrinking (tok : Tokenizer) (token : Str)
    (hn : 1 ≤ token.length) :
    ((initial_word token).length ≠ 1 →
        bpe_loop tok.merges_ ((initial_word token).length + 1) (initial_word token) =
          some (byte_pair_encode tok token)) ∧
      (∀ w w' : List Str, bpe_step tok.merges_ w = some w' → w'.length + 1 = w.length) ∧
      ∃ m, MergesTo tok.merges_ m (initial_word token) (byte_pair_encode tok token) ∧
        m ≤ token.length - 1 ∧
        (byte_pair_encode tok token).length + m = token.length ∧
        1 ≤ (byte_pair_encode tok token).length ∧
        (byte_pair_encode tok token).length ≤ token.length := by
  refine ⟨?_, fun w w' h => bpe_step_length tok.merges_ w w' h, ?_⟩
  · intro hw
    obtain ⟨r, hr⟩ := bpe_loop_terminates tok.merges_ ((initial_word token).length + 1)
      (initial_word token) (by omega)
    simp [byte_pair_encode, hw, hr]
  · obtain ⟨m, hm1, hm2, _⟩ := byte_pair_encode_chain tok token
    have hpos : 1 ≤ (byte_pair_encode tok token).length := by
      have hgen : ∀ (m : Nat) (w1 w2 : List Str), MergesTo tok.merges_ m w1 w2 →
          1 ≤ w1.length → 1 ≤ w2.length := by
        intro m w1 w2 h
        induction h with
        | done w => exact fun h => h
        | step m w1 w2 w3 hstep _ ih =>
          intro _
          apply ih
          have hlen := bpe_step_length tok.merges_ w1 w2 hstep
          have hp : get_pairs w1 ≠ [] := by
            intro hp
            simp [bpe_step, hp] at hstep
          have := get_pairs_length w1
          have hpl : 0 < (get_pairs w1).length := List.length_pos.mpr hp
          omega
      exact hgen m _ _ hm1 (by simpa [initial_word] using hn)
    exact ⟨m, hm1, by omega, hm2, hpos, by omega⟩

theorem byte_pair_encode_terminates_shrinking_witness :
    ∃ m, MergesTo (Tokenizer.merges_ ⟨[], [], [([97], [98])]⟩) m (initial_word [97, 98, 99])
        (byte_pair_encode ⟨[], [], [([97], [98])]⟩ [97, 98, 99]) ∧
      m ≤ [97, 98, 99].length - 1 ∧
      (byte_pair_encode ⟨[], [], [([97], [98])]⟩ [97, 98, 99]).length + m =
        [97, 98, 99].length ∧
      1 ≤ (byte_pair_encode ⟨[], [], [([97], [98])]⟩ [97, 98, 99]).length ∧
      (byte_pair_encode ⟨[], [], [([97], [98])]⟩ [97, 98, 99]).length ≤ [97, 98, 99].length :=
  (byte_pair_encode_terminates_shrinking ⟨[], [], [([97], [98])]⟩ [97, 98, 99]
    (by decide)).2.2

/-! ## Loading the vocabulary -/

theorem find_assign_self {κ ν : Type} [DecidableEq κ] : ∀ (m : Map κ ν) (k : κ) (v : ν),
    Map.find (Map.assign m k v) k = some v := by
  intro m
  induction m with
  | nil => intro k v; simp [Map.assign, Map.find]
  | cons e m ih =>
    intro k v
    obtain ⟨k', v'⟩ := e
    unfold Map.assign
    split
    · simp [Map.find]
    · rename_i hk
      simp only [Map.find, if_neg hk]
      exact ih k v

theorem find_assign_other {κ ν : Type} [DecidableEq κ] : ∀ (m : Map κ ν) (k k2 : κ) (v : ν),
    k2 ≠ k → Map.find (Map.assign m k v) k2 = Map.find m k2 := by
  intro m
  induction m with
  | nil =>
    intro k k2 v h
    simp [Map.assign, Map.find, Ne.symm h]
  | cons e m ih =>
    intro k k2 v h
    obtain ⟨k', v'⟩ := e
    unfold Map.assign
    split
    · rename_i hk
      subst hk
      simp [Map.find, Ne.symm h]
    · simp only [Map.find]
      split
      · rfl
      · exact ih k k2 v h

theorem vocab_fold_inv : ∀ (items seen : List (Str × Int)) (maps : Map Str Int × Map Int Str),
    (∀ s id, Map.find maps.1 s = some id ↔ (s, id) ∈ seen) →
    (∀ id s, Map.find maps.2 id = some s ↔ (s, id) ∈ seen) →
    ((seen ++ items).map Prod.fst).Nodup → ((seen ++ items).map Prod.snd).Nodup →
    (∀ s id, Map.find (items.foldl vocab_step maps).1 s = some id ↔ (s, id) ∈ seen ++ items) ∧
      (∀ id s, Map.find (items.foldl vocab_step maps).2 id = some s ↔
        (s, id) ∈ seen ++ items) := by
  intro items
  induction items with
  | nil =>
    intro seen maps h1 h2 _ _
    simpa using ⟨h1, h2⟩
  | cons item items ih =>
    intro seen maps h1 h2 hk hv
    obtain ⟨k, v⟩ := item
    have hk' : ((seen ++ [(k, v)] ++ items).map Prod.fst).Nodup := by simpa using hk
    have hv' : ((seen ++ [(k, v)] ++ items).map Prod.snd).Nodup := by simpa using hv
    have hknew : ∀ id, (k, id) ∉ seen := by
      intro id hmem
      simp only [List.map_append, List.map_cons] at hk
      have := (List.nodup_append.mp hk).2.2
      exact this (List.mem_map_of_mem Prod.fst hmem) (List.mem_cons_self _ _)
    have hvnew : ∀ s, (s, v) ∉ seen := by
      intro s hmem
      simp only [List.map_append, List.map_cons] at hv
      have := (List.nodup_append.mp hv).2.2
      exact this (List.mem_map_of_mem Prod.snd hmem) (List.mem_cons_self _ _)
    have := ih (seen ++ [(k, v)]) (vocab_step maps (k, v)) ?_ ?_ hk' hv'
    · simpa using this
    · intro s id
      simp only [vocab_step]
      by_cases hs : s = k
      · subst hs
        rw [find_assign_self]
        simp only [Option.some.injEq, List.mem_append, List.mem_singleton, Prod.mk.injEq,
          true_and]
        constructor
        · intro h; exact Or.inr h.symm
        · intro h
          rcases h with h | h
          · exact absurd h (hknew id)
          · exact h.symm
      · rw [find_assign_other _ _ _ _ hs, h1]
        simp [hs]
    · intro id s
      simp only [vocab_step]
      by_cases hid : id = v
      · subst hid
        rw [find_assign_self]
        simp only [Option.some.injEq, List.mem_append, List.mem_singleton, Prod.mk.injEq,
          and_true]
        constructor
        · intro h; exact Or.inr h.symm
        · intro h
          rcases h with h | h
          · exact absurd h (hvnew s)
          · exact h.symm
      · rw [find_assign_other _ _ _ _ hid, h2]
        simp [hid]

/-- C14: after loading into an empty tokenizer the items of a vocabulary object
(distinct token strings) whose ids are pairwise distinct, `reverse_vocab_` maps the
id of every token of `vocab_` back to the token, and `vocab_` maps the token of
every id of `reverse_vocab_` back to the id. -/
theorem load_vocab_mutual_inverses (items : List (Str × Int)) (merges : List (Str × Str))
    (hkeys : (items.map Prod.fst).Nodup) (hids : (items.map Prod.snd).Nodup) :
    (∀ t id, Map.find (load_vocab ⟨[], [], merges⟩ items).vocab_ t = some id →
        Map.find (load_vocab ⟨[], [], merges⟩ items).reverse_vocab_ id = some t) ∧
      (∀ id t, Map.find (load_vocab ⟨[], [], merges⟩ items).reverse_vocab_ id = some t →
        Map.find (load_vocab ⟨[], [], merges⟩ items).vocab_ t = some id) ∧
      (∀ t id, (t, id) ∈ items →
        Map.find (load_vocab ⟨[], [], merges⟩ items).vocab_ t = some id) := by
  obtain ⟨h1, h2⟩ := vocab_fold_inv items [] ([], [])
    (by intro s id; simp [Map.find]) (by intro id s; simp [Map.find])
    (by simpa using hkeys) (by simpa using hids)
  simp only [List.nil_append] at h1 h2
  refine ⟨?_, ?_, ?_⟩
  · intro t id h
    exact (h2 id t).mpr ((h1 t id).mp h)
  · intro id t h
    exact (h1 t id).mpr ((h2 id t).mp h)
  · intro t id h
    exact (h1 t id).mpr h

theorem load_vocab_mutual_inverses_witness :
    Map.find (load_vocab ⟨[], [], []⟩ [([97], 5), ([98], 7)]).vocab_ [98] = some 7 ∧
      Map.find (load_vocab ⟨[], [], []⟩ [([97], 5), ([98], 7)]).reverse_vocab_ 7 = some [98] :=
  ⟨by decide,
    (load_vocab_mutual_inverses [([97], 5), ([98], 7)] [] (by decide) (by decide)).1 [98] 7
      (by decide)⟩

/-! ## Loading the merge rules -/

theorem merges_fold_eq : ∀ (lines : List Str) (acc : List (Str × Str)),
    lines.foldl merges_step acc =
      acc ++ (lines.filter
        (fun line => decide ((parse_pair line).1 ≠ [] ∧ (parse_pair line).2 ≠ []))).map
        parse_pair := by
  intro lines
  induction lines with
  | nil => intro acc; simp
  | cons l ls ih =>
    intro acc
    rw [List.foldl_cons, ih]
    by_cases hr : (parse_pair l).1 ≠ [] ∧ (parse_pair l).2 ≠ []
    · have hl : l ≠ [] := by
        intro h
        rw [h] at hr
        exact hr.1 rfl
      simp [merges_step, hl, hr, List.filter_cons]
    · have hstep : merges_step acc l = acc := by
        unfold merges_step
        split
        · rfl
        · simp only [if_neg hr]
      have hd : decide ((parse_pair l).1 ≠ [] ∧ (parse_pair l).2 ≠ []) = false :=
        decide_eq_false hr
      rw [hstep, List.filter_cons]
      simp only [hd]
      rfl

theorem extract_word_split (s : Str) :
    s = s.takeWhile is_space ++ (extract_word s).1 ++ (extract_word s).2 ∧
      (∀ c ∈ s.takeWhile is_space, is_space c = true) ∧
      (∀ c ∈ (extract_word s).1, is_space c = false) ∧
      (∀ c, (extract_word s).2.head? = some c → is_space c = true) := by
  refine ⟨?_, ?_, ?_, ?_⟩
  · unfold extract_word
    simp only [List.append_assoc, List.takeWhile_append_dropWhile]
  · intro c hc
    exact List.mem_takeWhile_imp hc
  · intro c hc
    have := List.mem_takeWhile_imp hc
    simpa using this
  · intro c hc
    unfold extract_word at hc
    simp only at hc
    have hmem : c ∈ (s.dropWhile is_space).dropWhile (fun c => !is_space c) :=
      List.mem_of_mem_head? hc
    have hne : (s.dropWhile is_space).dropWhile (fun c => !is_space c) ≠ [] :=
      List.ne_nil_of_mem hmem
    have := List.head_dropWhile_not (fun c => !is_space c) (s.dropWhile is_space) hne
    rw [List.head?_eq_head hne] at hc
    simp only [Option.some.injEq] at hc
    rw [hc] at this
    simpa using this

theorem parse_pair_split (l : Str) (h1 : (parse_pair l).1 ≠ []) (h2 : (parse_pair l).2 ≠ []) :
    WsFree (parse_pair l).1 ∧ WsFree (parse_pair l).2 ∧
      ∃ pre mid post, l = pre ++ (parse_pair l).1 ++ mid ++ (parse_pair l).2 ++ post ∧
        (∀ c ∈ pre, is_space c = true) ∧ mid ≠ [] ∧ (∀ c ∈ mid, is_space c = true) ∧
        (∀ c, post.head? = some c → is_space c = true) := by
  obtain ⟨ha1, ha2, ha3, ha4⟩ := extract_word_split l
  obtain ⟨hb1, hb2, hb3, hb4⟩ := extract_word_split (extract_word l).2
  have hp1 : (parse_pair l).1 = (extract_word l).1 := rfl
  have hp2 : (parse_pair l).2 = (extract_word (extract_word l).2).1 := rfl
  rw [hp1] at h1 ⊢
  rw [hp2] at h2 ⊢
  refine ⟨⟨h1, ha3⟩, ⟨h2, hb3⟩, l.takeWhile is_space,
    (extract_word l).2.takeWhile is_space, (extract_word (extract_word l).2).2, ?_, ha2, ?_,
    hb2, hb4⟩
  · conv_lhs => rw [ha1, hb1]
    simp only [List.append_assoc]
  · intro hmid
    rw [hmid] at hb1
    simp only [List.nil_append] at hb1
    have hhead : ∀ c, (extract_word l).2.head? = some c → is_space c = false := by
      intro c hc
      rw [hb1] at hc
      cases hw : (extract_word (extract_word l).2).1 with
      | nil => exact absurd hw h2
      | cons x xs =>
        rw [hw] at hc
        simp only [List.cons_append, List.head?_cons, Option.some.injEq] at hc
        rw [← hc]
        exact hb3 x (by rw [hw]; exact List.mem_cons_self _ _)
    cases hrest : (extract_word l).2 with
    | nil =>
      rw [hrest] at h2
      exact h2 (by simp [extract_word])
    | cons x xs =>
      have e1 := ha4 x (by rw [hrest]; rfl)
      have e2 := hhead x (by rw [hrest]; rfl)
      rw [e1] at e2
      exact absurd e2 (by simp)

theorem parse_pair_blank (l : Str) (h : ∀ c ∈ l, is_space c = true) :
    (parse_pair l).1 = [] := by
  unfold parse_pair
  rw [extract_word_allws l h]

/-- Loading a merges file keeps the MergeTable well formed: every rule that the loop
of lines 78-86 stores has two non-empty symbols free of whitespace. -/
theorem load_merges_well_formed (tok : Tokenizer) (content : Str)
    (hwf : MergesWellFormed tok.merges_) :
    MergesWellFormed (load_merges tok content).merges_ := by
  intro r hr
  have hmerges : (load_merges tok content).merges_ =
      tok.merges_ ++ (rule_lines content).map parse_pair := by
    simp only [load_merges, rule_lines]
    exact merges_fold_eq _ _
  rw [hmerges] at hr
  rcases List.mem_append.mp hr with h | h
  · exact hwf r h
  · obtain ⟨line, hl, rfl⟩ := List.mem_map.mp h
    have hd := (List.mem_filter.mp hl).2
    have hne : (parse_pair line).1 ≠ [] ∧ (parse_pair line).2 ≠ [] := by simpa using hd
    have := parse_pair_split line hne.1 hne.2
    exact ⟨this.1, this.2.1⟩

/-- The MergeTable that `Tokenizer::load` leaves in a freshly constructed tokenizer
is well formed, whatever the two files hold and whether or not they can be opened. -/
theorem load_well_formed (vocab_file : Option (List (Str × Int))) (merges_file : Option Str) :
    MergesWellFormed (load ⟨[], [], []⟩ vocab_file merges_file).2.merges_ := by
  have hempty : MergesWellFormed ([] : List (Str × Str)) := by
    intro r hr
    simp at hr
  cases vocab_file with
  | none => exact hempty
  | some items =>
    cases merges_file with
    | none => exact hempty
    | some content => exact load_merges_well_formed _ content hempty

/-! ## The lines and the symbols of the merges source -/

theorem read_lines_from_spec : ∀ (s acc : Str), 10 ∉ acc →
    (∀ line ∈ read_lines_from s acc, 10 ∉ line) ∧
      ((read_lines_from s acc).flatMap (fun l => l ++ [10]) = acc ++ s ∨
        (read_lines_from s acc).flatMap (fun l => l ++ [10]) = acc ++ s ++ [10]) := by
  intro s
  induction s with
  | nil =>
    intro acc hacc
    unfold read_lines_from
    by_cases h : acc = []
    · subst h
      simp
    · rw [if_neg h]
      refine ⟨?_, Or.inr (by simp)⟩
      intro line hl
      simp only [List.mem_singleton] at hl
      rw [hl]
      exact hacc
  | cons c rest ih =>
    intro acc hacc
    unfold read_lines_from
    by_cases hc : c = 10
    · rw [if_pos hc]
      obtain ⟨h1, h2⟩ := ih [] (by simp)
      refine ⟨?_, ?_⟩
      · intro line hl
        rcases List.mem_cons.mp hl with rfl | hl
        · exact hacc
        · exact h1 line hl
      · subst hc
        rcases h2 with h2 | h2
        · left
          simp only [List.flatMap_cons, h2, List.nil_append, List.append_assoc,
            List.singleton_append]
        · right
          simp only [List.flatMap_cons, h2, List.nil_append, List.append_assoc,
            List.singleton_append, List.cons_append]
    · rw [if_neg hc]
      obtain ⟨h1, h2⟩ := ih (acc ++ [c]) (by
        intro h
        rcases List.mem_append.mp h with h | h
        · exact hacc h
        · simp only [List.mem_singleton] at h
          exact hc h.symm)
      refine ⟨h1, ?_⟩
      rcases h2 with h2 | h2
      · left
        rw [h2]
        simp
      · right
        rw [h2]
        simp

theorem ws_symbols_from_run : ∀ (s cur : Str),
    ws_symbols_from s cur =
      if cur ++ s.takeWhile (fun c => !is_space c) = [] then
        ws_symbols_from (s.dropWhile (fun c => !is_space c)) []
      else (cur ++ s.takeWhile (fun c => !is_space c)) ::
        ws_symbols_from (s.dropWhile (fun c => !is_space c)) [] := by
  intro s
  induction s with
  | nil =>
    intro cur
    by_cases h : cur = []
    · subst h
      simp [ws_symbols_from]
    · simp [ws_symbols_from, h]
  | cons c rest ih =>
    intro cur
    by_cases hc : is_space c = true
    · have hn : (!is_space c) = false := by simp [hc]
      simp only [List.takeWhile_cons, List.dropWhile_cons, hn, Bool.false_eq_true, if_false,
        List.append_nil]
      have hskip : ws_symbols_from (c :: rest) [] = ws_symbols_from rest [] := by
        conv_lhs => unfold ws_symbols_from
        simp only [hc, if_true]
      by_cases h : cur = []
      · subst h
        simp only [if_true]
      · rw [if_neg h, hskip]
        conv_lhs => unfold ws_symbols_from
        simp only [hc, if_true, h, if_false]
    · have hc' : is_space c = false := by simpa using hc
      have hn : (!is_space c) = true := by simp [hc']
      simp only [List.takeWhile_cons, List.dropWhile_cons, hn, if_true]
      conv_lhs => unfold ws_symbols_from
      simp only [hc', Bool.false_eq_true, if_false]
      rw [ih (cur ++ [c])]
      simp

theorem ws_symbols_from_skip : ∀ s : Str,
    ws_symbols_from s [] = ws_symbols_from (s.dropWhile is_space) [] := by
  intro s
  induction s with
  | nil => rfl
  | cons c rest ih =>
    by_cases hc : is_space c = true
    · simp only [List.dropWhile_cons, hc, if_true]
      rw [← ih]
      conv_lhs => unfold ws_symbols_from
      simp [hc]
    · simp [List.dropWhile_cons, hc]

theorem dropWhile_head_not (p : Nat → Bool) : ∀ (s : Str) (c : Nat) (rest : Str),
    s.dropWhile p = c :: rest → p c = false := by
  intro s
  induction s with
  | nil => intro c rest h; simp at h
  | cons a s ih =>
    intro c rest h
    by_cases ha : p a = true
    · simp only [List.dropWhile_cons, ha, if_true] at h
      exact ih c rest h
    · simp only [List.dropWhile_cons, ha] at h
      simp only [Bool.false_eq_true, if_false, List.cons.injEq] at h
      rw [← h.1]
      simpa using ha

theorem ws_symbols_extract (s : Str) :
    ws_symbols s =
      if (extract_word s).1 = [] then []
      else (extract_word s).1 :: ws_symbols (extract_word s).2 := by
  unfold ws_symbols extract_word
  rw [ws_symbols_from_skip s, ws_symbols_from_run (s.dropWhile is_space) []]
  simp only [List.nil_append]
  by_cases h : (s.dropWhile is_space).takeWhile (fun c => !is_space c) = []
  · simp only [h, if_true]
    cases hs : s.dropWhile is_space with
    | nil => simp [ws_symbols_from]
    | cons c rest =>
      exfalso
      have hc := dropWhile_head_not is_space s c rest hs
      rw [hs] at h
      simp [List.takeWhile_cons, hc] at h
  · simp only [h, if_false]

theorem first_two_symbols_eq (line : Str) :
    first_two_symbols line =
      if (parse_pair line).1 ≠ [] ∧ (parse_pair line).2 ≠ [] then some (parse_pair line)
      else none := by
  unfold first_two_symbols
  rw [ws_symbols_extract line]
  have hp1 : (parse_pair line).1 = (extract_word line).1 := rfl
  have hp2 : (parse_pair line).2 = (extract_word (extract_word line).2).1 := rfl
  by_cases h1 : (extract_word line).1 = []
  · have : ¬ ((parse_pair line).1 ≠ [] ∧ (parse_pair line).2 ≠ []) := by
      rw [hp1]
      exact fun h => h.1 h1
    simp only [h1, if_true, if_neg this]
  · simp only [h1, if_false]
    rw [ws_symbols_extract (extract_word line).2]
    by_cases h2 : (extract_word (extract_word line).2).1 = []
    · have : ¬ ((parse_pair line).1 ≠ [] ∧ (parse_pair line).2 ≠ []) := by
        rw [hp2]
        exact fun h => h.2 h2
      simp only [h2, if_true, if_neg this]
    · have : (parse_pair line).1 ≠ [] ∧ (parse_pair line).2 ≠ [] := by
        rw [hp1, hp2]
        exact ⟨h1, h2⟩
      simp only [h2, if_false, if_pos this]
      rfl

theorem merges_fold_symbols : ∀ (lines : List Str) (acc : List (Str × Str)),
    lines.foldl merges_step acc = acc ++ lines.filterMap first_two_symbols := by
  intro lines
  induction lines with
  | nil => intro acc; simp
  | cons l ls ih =>
    intro acc
    rw [List.foldl_cons, ih, List.filterMap_cons, first_two_symbols_eq l]
    by_cases hr : (parse_pair l).1 ≠ [] ∧ (parse_pair l).2 ≠ []
    · have hl : l ≠ [] := by
        intro h
        rw [h] at hr
        exact hr.1 rfl
      simp [merges_step, hl, hr]
    · have hstep : merges_step acc l = acc := by
        unfold merges_step
        split
        · rfl
        · simp only [if_neg hr]
      rw [hstep, if_neg hr]

theorem filterMap_first_two : ∀ lines : List Str,
    (∀ line ∈ lines, ws_symbols line = [] ∨ 2 ≤ (ws_symbols line).length) →
      lines.filterMap first_two_symbols =
        (lines.filter (fun line => decide (ws_symbols line ≠ []))).map
          (fun line => ((ws_symbols line).getD 0 [], (ws_symbols line).getD 1 [])) := by
  intro lines
  induction lines with
  | nil => intro _; rfl
  | cons l ls ih =>
    intro h
    have hl := h l (List.mem_cons_self _ _)
    have hrest := ih (fun x hx => h x (List.mem_cons_of_mem _ hx))
    rw [List.filterMap_cons, List.filter_cons, hrest]
    unfold first_two_symbols
    match hw : ws_symbols l, hl with
    | [], _ => simp
    | [a], hl => simp at hl
    | a :: b :: rest, _ => simp [hw]

/-- C16: parsing the merges source takes its lines (the pieces between newlines),
discards the first, skips the blank ones (those without a symbol) and turns each
other line into one rule made of its first two whitespace-separated symbols, in
file order: in a source of the format, where every line after the first is blank or
holds at least two symbols, the rule of index `i` of `merges_`, loaded into a
tokenizer without rules, is made of the first two symbols of the `i`-th non-blank
line after the first; every stored rule has two non-empty symbols without
whitespace. Whatever the source, a line after the first makes a rule exactly when
it holds two symbols or more. -/
theorem load_merges_rule_per_line (tok : Tokenizer) (content : Str) :
    (∀ line ∈ read_lines content, 10 ∉ line) ∧
      ((read_lines content).flatMap (fun l => l ++ [10]) = content ∨
        (read_lines content).flatMap (fun l => l ++ [10]) = content ++ [10]) ∧
      (load_merges tok content).merges_ =
        tok.merges_ ++ ((read_lines content).drop 1).filterMap first_two_symbols ∧
      ((∀ line ∈ (read_lines content).drop 1,
          ws_symbols line = [] ∨ 2 ≤ (ws_symbols line).length) →
        (load_merges ⟨tok.vocab_, tok.reverse_vocab_, []⟩ content).merges_ =
            (((read_lines content).drop 1).filter
              (fun line => decide (ws_symbols line ≠ []))).map
              (fun line => ((ws_symbols line).getD 0 [], (ws_symbols line).getD 1 [])) ∧
          ∀ (i : Nat) (line : Str),
            (((read_lines content).drop 1).filter
              (fun line => decide (ws_symbols line ≠ [])))[i]? = some line →
            (load_merges ⟨tok.vocab_, tok.reverse_vocab_, []⟩ content).merges_[i]? =
              some ((ws_symbols line).getD 0 [], (ws_symbols line).getD 1 [])) ∧
      (∀ r ∈ (load_merges ⟨tok.vocab_, tok.reverse_vocab_, []⟩ content).merges_,
        WsFree r.1 ∧ WsFree r.2) := by
  have hlines := read_lines_from_spec content [] (by simp)
  have hmerges : ∀ t : Tokenizer, (load_merges t content).merges_ =
      t.merges_ ++ ((read_lines content).drop 1).filterMap first_two_symbols := by
    intro t
    simp only [load_merges]
    exact merges_fold_symbols _ _
  refine ⟨hlines.1, ?_, hmerges tok, ?_, ?_⟩
  · simpa [read_lines] using hlines.2
  · intro hformat
    have heq : (load_merges ⟨tok.vocab_, tok.reverse_vocab_, []⟩ content).merges_ =
        (((read_lines content).drop 1).filter
          (fun line => decide (ws_symbols line ≠ []))).map
          (fun line => ((ws_symbols line).getD 0 [], (ws_symbols line).getD 1 [])) := by
      rw [hmerges, filterMap_first_two _ hformat]
      rfl
    refine ⟨heq, ?_⟩
    intro i line hi
    rw [heq, List.getElem?_map, hi]
    rfl
  · exact load_merges_well_formed ⟨tok.vocab_, tok.reverse_vocab_, []⟩ content
      (by intro r hr; simp at hr)

theorem load_merges_rule_per_line_witness :
    ws_symbols [99, 32, 32, 100, 32, 101] = [[99], [100], [101]] ∧
      (load_merges ⟨[], [], []⟩
        [118, 10, 97, 32, 98, 10, 10, 99, 32, 32, 100, 32, 101]).merges_ =
          [([97], [98]), ([99], [100])] := by
  refine ⟨by decide, ?_⟩
  rw [((load_merges_rule_per_line ⟨[], [], []⟩
    [118, 10, 97, 32, 98, 10, 10, 99, 32, 32, 100, 32, 101]).2.2.2.1 (by decide)).1]
  decide

section StrategyClaims

variable {α : Type} [LinearOrderedField α]

/-! ## The strategy table and Top-k -/

/-- C11: in a generation step the sampled index is the result of exactly one
strategy, chosen by the table: `temperature == 0` gives Greedy; otherwise
`0 < top_k < vocab_size` gives Top-k, and the result is then the same for every
`top_p`; otherwise `top_p < 1.0` gives Top-p; otherwise plain Temperature sampling.
Top-k and Top-p work on the same unfiltered logits, never one after the other. -/
theorem strategy_selection_table (env : Env α) (cfg : GenerationConfig α) (step : Nat)
    (last_logits : List α) :
    (cfg.temperature = 0 →
      sample_next env cfg step last_logits = some (sample_greedy last_logits)) ∧
    (cfg.temperature ≠ 0 → 0 < cfg.top_k → cfg.top_k < (env.vocab_size : Int) →
      sample_next env cfg step last_logits =
        sample_top_k env.psort env.fl (env.dist step) last_logits cfg.top_k.toNat
          cfg.temperature ∧
      ∀ top_p : α,
        sample_next env ⟨cfg.max_length, cfg.temperature, cfg.top_k, top_p, cfg.eos_token_id⟩
          step last_logits = sample_next env cfg step last_logits) ∧
    (cfg.temperature ≠ 0 → ¬ (0 < cfg.top_k ∧ cfg.top_k < (env.vocab_size : Int)) →
      cfg.top_p < 1 →
      sample_next env cfg step last_logits =
        sample_top_p env.sort env.fl (env.dist step) last_logits cfg.top_p cfg.temperature) ∧
    (cfg.temperature ≠ 0 → ¬ (0 < cfg.top_k ∧ cfg.top_k < (env.vocab_size : Int)) →
      ¬ cfg.top_p < 1 →
      sample_next env cfg step last_logits =
        sample_with_temperature env.fl (env.dist step) last_logits cfg.temperature) := by
  refine ⟨?_, ?_, ?_, ?_⟩
  · intro h
    simp [sample_next, h]
  · intro h hk1 hk2
    have hk : cfg.top_k > 0 ∧ cfg.top_k < (env.vocab_size : Int) := ⟨hk1, hk2⟩
    refine ⟨?_, ?_⟩
    · simp only [sample_next, if_neg h, if_pos hk]
    · intro top_p
      simp only [sample_next, if_neg h, if_pos hk]
  · intro h hk hp
    have hk' : ¬ (cfg.top_k > 0 ∧ cfg.top_k < (env.vocab_size : Int)) := hk
    simp only [sample_next, if_neg h, if_neg hk', if_pos hp]
  · intro h hk hp
    have hk' : ¬ (cfg.top_k > 0 ∧ cfg.top_k < (env.vocab_size : Int)) := hk
    simp only [sample_next, if_neg h, if_neg hk', if_neg hp]

theorem strategy_selection_table_witness :
    sample_next (⟨fun _ _ => [], 3, exact_ops id, fun _ _ => 0, fun _ l => l, heap_partial_sort⟩ : Env ℚ)
        ⟨50, 1, 2, 9 / 10, 50256⟩ 0 [1, 5, 2] =
      sample_top_k heap_partial_sort (exact_ops id) (fun _ => 0) ([1, 5, 2] : List ℚ) 2 1 :=
  ((strategy_selection_table
    (⟨fun _ _ => [], 3, exact_ops id, fun _ _ => 0, fun _ l => l, heap_partial_sort⟩ : Env ℚ)
    ⟨50, 1, 2, 9 / 10, 50256⟩ 0 [1, 5, 2]).2.1 (by norm_num) (by decide) (by decide)).1

theorem softmax_some (fl : FloatOps α) (logits : List α) (temperature : α)
    (h : logits ≠ []) :
    ∃ probs, softmax fl logits temperature = some probs ∧ probs.length = logits.length := by
  have hlt := (max_element_spec logits h).1
  unfold softmax
  rw [List.getElem?_eq_getElem hlt]
  exact ⟨_, rfl, by simp⟩

theorem range_mem_perm (v : List Nat) (n : Nat) (h : v.Perm (List.range n)) :
    v.Nodup ∧ v.length = n ∧ ∀ x, x ∈ v ↔ x < n := by
  refine ⟨h.nodup_iff.mpr (List.nodup_range n), by simpa using h.length_eq, ?_⟩
  intro x
  rw [h.mem_iff, List.mem_range]

/-- C20: for every logits vector, every `k` with `1 <= k <= length`, every
temperature, every `std::partial_sort` meeting its contract and every index the
discrete distribution can draw, `sample_top_k` returns a valid index of the logits
vector, and fewer than `k` indices have a logit strictly greater than the logit at
the returned index. -/
theorem sample_top_k_among_k_largest
    (psort : (Nat → Nat → Bool) → Nat → List Nat → Option (List Nat)) (fl : FloatOps α)
    (dist : List α → Nat) (logits : List α) (k : Nat) (temperature : α)
    (hk1 : 1 ≤ k) (hk2 : k ≤ logits.length)
    (hpsort : PartialSortsDescending psort logits k)
    (hdist : ∀ w : List α, w ≠ [] → dist w < w.length) :
    ∃ idx, sample_top_k psort fl dist logits k temperature = some idx ∧
      idx < logits.length ∧
      ((List.range logits.length).filter
        (fun j => decide (logits.getD idx 0 < logits.getD j 0))).length < k := by
  obtain ⟨v, hv, hperm, _, hrest⟩ := hpsort
  obtain ⟨hnodup, hlen, hmem⟩ := range_mem_perm v logits.length hperm
  have htk : (v.take k).length = k := by rw [List.length_take]; omega
  have hne : (v.take k).map (fun i => logits.getD i 0) ≠ [] := by
    intro h
    have := congrArg List.length h
    simp only [List.length_map, htk, List.length_nil] at this
    omega
  obtain ⟨probs, hprobs, hpl⟩ := softmax_some fl _ temperature hne
  have hpne : probs ≠ [] := by
    intro h
    rw [h] at hpl
    simp only [List.length_nil, List.length_map, htk] at hpl
    omega
  have hsel : dist probs < k := by
    have := hdist probs hpne
    rw [hpl, List.length_map, htk] at this
    exact this
  have hselv : dist probs < v.length := by omega
  have hidx_take : v[dist probs] ∈ v.take k := by
    rw [List.mem_take_iff_getElem]
    exact ⟨dist probs, by omega, rfl⟩
  refine ⟨v[dist probs], ?_, (hmem _).mp (List.getElem_mem _), ?_⟩
  · unfold sample_top_k
    simp only [hv, hprobs]
    exact List.getElem?_eq_getElem hselv
  · have hsub : (List.range logits.length).filter
        (fun j => decide (logits.getD v[dist probs] 0 < logits.getD j 0)) ⊆
        (v.take k).erase v[dist probs] := by
      intro j hj
      obtain ⟨hj1, hj2⟩ := List.mem_filter.mp hj
      have hj2' : logits.getD v[dist probs] 0 < logits.getD j 0 := by simpa using hj2
      have hjv : j ∈ v := (hmem j).mpr (List.mem_range.mp hj1)
      have hne : j ≠ v[dist probs] := by
        intro h
        rw [h] at hj2'
        exact lt_irrefl _ hj2'
      have hjt : j ∈ v.take k := by
        rw [← List.take_append_drop k v] at hjv
        rcases List.mem_append.mp hjv with h | h
        · exact h
        · have := hrest _ hidx_take j h
          unfold greater_at at this
          simp only [decide_eq_false_iff_not] at this
          exact absurd hj2' this
      exact (List.mem_erase_of_ne hne).mpr hjt
    have hnd : ((List.range logits.length).filter
        (fun j => decide (logits.getD v[dist probs] 0 < logits.getD j 0))).Nodup :=
      (List.nodup_range _).filter _
    have hle := (List.subperm_of_subset hnd hsub).length_le
    rw [List.length_erase_of_mem hidx_take, htk] at hle
    omega

theorem sample_top_k_among_k_largest_witness :
    ∃ idx, sample_top_k heap_partial_sort (exact_ops id) (fun _ => 0) ([2, 7, 7, 1] : List ℚ) 2 1 =
        some idx ∧
      idx < ([2, 7, 7, 1] : List ℚ).length ∧
      ((List.range ([2, 7, 7, 1] : List ℚ).length).filter
        (fun j => decide (([2, 7, 7, 1] : List ℚ).getD idx 0 <
          ([2, 7, 7, 1] : List ℚ).getD j 0))).length < 2 :=
  sample_top_k_among_k_largest heap_partial_sort (exact_ops id) (fun _ => 0) ([2, 7, 7, 1] : List ℚ) 2 1
    (by decide) (by decide) ⟨[2, 1, 0, 3], by decide!, by decide, by decide!, by decide!⟩
    (fun w hw => List.length_pos.mpr hw)

end StrategyClaims

section TopPOneClaim

variable {α : Type} [LinearOrderedField α]

/-! ## Top-p with `p = 1` -/

theorem map_getD_range (l : List α) : (List.range l.length).map (fun i => l.getD i 0) = l := by
  apply List.ext_getElem
  · simp
  · intro i h1 h2
    simp [List.getD_eq_getElem?_getD, h2]

end TopPOneClaim

/-! ## The slice of the last position -/

theorem read_all_map {α : Type} (read : Nat → Option α) (f : Nat → α) : ∀ is : List Nat,
    (∀ i ∈ is, read i = some (f i)) → read_all read is = some (is.map f) := by
  intro is
  induction is with
  | nil => intro _; rfl
  | cons i is ih =>
    intro h
    have hi := h i (List.mem_cons_self _ _)
    have hrest := ih (fun j hj => h j (List.mem_cons_of_mem _ hj))
    simp only [read_all, hi, hrest, List.map_cons]

section SliceClaims

variable {α : Type} [LinearOrderedField α]

theorem last_row_slice (all_logits : List α) (seq_len vocab_size : Nat)
    (hseq : 1 ≤ seq_len) (hlen : all_logits.length = seq_len * vocab_size)
    (hsize : all_logits.length < 2 ^ 64) :
    get_last_token_logits all_logits seq_len vocab_size =
        some (all_logits.drop ((seq_len - 1) * vocab_size)) ∧
      (all_logits.drop ((seq_len - 1) * vocab_size)).length = vocab_size ∧
      ∀ i, i < vocab_size →
        ((((if seq_len = 0 then 2 ^ 64 - 1 else seq_len - 1) * vocab_size) % 2 ^ 64 + i) %
            2 ^ 64 = (seq_len - 1) * vocab_size + i) ∧
          (seq_len - 1) * vocab_size + i < all_logits.length := by
  obtain ⟨k, rfl⟩ : ∃ k, seq_len = k + 1 := ⟨seq_len - 1, by omega⟩
  have hmul : (k + 1) * vocab_size = k * vocab_size + vocab_size := Nat.succ_mul k vocab_size
  simp only [Nat.add_sub_cancel] at *
  have hdl : (all_logits.drop (k * vocab_size)).length = vocab_size := by
    rw [List.length_drop]
    omega
  have hidx : ∀ i, i < vocab_size →
      ((((if k + 1 = 0 then 2 ^ 64 - 1 else k) * vocab_size) % 2 ^ 64 + i) % 2 ^ 64 =
          k * vocab_size + i) ∧ k * vocab_size + i < all_logits.length := by
    intro i hi
    have hlt : k * vocab_size + i < 2 ^ 64 := by omega
    rw [if_neg (by omega), Nat.mod_eq_of_lt (show k * vocab_size < 2 ^ 64 by omega),
      Nat.mod_eq_of_lt hlt]
    exact ⟨rfl, by omega⟩
  refine ⟨?_, hdl, hidx⟩
  unfold get_last_token_logits
  have hread := read_all_map
    (fun i => all_logits[(((if k + 1 = 0 then 2 ^ 64 - 1 else k + 1 - 1) * vocab_size) % 2 ^ 64
      + i) % 2 ^ 64]?)
    (fun i => (all_logits.drop (k * vocab_size)).getD i 0) (List.range vocab_size)
    (by
      intro i hi
      have hi' : i < vocab_size := List.mem_range.mp hi
      have := (hidx i hi').1
      simp only [Nat.add_sub_cancel]
      rw [this, List.getD_eq_getElem?_getD, List.getElem?_drop,
        List.getElem?_eq_getElem (hidx i hi').2]
      rfl)
  rw [hread]
  have hm := map_getD_range (all_logits.drop (k * vocab_size))
  rw [hdl] at hm
  rw [hm]

/-- C21: for every `seq_len >= 1`, every `vocab_size` and every buffer of
`seq_len * vocab_size` values (a vector, so shorter than `2 ^ 64`),
`get_last_token_logits` returns exactly `vocab_size` values, the `i`-th being the
buffer element at offset `(seq_len - 1) * vocab_size + i`: the result is the last
row of the row-major buffer. -/
theorem get_last_token_logits_last_row (all_logits : List α) (seq_len vocab_size : Nat)
    (hseq : 1 ≤ seq_len) (hlen : all_logits.length = seq_len * vocab_size)
    (hsize : all_logits.length < 2 ^ 64) :
    ∃ last, get_last_token_logits all_logits seq_len vocab_size = some last ∧
      last.length = vocab_size ∧
      (∀ i : Nat, i < vocab_size →
        ∃ h2 : (seq_len - 1) * vocab_size + i < all_logits.length,
          last[i]? = some (all_logits.get ⟨(seq_len - 1) * vocab_size + i, h2⟩)) ∧
      last = all_logits.drop ((seq_len - 1) * vocab_size) ∧
      all_logits = all_logits.take ((seq_len - 1) * vocab_size) ++ last := by
  obtain ⟨h1, h2, h3⟩ := last_row_slice all_logits seq_len vocab_size hseq hlen hsize
  refine ⟨_, h1, h2, ?_, rfl, (List.take_append_drop _ _).symm⟩
  intro i hi
  refine ⟨(h3 i hi).2, ?_⟩
  rw [List.getElem?_drop, List.getElem?_eq_getElem (h3 i hi).2]
  rfl

theorem get_last_token_logits_last_row_witness :
    get_last_token_logits ([1, 2, 3, 4, 5, 6] : List ℚ) 3 2 = some [5, 6] := by
  obtain ⟨last, h1, _, _, h4, _⟩ :=
    get_last_token_logits_last_row ([1, 2, 3, 4, 5, 6] : List ℚ) 3 2 (by decide) (by decide)
      (by decide)
  rw [h1, h4]
  rfl

/-- C24: if the forward pass returns, for every input of `L` token ids, a buffer of
exactly `L * vocab_size` values, with `vocab_size > 0` (and these sizes fit a
`size_t`), then at every step of `generate` the token sequence is empty, the buffer
is empty and the step ends the loop before any read, or `get_last_token_logits`
succeeds: each index it reads is the offset `(L - 1) * vocab_size + i` itself, lies
inside the buffer, and the slice is the last row. A prompt that encodes to zero
tokens leaves the loop at its first step with nothing appended. -/
theorem generate_reads_inside_buffer (env : Env α) (tok : Tokenizer)
    (cfg : GenerationConfig α) (prompt : Str) (hvs : 0 < env.vocab_size)
    (hfw : ∀ (step : Nat) (ids : List Int),
      (env.forward step ids).length = ids.length * env.vocab_size)
    (hsize : ((encode tok prompt).length + cfg.max_length.toNat) * env.vocab_size < 2 ^ 64) :
    ∃ gen : List Int,
      (generate_run env tok cfg prompt).input_ids = encode tok prompt ++ gen ∧
      gen.length ≤ cfg.max_length.toNat ∧
      (∀ (j : Nat) (t : Int), gen[j]? = some t →
        gen_step env cfg j (encode tok prompt ++ gen.take j) = StepResult.sampled t) ∧
      (∀ j : Nat, j ≤ gen.length →
        (encode tok prompt ++ gen.take j = [] →
          env.forward j (encode tok prompt ++ gen.take j) = [] ∧
          gen_step env cfg j (encode tok prompt ++ gen.take j) = StepResult.empty_logits) ∧
        (encode tok prompt ++ gen.take j ≠ [] →
          env.forward j (encode tok prompt ++ gen.take j) ≠ [] ∧
          get_last_token_logits (env.forward j (encode tok prompt ++ gen.take j))
              (encode tok prompt ++ gen.take j).length env.vocab_size =
            some ((env.forward j (encode tok prompt ++ gen.take j)).drop
              (((encode tok prompt ++ gen.take j).length - 1) * env.vocab_size)) ∧
          ∀ i, i < env.vocab_size →
            (((if (encode tok prompt ++ gen.take j).length = 0 then 2 ^ 64 - 1
                else (encode tok prompt ++ gen.take j).length - 1) * env.vocab_size) % 2 ^ 64
                + i) % 2 ^ 64 =
              ((encode tok prompt ++ gen.take j).length - 1) * env.vocab_size + i ∧
            ((encode tok prompt ++ gen.take j).length - 1) * env.vocab_size + i <
              (env.forward j (encode tok prompt ++ gen.take j)).length)) ∧
      (encode tok prompt = [] →
        generate_run env tok cfg prompt = ⟨[], [], true⟩ ∧
        generate env tok cfg prompt = some (decode tok [])) := by
  obtain ⟨gen, h1, _, h3, _, h5, _, _⟩ := gen_loop_spec env tok cfg cfg.max_length.toNat 0
    { input_ids := encode tok prompt, fragments := [], defined := true }
  simp only [Nat.zero_add] at h5
  refine ⟨gen, h1, h3, ?_, ?_, ?_⟩
  · intro j t hj
    obtain ⟨hlt, rfl⟩ := List.getElem?_eq_some_iff.mp hj
    exact h5 j hlt
  · intro j hj
    have hlenj : (encode tok prompt ++ gen.take j).length ≤
        (encode tok prompt).length + cfg.max_length.toNat := by
      rw [List.length_append, List.length_take]
      omega
    have hbuf : (env.forward j (encode tok prompt ++ gen.take j)).length < 2 ^ 64 := by
      rw [hfw]
      exact lt_of_le_of_lt (Nat.mul_le_mul_right _ hlenj) hsize
    refine ⟨?_, ?_⟩
    · intro hnil
      have hf : env.forward j (encode tok prompt ++ gen.take j) = [] := by
        apply List.length_eq_zero.mp
        rw [hfw, hnil]
        simp
      refine ⟨hf, ?_⟩
      unfold gen_step
      simp only [hf, List.isEmpty_nil, if_true]
    · intro hne
      have hpos : 1 ≤ (encode tok prompt ++ gen.take j).length :=
        List.length_pos.mpr hne
      obtain ⟨r1, _, r3⟩ := last_row_slice (env.forward j (encode tok prompt ++ gen.take j))
        (encode tok prompt ++ gen.take j).length env.vocab_size hpos (hfw _ _) hbuf
      refine ⟨?_, r1, r3⟩
      intro hf
      have := hfw j (encode tok prompt ++ gen.take j)
      rw [hf] at this
      simp only [List.length_nil] at this
      have hprod : 0 < (encode tok prompt ++ gen.take j).length * env.vocab_size :=
        Nat.mul_pos hpos hvs
      omega
  · intro hnil
    have hf : env.forward 0 [] = [] := by
      apply List.length_eq_zero.mp
      rw [hfw]
      simp
    have hrun : generate_run env tok cfg prompt = ⟨[], [], true⟩ := by
      unfold generate_run
      rw [hnil]
      cases cfg.max_length.toNat with
      | zero => rfl
      | succ n =>
        unfold gen_loop gen_step
        simp only [hf, List.isEmpty_nil, if_true]
    refine ⟨hrun, ?_⟩
    unfold generate gen_result
    rw [hrun]
    rfl

theorem generate_reads_inside_buffer_witness :
    ∃ gen : List Int,
      (generate_run
        (⟨fun _ ids => List.replicate (ids.length * 2) 0, 2, exact_ops id, fun _ _ => 0, fun _ l => l,
          heap_partial_sort⟩ : Env ℚ)
        ⟨[([33], 1)], [(1, [33])], []⟩ ⟨3, 0, 0, 1, 50256⟩ [33]).input_ids =
          encode ⟨[([33], 1)], [(1, [33])], []⟩ [33] ++ gen ∧
      gen.length ≤ 3 := by
  obtain ⟨gen, h1, h2, _⟩ := generate_reads_inside_buffer
    (⟨fun _ ids => List.replicate (ids.length * 2) 0, 2, exact_ops id, fun _ _ => 0, fun _ l => l,
      heap_partial_sort⟩ : Env ℚ)
    ⟨[([33], 1)], [(1, [33])], []⟩ ⟨3, 0, 0, 1, 50256⟩ [33] (by decide)
    (by intro step ids; simp)
    (by
      have he : encode ⟨[([33], 1)], [(1, [33])], []⟩ [33] = [1] := by
        simp only [encode, byte_pair_encode, initial_word, byte_tables_closed_form.1]
        decide!
      rw [he]
      decide)
  exact ⟨gen, h1, h2⟩

end SliceClaims

/-! ## Merging regroups the symbol string -/

theorem apply_merge_flatten (best : Int) : ∀ (n : Nat) (word : List Str) (i : Nat),
    word.length ≤ n → (apply_merge best i word).flatten = word.flatten := by
  intro n
  induction n with
  | zero =>
    intro word i h
    have : word = [] := List.length_eq_zero.mp (by omega)
    subst this
    simp [apply_merge]
  | succ k ih =>
    intro word i h
    match word, h with
    | [], _ => simp [apply_merge]
    | [a], _ => simp [apply_merge]
    | a :: b :: rest, h =>
      simp only [List.length_cons] at h
      unfold apply_merge
      split
      · rw [List.flatten_cons, ih rest (i + 2) (by omega)]
        simp [List.append_assoc]
      · rw [List.flatten_cons, ih (b :: rest) (i + 1) (by simp only [List.length_cons]; omega)]
        simp

theorem bpe_step_flatten (merges : List (Str × Str)) (word new_word : List Str)
    (h : bpe_step merges word = some new_word) : new_word.flatten = word.flatten := by
  unfold bpe_step at h
  simp only at h
  split at h
  · exact absurd h (by simp)
  · split at h
    · exact absurd h (by simp)
    · simp only [Option.some.injEq] at h
      rw [← h]
      exact apply_merge_flatten _ word.length word 0 (le_refl _)

theorem mergesTo_flatten (merges : List (Str × Str)) : ∀ (m : Nat) (w1 w2 : List Str),
    MergesTo merges m w1 w2 → w2.flatten = w1.flatten := by
  intro m w1 w2 h
  induction h with
  | done w => rfl
  | step m w1 w2 w3 hstep _ ih => rw [ih, bpe_step_flatten merges w1 w2 hstep]

theorem initial_word_flatten_length (token : Str) :
    (initial_word token).flatten.length ≤ token.length := by
  unfold initial_word
  induction token with
  | nil => simp
  | cons c cs ih =>
    simp only [List.map_cons, List.flatten_cons, List.length_append, List.length_cons]
    have := byte_symbol_length (to_char c)
    omega

/-- C22: for every pretoken and every MergeTable, the concatenation of the symbols
returned by `byte_pair_encode` is the concatenation of the byte-mapper symbols of
the bytes of the pretoken, in order; every pass of the merge loop that merges keeps
the concatenation of the sequence; and the result has as many bytes as the
pretoken has mapped symbols of one byte. -/
theorem byte_pair_encode_keeps_symbol_string (tok : Tokenizer) (token : Str) :
    (byte_pair_encode tok token).flatten =
        (token.map (fun c => Map.at byte_encoder_ (to_char c))).flatten ∧
      (∀ word new_word : List Str, bpe_step tok.merges_ word = some new_word →
        new_word.flatten = word.flatten) ∧
      (byte_pair_encode tok token).flatten.length ≤ token.length := by
  obtain ⟨m, hm, _, _⟩ := byte_pair_encode_chain tok token
  have hflat := mergesTo_flatten tok.merges_ m _ _ hm
  refine ⟨hflat, fun w w' h => bpe_step_flatten tok.merges_ w w' h, ?_⟩
  rw [hflat]
  exact initial_word_flatten_length token

/-! ## Decoding byte by byte -/

theorem to_int_small (n : Nat) (h : n < 2 ^ 31) : to_int n = (n : Int) := by
  unfold to_int
  have h1 : n % 2 ^ 32 = n := Nat.mod_eq_of_lt (by omega)
  rw [h1, if_pos h]

theorem try_lengths_single (dec : Map Str Nat) (hkeys : ∀ kv ∈ dec, kv.1.length = 1)
    (c : Nat) (rest : Str) : ∀ n : Nat, 1 ≤ n → n ≤ (c :: rest).length →
      try_lengths dec (c :: rest) n = (Map.find dec [c]).map (fun b => (b, 1)) := by
  intro n
  induction n with
  | zero => intro h; omega
  | succ k ih =>
    intro _ hle
    unfold try_lengths
    by_cases hk : k = 0
    · subst hk
      simp only [Nat.zero_add, List.take_succ_cons, List.take_zero]
      cases Map.find dec [c] with
      | none => simp [try_lengths]
      | some b => simp
    · have hnone : Map.find dec ((c :: rest).take (k + 1)) = none := by
        cases hf : Map.find dec ((c :: rest).take (k + 1)) with
        | none => rfl
        | some b =>
          have := hkeys _ (find_mem _ _ _ hf)
          simp only [List.length_take] at this
          omega
      simp only [hnone]
      exact ih (by omega) (by omega)

theorem decode_loop_map (dec : Map Str Nat) (hkeys : ∀ kv ∈ dec, kv.1.length = 1) :
    ∀ (fuel : Nat) (s result : Str), s.length < fuel → s.length < 2 ^ 31 →
      decode_loop dec fuel s result = some (result ++ s.map (decode_byte dec)) := by
  intro fuel
  induction fuel with
  | zero => intro s result h; omega
  | succ k ih =>
    intro s result h hs
    cases s with
    | nil => simp [decode_loop]
    | cons c rest =>
      have hn : (min (to_int (c :: rest).length) 4).toNat = min (c :: rest).length 4 := by
        rw [to_int_small _ hs]
        omega
      have hpos : 1 ≤ (c :: rest).length := by simp
      have htry := try_lengths_single dec hkeys c rest (min (c :: rest).length 4)
        (by omega) (by omega)
      unfold decode_loop
      rw [hn, htry]
      simp only [List.length_cons] at h hs
      cases hf : Map.find dec [c] with
      | none =>
        simp only [Option.map_none']
        rw [ih rest (result ++ [c]) (by omega) (by omega)]
        simp [decode_byte, hf]
      | some b =>
        simp only [Option.map_some', List.drop_succ_cons, List.drop_zero]
        rw [ih rest (result ++ [to_char b]) (by omega) (by omega)]
        simp [decode_byte, hf]

theorem byte_decoder_keys : ∀ kv ∈ byte_decoder_, kv.1.length = 1 := by
  intro kv h
  rw [byte_tables_closed_form.2] at h
  simp only [List.mem_append, List.mem_map] at h
  rcases h with ⟨b, _, rfl⟩ | ⟨b, _, rfl⟩ <;> rfl

theorem decode_bytes_map (s : Str) (h : s.length < 2 ^ 31) :
    decode_bytes s = s.map (decode_byte byte_decoder_) := by
  unfold decode_bytes
  rw [decode_loop_map byte_decoder_ byte_decoder_keys _ s [] (by omega) h]
  simp

theorem join_tokens_append (tok : Tokenizer) (xs ys : List Int) :
    join_tokens tok (xs ++ ys) = join_tokens tok xs ++ join_tokens tok ys := by
  simp only [join_tokens_eq, List.filterMap_append, List.flatten_append]

theorem decode_append_short (tok : Tokenizer) (xs ys : List Int)
    (h : (join_tokens tok (xs ++ ys)).length < 2 ^ 31) :
    decode tok (xs ++ ys) = decode tok xs ++ decode tok ys := by
  have hj := join_tokens_append tok xs ys
  have hl : (join_tokens tok xs).length + (join_tokens tok ys).length < 2 ^ 31 := by
    rw [hj, List.length_append] at h
    exact h
  unfold decode
  rw [hj, decode_bytes_map _ (by rw [List.length_append]; exact hl),
    decode_bytes_map _ (by omega), decode_bytes_map _ (by omega), List.map_append]

theorem decode_fragments (tok : Tokenizer) : ∀ gen : List Int,
    (join_tokens tok gen).length < 2 ^ 31 →
      (gen.map (fun t => decode tok [t])).flatten = decode tok gen := by
  intro gen
  induction gen with
  | nil =>
    intro _
    have : decode tok [] = [] := decode_bytes_map [] (by simp)
    simp [this]
  | cons t ts ih =>
    intro h
    have hj := join_tokens_append tok [t] ts
    have hcons : t :: ts = [t] ++ ts := rfl
    rw [hcons] at h
    have hl : (join_tokens tok [t]).length + (join_tokens tok ts).length < 2 ^ 31 := by
      rw [hj, List.length_append] at h
      exact h
    rw [List.map_cons, List.flatten_cons, ih (by omega), hcons, decode_append_short tok [t] ts h]

theorem decode_loop_extends (dec : Map Str Nat) : ∀ (fuel : Nat) (s result r : Str),
    decode_loop dec fuel s result = some r → ∃ t, r = result ++ t := by
  intro fuel
  induction fuel with
  | zero => intro s result r h; simp [decode_loop] at h
  | succ k ih =>
    intro s result r h
    cases s with
    | nil =>
      simp only [decode_loop, Option.some.injEq] at h
      exact ⟨[], by simp [h]⟩
    | cons c rest =>
      unfold decode_loop at h
      split at h
      · obtain ⟨t, ht⟩ := ih _ _ _ h
        exact ⟨_ :: t, by rw [ht, List.append_assoc]; rfl⟩
      · obtain ⟨t, ht⟩ := ih _ _ _ h
        exact ⟨_ :: t, by rw [ht, List.append_assoc]; rfl⟩

theorem decode_bytes_raw_head (c : Nat) (rest : Str)
    (h : (min (to_int (c :: rest).length) 4).toNat = 0) :
    ∃ r, decode_bytes (c :: rest) = c :: r := by
  obtain ⟨r, hr⟩ := decode_loop_terminates byte_decoder_ ((c :: rest).length + 1)
    (c :: rest) [] (by omega)
  have hr2 := hr
  unfold decode_loop at hr2
  rw [h] at hr2
  simp only [try_lengths, List.nil_append] at hr2
  obtain ⟨t, ht⟩ := decode_loop_extends _ _ _ _ _ hr2
  refine ⟨t, ?_⟩
  unfold decode_bytes
  rw [hr, ht]
  rfl

theorem join_tokens_two (a b : Str) :
    join_tokens ⟨[], [(0, a), (1, b)], []⟩ [0, 1] = a ++ b ∧
      join_tokens ⟨[], [(0, a), (1, b)], []⟩ [0] = a := by
  simp [join_tokens, Map.find]

section DecodeClaims

variable {α : Type} [LinearOrderedField α]

/-- C23 (the code departs from the claim): with the reverse Vocabulary
`{0: "!", 1: s}`, where `s` is `2^31 - 1` bytes `!`, the token text of `[0] ++ [1]`
has `2^31` bytes; at its first position `static_cast<int>(text.length() - i)` of
line 220 is `-2^31`, the loop over `len` does not run, no lookup is tried and the
byte `!` (33) is copied as it is, whereas `decode([0])` is the byte 127 that
`byte_decoder_` holds for `!`. So `decode([0] ++ [1])` starts with 33 and
`decode([0]) ++ decode([1])` starts with 127: `decode` does not distribute over
this concatenation. -/
theorem decode_not_distributive_at_int_wrap :
    (join_tokens ⟨[], [(0, [33]), (1, List.replicate (2 ^ 31 - 1) 33)], []⟩
        ([0] ++ [1])).length = 2 ^ 31 ∧
      to_int (2 ^ 31) = -2 ^ 31 ∧
      (decode ⟨[], [(0, [33]), (1, List.replicate (2 ^ 31 - 1) 33)], []⟩
        ([0] ++ [1])).head? = some 33 ∧
      decode ⟨[], [(0, [33]), (1, List.replicate (2 ^ 31 - 1) 33)], []⟩ [0] = [127] ∧
      decode ⟨[], [(0, [33]), (1, List.replicate (2 ^ 31 - 1) 33)], []⟩ ([0] ++ [1]) ≠
        decode ⟨[], [(0, [33]), (1, List.replicate (2 ^ 31 - 1) 33)], []⟩ [0] ++
          decode ⟨[], [(0, [33]), (1, List.replicate (2 ^ 31 - 1) 33)], []⟩ [1] := by
  have happ : ([0] ++ [1] : List Int) = [0, 1] := rfl
  have hj := join_tokens_two [33] (List.replicate (2 ^ 31 - 1) 33)
  have hlen : ([33] ++ List.replicate (2 ^ 31 - 1) 33 : Str).length = 2 ^ 31 := by
    rw [List.length_append, List.length_replicate, List.length_singleton]
    norm_num
  have hwrap : to_int (2 ^ 31) = -2 ^ 31 := by
    unfold to_int
    norm_num
  have hhead : (decode ⟨[], [(0, [33]), (1, List.replicate (2 ^ 31 - 1) 33)], []⟩
      ([0] ++ [1])).head? = some 33 := by
    unfold decode
    rw [happ, hj.1]
    obtain ⟨r, hr⟩ := decode_bytes_raw_head 33 (List.replicate (2 ^ 31 - 1) 33) (by
      have hl : (33 :: List.replicate (2 ^ 31 - 1) 33 : Str).length = 2 ^ 31 := hlen
      rw [hl, hwrap]
      norm_num)
    have hc : ([33] ++ List.replicate (2 ^ 31 - 1) 33 : Str) =
        33 :: List.replicate (2 ^ 31 - 1) 33 := List.singleton_append
    rw [hc, hr]
    rfl
  have hdec0 : decode ⟨[], [(0, [33]), (1, List.replicate (2 ^ 31 - 1) 33)], []⟩ [0] =
      [127] := by
    unfold decode
    rw [hj.2]
    simp only [decode_bytes, byte_tables_closed_form.2]
    decide!
  refine ⟨?_, hwrap, hhead, hdec0, ?_⟩
  · rw [happ, hj.1]
    exact hlen
  · intro heq
    have h1 := congrArg List.head? heq
    rw [hhead, hdec0] at h1
    generalize decode ⟨[], [(0, [33]), (1, List.replicate (2 ^ 31 - 1) 33)], []⟩ [1] = x at h1
    simp at h1

/-- Where the cast of line 220 does not wrap, `decode` distributes over
concatenation: for two id sequences whose token strings have fewer than `2^31`
bytes together, `decode(xs ++ ys) = decode(xs) ++ decode(ys)`; and in a run of
`generate` whose final token sequence has a token text below that size, the text
fragments printed for the appended tokens, concatenated in generation order, are
the decoding of the generated ids, and the returned text is `decode(prompt ids)`
followed by those fragments. -/
theorem decode_distributes_below_int_wrap (env : Env α) (tok : Tokenizer)
    (cfg : GenerationConfig α) (prompt : Str) (xs ys : List Int)
    (hxy : (join_tokens tok (xs ++ ys)).length < 2 ^ 31)
    (hrun : (join_tokens tok (generate_run env tok cfg prompt).input_ids).length < 2 ^ 31) :
    decode tok (xs ++ ys) = decode tok xs ++ decode tok ys ∧
      ∃ gen : List Int,
        (generate_run env tok cfg prompt).input_ids = encode tok prompt ++ gen ∧
        (generate_run env tok cfg prompt).fragments = gen.map (fun t => decode tok [t]) ∧
        (generate_run env tok cfg prompt).fragments.flatten = decode tok gen ∧
        decode tok (generate_run env tok cfg prompt).input_ids =
          decode tok (encode tok prompt) ++
            (generate_run env tok cfg prompt).fragments.flatten ∧
        ∀ text, generate env tok cfg prompt = some text →
          text = decode tok (encode tok prompt) ++
            (generate_run env tok cfg prompt).fragments.flatten := by
  refine ⟨decode_append_short tok xs ys hxy, ?_⟩
  obtain ⟨gen, h1, h2, _⟩ := gen_loop_spec env tok cfg cfg.max_length.toNat 0
    { input_ids := encode tok prompt, fragments := [], defined := true }
  have h1' : (generate_run env tok cfg prompt).input_ids = encode tok prompt ++ gen := h1
  have h2' : (generate_run env tok cfg prompt).fragments =
      gen.map (fun t => decode tok [t]) := by
    have : (generate_run env tok cfg prompt).fragments =
        [] ++ gen.map (fun t => decode tok [t]) := h2
    rw [this, List.nil_append]
  rw [h1'] at hrun
  have hgen : (join_tokens tok gen).length < 2 ^ 31 := by
    rw [join_tokens_append, List.length_append] at hrun
    omega
  have hfrag : (generate_run env tok cfg prompt).fragments.flatten = decode tok gen := by
    rw [h2']
    exact decode_fragments tok gen hgen
  have hall : decode tok (generate_run env tok cfg prompt).input_ids =
      decode tok (encode tok prompt) ++
        (generate_run env tok cfg prompt).fragments.flatten := by
    rw [h1', hfrag]
    exact decode_append_short tok _ _ hrun
  refine ⟨gen, h1', h2', hfrag, hall, ?_⟩
  intro text htext
  unfold generate gen_result at htext
  split at htext
  · simp only [Option.some.injEq] at htext
    rw [← htext]
    exact hall
  · exact absurd htext (by simp)

theorem decode_distributes_below_int_wrap_witness :
    decode ⟨[([33], 0)], [(0, [33])], []⟩ ([0] ++ [0, 0]) =
      decode ⟨[([33], 0)], [(0, [33])], []⟩ [0] ++
        decode ⟨[([33], 0)], [(0, [33])], []⟩ [0, 0] :=
  (decode_distributes_below_int_wrap
    (⟨fun _ ids => List.replicate (ids.length * 2) 0, 2, exact_ops id, fun _ _ => 0, fun _ l => l,
      heap_partial_sort⟩ : Env ℚ)
    ⟨[([33], 0)], [(0, [33])], []⟩ ⟨2, 0, 0, 1, 50256⟩ [33] [0] [0, 0] (by decide)
    (by
      have hids : (generate_run
          (⟨fun _ ids => List.replicate (ids.length * 2) 0, 2, exact_ops id, fun _ _ => 0, fun _ l => l,
            heap_partial_sort⟩ : Env ℚ)
          ⟨[([33], 0)], [(0, [33])], []⟩ ⟨2, 0, 0, 1, 50256⟩ [33]).input_ids = [0, 0, 0] := by
        simp only [generate_run, encode, byte_pair_encode, initial_word,
          byte_tables_closed_form.1]
        decide!
      rw [hids]
      decide)).1

end DecodeClaims

end Inference
